import Mathlib

/-!
# A verification development for `shell.c`

The C source is embedded shallowly.  A character buffer is a `List Char`; the
C string it holds ends at the first NUL byte (or at the end of the list).
`strtok` is embedded with explicit cursor passing: the text still to be scanned
is threaded through the callers, together with the bytes already scanned, so
that the NUL bytes `strtok` writes into the buffer are visible to later readers
of the same buffer.  Pointer arrays (`argv`, `files`) are memories indexed by
integers whose cells are unwritten, NULL, or a pointer to a token.  The
functions take the arrays as C hands them over, without a length; the length
`main` declares for `argv` is taken into account in `main_body_declared`,
where an assignment outside the array is undefined.
-/

namespace CShell

/-! ## Characters and C strings -/

/-- The byte that terminates a C string. -/
def NUL : Char := Char.ofNat 0

/-- Membership in the delimiter set `" \n\t"` that is handed to `strtok`. -/
def isWs (c : Char) : Bool := c == ' ' || c == '\n' || c == '\t'

/-- The test `strchr(" \n\t", c) != NULL`.  `strchr` also finds the terminating
NUL of the set, so the test succeeds for the NUL byte as well. -/
def inDelims (c : Char) : Bool := isWs c || c == NUL

/-- The string held by a buffer: the bytes before the first NUL. -/
def cstr (buf : List Char) : List Char := buf.takeWhile (fun c => c != NUL)

/-- `strlen(buf)`. -/
def strlen (buf : List Char) : Nat := (cstr buf).length

/-- `buf[i]`; past the bytes that were read the buffer holds NUL. -/
def charAt (buf : List Char) (i : Nat) : Char := buf.getD i NUL

/-! ## `count_arguments` -/

/-- One iteration of the `for` loop of `count_arguments` at index `i`. -/
def count_step (input_buf : List Char) (len : Int) (i : Nat) : Int :=
  let len1 : Int :=
    if !inDelims (charAt input_buf i) && inDelims (charAt input_buf (i - 1)) then len + 1
    else len
  if charAt input_buf i = '<' then len1 - 2
  else if charAt input_buf i = '>' then
    (if charAt input_buf (i - 1) ≠ '>' then len1 - 2 else len1)
  else len1

/-- The function `count_arguments` of `shell.c`. -/
def count_arguments (input_buf : List Char) : Int :=
  let len0 : Int :=
    if inDelims (charAt input_buf 0) then 0
    else if charAt input_buf 0 = '<' ∨ charAt input_buf 0 = '>' then -1
    else 1
  (List.range' 1 (strlen input_buf - 1)).foldl (count_step input_buf) len0

/-! ## `strtok` -/

/-- The result of one `strtok` call: the token returned (`none` for NULL), the
bytes the cursor moved over as they stand in the buffer afterwards, and the
text that is left for the next call. -/
structure Strtok where
  tok : Option (List Char)
  passed : List Char
  rest : List Char

/-- The library function `strtok` for a delimiter set `delim`, on the text at
the cursor.  Leading delimiters are skipped; at the end of the string NULL is
returned; otherwise the token runs up to the next delimiter, which is
overwritten by NUL, and the cursor moves past it. -/
def strtok (delim : Char → Bool) (text : List Char) : Strtok :=
  let skipped := text.takeWhile delim
  match text.dropWhile delim with
  | [] => ⟨none, skipped, []⟩
  | c :: r =>
    if c = NUL then ⟨none, skipped, c :: r⟩
    else
      let body := (c :: r).takeWhile (fun x => !delim x && x != NUL)
      match (c :: r).dropWhile (fun x => !delim x && x != NUL) with
      | [] => ⟨some body, skipped ++ body, []⟩
      | d :: r2 =>
        if d = NUL then ⟨some body, skipped ++ body, d :: r2⟩
        else ⟨some body, skipped ++ body ++ [NUL], r2⟩

/-! ## Pointer arrays -/

/-- A cell of a `char *` array. -/
inductive Cell where
  | unwritten : Cell
  | null : Cell
  | tok (text : List Char) : Cell
  deriving DecidableEq, Repr

/-- A `char *` array, indexed by the integer used in the subscript. -/
abbrev Mem := Int → Cell

/-- The assignment `m[i] = c`. -/
def Mem.set (m : Mem) (i : Int) (c : Cell) : Mem := fun j => if j = i then c else m j

/-- An array none of whose cells has been assigned. -/
def Mem.fresh : Mem := fun _ => Cell.unwritten

/-! ## `construct_argv` -/

/-- The diagnostics `construct_argv` prints on the error stream. -/
inductive Diag where
  | multipleInput : Diag
  | multipleOutput : Diag
  | noOutput : Diag
  | noInput : Diag
  deriving DecidableEq, Repr

/-- The text printed for a diagnostic. -/
def Diag.text : Diag → String
  | .multipleInput => "syntax error: multiple input files\n"
  | .multipleOutput => "syntax error: multiple output files\n"
  | .noOutput => "syntax error: no output file\n"
  | .noInput => "syntax error: no input file\n"

/-- The local variables of `construct_argv` and the two arrays it writes. -/
structure PState where
  count : Int
  is_input : Bool
  is_output : Bool
  append : Int
  already_input : Bool
  already_output : Bool
  argv : Mem
  files : Mem

/-- The body of the `while` loop of `construct_argv` for a token `arg` that is
not NULL: the chain of `else if` branches on `*arg`.  An error is the
diagnostic printed before `return -1`. -/
def classify (st : PState) (arg : List Char) : Except Diag PState :=
  if arg.headD NUL = '<' then
    if st.already_input then .error .multipleInput
    else .ok { st with is_input := true }
  else if arg.headD NUL = '>' then
    if st.already_output then .error .multipleOutput
    else .ok { st with append := if arg = ['>', '>'] then 1 else st.append, is_output := true }
  else if st.is_input then
    .ok { st with files := st.files.set 0 (.tok arg), is_input := false }
  else if st.is_output then
    .ok { st with files := st.files.set 1 (.tok arg), is_output := false }
  else
    .ok { st with argv := st.argv.set st.count (.tok arg), count := st.count + 1 }

/-- How the `while` loop of `construct_argv` ends; `done ++ rest` is the buffer,
split at the `strtok` cursor. -/
inductive LoopResult where
  | noFuel : LoopResult
  | failed (d : Diag) (st : PState) (done rest : List Char) : LoopResult
  | finished (st : PState) (done rest : List Char) : LoopResult

/-- The `while (leave)` loop of `construct_argv`; `fuel` bounds the number of
iterations, `done` is the part of the buffer before the `strtok` cursor and
`rest` the part after it. -/
def construct_loop : Nat → List Char → List Char → PState → LoopResult
  | 0, _, _, _ => .noFuel
  | fuel + 1, done, rest, st =>
    let r := strtok isWs rest
    match r.tok with
    | none => .finished st (done ++ r.passed) r.rest
    | some arg =>
      match classify st arg with
      | .error d => .failed d st (done ++ r.passed) r.rest
      | .ok st1 => construct_loop fuel (done ++ r.passed) r.rest st1

/-- What a call of `construct_argv` does: it evaluates `*arg` for a NULL `arg`,
or it returns `ret` after printing `diag`, leaving the arrays and the buffer as
given. -/
inductive Outcome where
  | nullDeref : Outcome
  | noFuel : Outcome
  | returned (ret : Int) (diag : Option Diag) (argv files : Mem) (buf : List Char) : Outcome

/-- The values of the local variables of `construct_argv` after the first token
`arg` has been examined. -/
def first_token (argv files : Mem) (arg : List Char) : PState :=
  let base : PState :=
    { count := 1, is_input := false, is_output := false, append := 0,
      already_input := false, already_output := false, argv := argv, files := files }
  if arg.headD NUL = '<' then { base with is_input := true, count := base.count - 1 }
  else if arg.headD NUL = '>' then
    { base with is_output := true, append := if arg = ['>', '>'] then 1 else 0,
                count := base.count - 1 }
  else { base with argv := argv.set 0 (.tok arg) }

/-- The function `construct_argv` of `shell.c`.  `nullDeref` is the evaluation
of `*arg` when the first `strtok` call returned NULL. -/
def construct_argv (arg_len : Int) (input_buf : List Char) (argv files : Mem) : Outcome :=
  let r := strtok isWs input_buf
  match r.tok with
  | none => .nullDeref
  | some arg =>
    match construct_loop (r.rest.length + 1) r.passed r.rest (first_token argv files arg) with
    | .noFuel => .noFuel
    | .failed d st done rest => .returned (-1) (some d) st.argv st.files (done ++ rest)
    | .finished st done rest =>
      if st.is_output then .returned (-1) (some .noOutput) st.argv st.files (done ++ rest)
      else if st.is_input then .returned (-1) (some .noInput) st.argv st.files (done ++ rest)
      else .returned st.append none (st.argv.set arg_len .null) st.files (done ++ rest)

/-! ## `set_first_arg` -/

/-- The `while` loop of `set_first_arg`: `strtok(NULL, "/")` is called until it
returns NULL, and `first_arg` keeps the last token found.  `none` means the
fuel ran out. -/
def set_first_arg_loop : Nat → List Char → Option (List Char) → Option (Option (List Char))
  | 0, _, _ => none
  | fuel + 1, rest, first_arg =>
    let r := strtok (fun c => c == '/') rest
    match r.tok with
    | some temp => set_first_arg_loop fuel r.rest (some temp)
    | none => some first_arg

/-- The function `set_first_arg` of `shell.c`, for an `argv[0]` that points to a
token.  `none` stands for a call with `argv[0]` NULL or unassigned (or for
exhausted fuel), which `main` never makes. -/
def set_first_arg (argv : Mem) : Option Mem :=
  match argv 0 with
  | .tok s =>
    let r := strtok (fun c => c == '/') s
    match set_first_arg_loop (r.rest.length + 1) r.rest r.tok with
    | none => none
    | some none => some (argv.set 0 .null)
    | some (some t) => some (argv.set 0 (.tok t))
  | _ => none

/-! ## Built-in commands and the child process -/

/-- The flags passed to `open`. -/
inductive OFlag where
  | O_RDONLY : OFlag
  | O_WRONLY : OFlag
  | O_CREAT : OFlag
  | O_APPEND : OFlag
  | O_TRUNC : OFlag
  deriving DecidableEq, Repr

/-- The actions of the forked child, in order.  What follows `execv` happens
only if `execv` returns. -/
inductive ChildAct where
  | close (fd : Nat) : ChildAct
  | openFile (path : List Char) (flags : List OFlag) (mode : Option Nat) : ChildAct
  | execv (file_name : List Char) (argv : Mem) : ChildAct
  | perror (tag : String) : ChildAct
  | exit (status : Int) : ChildAct

/-- The calls the shell process makes, in order. -/
inductive Event where
  | diag (d : Diag) : Event
  | write2 (msg : String) : Event
  | perror (tag : String) : Event
  | chdir (path : List Char) : Event
  | link (src : List Char) (dst : Cell) : Event
  | unlink (path : Cell) : Event
  | fork (child : Option (List ChildAct)) : Event
  | wait : Event
  | clear : Event
  | prompt : Event

/-- The return values of the system calls the built-ins make. -/
structure Sys where
  chdir : List Char → Int
  link : List Char → Cell → Int
  unlink : Cell → Int

/-- The function `exec_built_in_commands` of `shell.c`: the value returned and
the calls made.  `none` stands for the use of an array cell that was never
assigned. -/
def exec_built_in_commands (sys : Sys) (argv : Mem) (file_name : List Char) :
    Option (Int × List Event) :=
  if file_name = ['c', 'd'] then
    match argv 1 with
    | .unwritten => none
    | .null => some (0, [.write2 "cd: syntax error\n"])
    | .tok p =>
      if sys.chdir p = -1 then some (0, [.chdir p, .perror "cd"]) else some (0, [.chdir p])
  else if file_name = ['l', 'n'] then
    match argv 1 with
    | .unwritten => none
    | .null => some (0, [.write2 "ln: missing file operand\n"])
    | .tok p =>
      match argv 2 with
      | .unwritten => none
      | dst =>
        if sys.link p dst = -1 then some (0, [.link p dst, .perror "ln"])
        else some (0, [.link p dst])
  else if file_name = ['r', 'm'] then
    match argv 1 with
    | .unwritten => none
    | target =>
      let said : List Event :=
        if target = .null then [.write2 "rm: syntax error\n"] else []
      if sys.unlink target = -1 then some (0, said ++ [.unlink target, .perror "rm"])
      else some (0, said ++ [.unlink target])
  else some (-1, [])

/-- The function `handle_child_process` of `shell.c`, as the list of actions of
the process in which `fork` returned 0.  `none` stands for the use of a cell of
`files` that was never assigned. -/
def handle_child_process (argv : Mem) (file_name : List Char) (files : Mem) (is_append : Int) :
    Option (List ChildAct) :=
  let input : Option (List ChildAct) :=
    match files 0 with
    | .unwritten => none
    | .null => some []
    | .tok p => some [.close 0, .openFile p [.O_RDONLY, .O_CREAT] none]
  let output : Option (List ChildAct) :=
    match files 1 with
    | .unwritten => none
    | .null => some []
    | .tok p =>
      if is_append ≠ 0 then
        some [.close 1, .openFile p [.O_WRONLY, .O_CREAT, .O_APPEND] (some 0o600)]
      else some [.close 1, .openFile p [.O_WRONLY, .O_CREAT, .O_TRUNC] (some 0o600)]
  match input, output with
  | some i, some o => some (i ++ o ++ [.execv file_name argv, .perror "execv", .exit 1])
  | _, _ => none

/-! ## `main` -/

/-- The test `strncmp(a, b, n) == 0`: at most `n` bytes are compared, and the
comparison stops after a NUL byte. -/
def strncmp_eq : List Char → List Char → Nat → Bool
  | _, _, 0 => true
  | a, b, n + 1 =>
    if a.headD NUL ≠ b.headD NUL then false
    else if a.headD NUL = NUL then true
    else strncmp_eq a.tail b.tail n

/-- How one pass through the body of the `while` loop of `main` ends. -/
inductive Step where
  | undefined (trace : List Event) : Step
  | noFuel : Step
  | exit (status : Int) (trace : List Event) : Step
  | again (input_buf : List Char) (trace : List Event) : Step
  | reprompt (trace : List Event) : Step

/-- One pass through the body of the `while` loop of `main`, from the call of
`count_arguments` down to the call of `wait`, for the buffer contents
`input_buf` and the contents `argv` and `files` have when they are declared.
`again` is the `continue` statement, which goes back to the loop test with the
buffer as `strtok` left it; `reprompt` is reaching the `memset` calls and the
next `prompt`; `undefined` is a NULL dereference or the use of an unassigned
cell.  Subscripts are not checked against the declared length of `argv`. -/
def main_body (sys : Sys) (input_buf : List Char) (argv files : Mem) : Step :=
  let arg_len := count_arguments input_buf
  match construct_argv arg_len input_buf argv files with
  | .nullDeref => .undefined []
  | .noFuel => .noFuel
  | .returned is_append diag argv1 files1 buf =>
    let trace : List Event := diag.toList.map Event.diag
    match argv1 0 with
    | .unwritten => .undefined trace
    | .null => .reprompt trace
    | .tok file_name =>
      if is_append < 0 then .again buf trace
      else
        match set_first_arg argv1 with
        | none => .noFuel
        | some argv2 =>
          if strncmp_eq file_name ['e', 'x', 'i', 't'] file_name.length then .exit 0 trace
          else
            match exec_built_in_commands sys argv2 file_name with
            | none => .undefined trace
            | some (r, calls) =>
              if r = -1 then
                .reprompt (trace ++ calls ++
                  [.fork (handle_child_process argv2 file_name files1 is_append), .wait])
              else .reprompt (trace ++ calls ++ [.wait])

/-- How a run of the shell ends. -/
inductive Run where
  | undefined (trace : List Event) : Run
  | noFuel (trace : List Event) : Run
  | exit (status : Int) (trace : List Event) : Run

/-- The call `prompt(input_buf)` at the end of the loop body (and before the
loop): the next line is read; a read of zero bytes, or the end of the lines to
read, ends the loop.  The bytes of the buffer after the line are NUL. -/
def prompt (reads : List (List Char)) : Option (List Char × List (List Char)) :=
  match reads with
  | [] => none
  | l :: ls => if l = [] then none else some (l, ls)

/-- The `while (input)` loop of `main`, entered with `input_buf` just read and
`reads` the lines `read` will deliver next; `argv` and `files` are declared
afresh on every pass.  `fuel` bounds the number of passes. -/
def main_loop : Nat → Sys → List Char → List (List Char) → List Event → Run
  | 0, _, _, _, trace => .noFuel trace
  | fuel + 1, sys, input_buf, reads, trace =>
    match main_body sys input_buf Mem.fresh Mem.fresh with
    | .undefined t => .undefined (trace ++ t)
    | .noFuel => .noFuel trace
    | .exit status t => .exit status (trace ++ t)
    | .again buf t => main_loop fuel sys buf reads (trace ++ t)
    | .reprompt t =>
      match prompt reads with
      | none => .exit 0 (trace ++ t ++ [.clear, .prompt])
      | some (l, ls) => main_loop fuel sys l ls (trace ++ t ++ [.clear, .prompt])

/-- The function `main` of `shell.c` on the lines `reads`. -/
def main (fuel : Nat) (sys : Sys) (reads : List (List Char)) : Run :=
  match prompt reads with
  | none => .exit 0 [.prompt]
  | some (l, ls) => main_loop fuel sys l ls [.prompt]

/-! ## Token-level notions used in the statements -/

/-- The change of the count caused by the byte `c` when the byte before it is
`p`: one more on a switch from whitespace to a token byte, two fewer on a `<`
and on a `>` that does not follow a `>`. -/
def charWeight (p c : Char) : Int :=
  (if !isWs c && isWs p then 1 else 0) +
    (if c = '<' then -2 else if c = '>' ∧ p ≠ '>' then -2 else 0)

/-- The sum of the changes of the count over the bytes of `s`, when the byte
before `s` is `p`. -/
def cnt : Char → List Char → Int
  | _, [] => 0
  | p, c :: cs => charWeight p c + cnt c cs

/-- The token bytes `s` starts with, and the whitespace-separated tokens that
come after them. -/
def splitWords : List Char → List Char × List (List Char)
  | [] => ([], [])
  | c :: cs =>
    let r := splitWords cs
    if isWs c then ([], if r.1 = [] then r.2 else r.1 :: r.2) else (c :: r.1, r.2)

/-- The whitespace-separated tokens of a string (whitespace is space, tab and
newline), in order. -/
def words (s : List Char) : List (List Char) :=
  if (splitWords s).1 = [] then (splitWords s).2 else (splitWords s).1 :: (splitWords s).2

/-- The tokens of the line held by a buffer. -/
def tokens (input_buf : List Char) : List (List Char) := words (cstr input_buf)

/-! ## The parser on a list of tokens -/

/-- The loop body of `construct_argv` applied to the tokens `toks` in turn.  An
error carries the diagnostic and the variables at the `return -1`. -/
def feed : PState → List (List Char) → Except (Diag × PState) PState
  | st, [] => .ok st
  | st, t :: ts =>
    match classify st t with
    | .error d => .error (d, st)
    | .ok st1 => feed st1 ts

/-- The values of the local variables of `construct_argv` from which the loop
body, applied to the first token, gives `first_token`. -/
def init_state (argv files : Mem) : PState :=
  { count := 0, is_input := false, is_output := false, append := 0,
    already_input := false, already_output := false, argv := argv, files := files }

/-- The part of `construct_argv` after the loop, for a buffer left as `buf`. -/
def conclude (arg_len : Int) (buf : List Char) : Except (Diag × PState) PState → Outcome
  | .error (d, st) => .returned (-1) (some d) st.argv st.files buf
  | .ok st =>
    if st.is_output then .returned (-1) (some .noOutput) st.argv st.files buf
    else if st.is_input then .returned (-1) (some .noInput) st.argv st.files buf
    else .returned st.append none (st.argv.set arg_len .null) st.files buf

/-- The value returned by a call, when it returns. -/
def Outcome.ret : Outcome → Option Int
  | .returned r _ _ _ _ => some r
  | _ => none

/-- The diagnostic printed by a call. -/
def Outcome.diag : Outcome → Option Diag
  | .returned _ d _ _ _ => d
  | _ => none

/-- The array `argv` after a call that returned. -/
def Outcome.argv : Outcome → Mem
  | .returned _ _ a _ _ => a
  | _ => Mem.fresh

/-- The array `files` after a call that returned. -/
def Outcome.files : Outcome → Mem
  | .returned _ _ _ f _ => f
  | _ => Mem.fresh

/-- The buffer after a call that returned. -/
def Outcome.buf : Outcome → List Char
  | .returned _ _ _ _ b => b
  | _ => []

/-- The call returned without a diagnostic, that is, it returned `append`. -/
def Outcome.accepted : Outcome → Bool
  | .returned _ none _ _ _ => true
  | _ => false


/-- A redirection operator token: `<`, `>` or `>>`. -/
def isOperator (t : List Char) : Bool := t == ['<'] || t == ['>'] || t == ['>', '>']

/-- The test `construct_argv` makes on a token: `*arg == '<'` or `*arg == '>'`. -/
def startsRedir (t : List Char) : Bool := t.headD NUL == '<' || t.headD NUL == '>'

/-- The tokens of `toks`, in order, that are not an operator and do not come
immediately after an operator; `op` says which tokens are operators and
`prevOp` whether the token before `toks` is one. -/
def plainFrom (op : List Char → Bool) : Bool → List (List Char) → List (List Char)
  | _, [] => []
  | prevOp, t :: ts =>
    if op t then plainFrom op true ts
    else if prevOp then plainFrom op false ts
    else t :: plainFrom op false ts

/-- Every operator of `toks` is immediately followed by a token that is not an
operator; `op` says which tokens are operators and `prevOp` whether the token
before `toks` is one (so that `toks` has to start with a token that is not). -/
def followed (op : List Char → Bool) : Bool → List (List Char) → Bool
  | prevOp, [] => !prevOp
  | prevOp, t :: ts => if op t then !prevOp && followed op true ts else followed op false ts

/-- The assignments `m[k] = ts[0]`, `m[k+1] = ts[1]`, and so on. -/
def storeAll (m : Mem) (k : Int) : List (List Char) → Mem
  | [] => m
  | t :: ts => storeAll (m.set k (.tok t)) (k + 1) ts


/-- The cell of `files` that receives the path of an operator token: 0 for an
input operator, 1 for an output operator. -/
def redirIndex (t : List Char) : Int := if t.headD NUL = '<' then 0 else 1

/-- An output operator token: `>` or `>>`. -/
def isOutputOperator (t : List Char) : Bool := t == ['>'] || t == ['>', '>']


/-- Which operators still await their path after the tokens `toks`, as the pair
(input awaited, output awaited), starting from the pair `s`.  An operator is a
token whose first character is `<` or `>`; a token that is not an operator is
the path of the awaiting input operator if there is one, and otherwise of the
awaiting output operator. -/
def awaiting : Bool × Bool → List (List Char) → Bool × Bool
  | s, [] => s
  | s, t :: ts =>
    if t.headD NUL = '<' then awaiting (true, s.2) ts
    else if t.headD NUL = '>' then awaiting (s.1, true) ts
    else if s.1 then awaiting (false, s.2) ts
    else awaiting (false, false) ts

/-! ## Views of the traces -/

/-- An event without the arrays it carries. -/
inductive EventKind where
  | diag (d : Diag) : EventKind
  | write2 (msg : String) : EventKind
  | perror (tag : String) : EventKind
  | chdir (path : List Char) : EventKind
  | link (src : List Char) (dst : Cell) : EventKind
  | unlink (path : Cell) : EventKind
  | fork : EventKind
  | wait : EventKind
  | clear : EventKind
  | prompt : EventKind
  deriving DecidableEq, Repr

/-- The kind of an event. -/
def Event.kind : Event → EventKind
  | .diag d => .diag d
  | .write2 m => .write2 m
  | .perror t => .perror t
  | .chdir p => .chdir p
  | .link a b => .link a b
  | .unlink p => .unlink p
  | .fork _ => .fork
  | .wait => .wait
  | .clear => .clear
  | .prompt => .prompt

/-- The calls made during one pass through the loop body. -/
def Step.trace : Step → List Event
  | .undefined t => t
  | .noFuel => []
  | .exit _ t => t
  | .again _ t => t
  | .reprompt t => t

/-- The kinds of the calls made during one pass through the loop body. -/
def Step.kinds (s : Step) : List EventKind := s.trace.map Event.kind

/-- The status with which `main` returns during the pass, if it does. -/
def Step.status : Step → Option Int
  | .exit status _ => some status
  | _ => none

/-- The buffer with which the loop body is run again without a new line having
been read, if the pass ends in `continue`. -/
def Step.rerun : Step → Option (List Char)
  | .again buf _ => some buf
  | _ => none

/-- The pass reached the `memset` calls and the next `prompt`. -/
def Step.reprompts : Step → Bool
  | .reprompt _ => true
  | _ => false

/-- The pass dereferenced NULL or used an unassigned cell. -/
def Step.isUndefined : Step → Bool
  | .undefined _ => true
  | _ => false

/-- The kinds of the calls made during a run. -/
def Run.kinds : Run → List EventKind
  | .undefined t => t.map Event.kind
  | .noFuel t => t.map Event.kind
  | .exit _ t => t.map Event.kind

/-- The status with which `main` returns, if it does. -/
def Run.status : Run → Option Int
  | .exit status _ => some status
  | _ => none

/-- A system none of whose calls fails. -/
def Sys.ok : Sys := { chdir := fun _ => 0, link := fun _ _ => 0, unlink := fun _ => 0 }


/-! ## The child's plan, from the words of the specification -/

/-- The path a cell of `files` stands for: none when the cell is NULL. -/
def Cell.path : Cell → Option (List Char)
  | .tok p => some p
  | _ => none

/-- The actions the specification asks of the child before the program is
replaced, for an optional input path, an optional output path and the append
flag: the input is bound by closing descriptor 0 and opening the path
read-only with create-if-absent; the output by closing descriptor 1 and opening
the path write-only with create-if-absent and mode 0600, truncating unless the
append flag is set, in which case writes are appended. -/
def redirection_plan (input output : Option (List Char)) (append : Int) : List ChildAct :=
  (match input with
    | some p => [ChildAct.close 0, ChildAct.openFile p [.O_RDONLY, .O_CREAT] none]
    | none => []) ++
  (match output with
    | some p =>
      [ChildAct.close 1,
       ChildAct.openFile p
         (if append = 0 then [.O_WRONLY, .O_CREAT, .O_TRUNC] else [.O_WRONLY, .O_CREAT, .O_APPEND])
         (some 0o600)]
    | none => [])

/-- The action touches the descriptor `fd`: it closes it. -/
def ChildAct.closes (fd : Nat) : ChildAct → Bool
  | .close n => n == fd
  | _ => false

/-- The action is a call of `execv`. -/
def ChildAct.isExecv : ChildAct → Bool
  | .execv _ _ => true
  | _ => false

/-- The flags of the action, when it is a call of `open`. -/
def ChildAct.flags : ChildAct → List OFlag
  | .openFile _ fl _ => fl
  | _ => []

/-- A system all of whose calls fail. -/
def Sys.failing : Sys := { chdir := fun _ => -1, link := fun _ _ => -1, unlink := fun _ => -1 }


/-- An array all of whose cells are NULL. -/
def Mem.cleared : Mem := fun _ => Cell.null


/-! ## The closed form of the count -/

/-- Position `i` of the line `s` starts a token: `s[i]` is not whitespace, and
`i` is 0 or `s[i-1]` is whitespace. -/
def tokenStartAt (s : List Char) (i : Nat) : Bool :=
  !isWs (charAt s i) && (i == 0 || isWs (charAt s (i - 1)))

/-- Position `i` of the line `s` holds a `<`, or a `>` that is not immediately
preceded by a `>`. -/
def redirAt (s : List Char) (i : Nat) : Bool :=
  charAt s i == '<' || (charAt s i == '>' && (i == 0 || charAt s (i - 1) != '>'))

/-- The number `T` of positions of the line at which a token starts. -/
def tokenStartCount (s : List Char) : Nat := (List.range s.length).countP (tokenStartAt s)

/-- The number `D` of `<` characters of the line plus the number of its `>`
characters that are not immediately preceded by a `>`. -/
def redirCount (s : List Char) : Nat := (List.range s.length).countP (redirAt s)

/-- The number of characters `c` of `s` for which `f p c` holds, `p` being the
character before `c`, and the character before `s` being `p`. -/
def countPairs (f : Char → Char → Bool) : Char → List Char → Nat
  | _, [] => 0
  | p, c :: cs => (if f p c then 1 else 0) + countPairs f c cs

/-- After `p`, the character `c` starts a token. -/
def startsToken (p c : Char) : Bool := !isWs c && isWs p

/-- After `p`, the character `c` is a `<`, or a `>` that does not follow a `>`. -/
def countsRedir (p c : Char) : Bool := c == '<' || (c == '>' && p != '>')


/-! ## What the parser stores, on a list of tokens -/

/-- The tokens of `toks` that are appended to the argument vector, in order,
starting from the pair `s` of awaited paths (see `awaiting`): a token is
appended when it is not an operator and no operator awaits its path. -/
def storedList : Bool × Bool → List (List Char) → List (List Char)
  | _, [] => []
  | s, t :: ts =>
    if t.headD NUL = '<' then storedList (true, s.2) ts
    else if t.headD NUL = '>' then storedList (s.1, true) ts
    else if s.1 then storedList (false, s.2) ts
    else if s.2 then storedList (false, false) ts
    else t :: storedList (false, false) ts

/-- The number of tokens of `toks` that are taken as the path of an operator,
starting from the pair `s` of awaited paths. -/
def pathCount : Bool × Bool → List (List Char) → Nat
  | _, [] => 0
  | s, t :: ts =>
    if t.headD NUL = '<' then pathCount (true, s.2) ts
    else if t.headD NUL = '>' then pathCount (s.1, true) ts
    else if s.1 then 1 + pathCount (false, s.2) ts
    else if s.2 then 1 + pathCount (false, false) ts
    else pathCount (false, false) ts

/-- The number of paths awaited in the pair `s`. -/
def awaitedCount (s : Bool × Bool) : Nat := s.1.toNat + s.2.toNat

/-- The number of `<` characters of the token `t` plus the number of its `>`
characters that are not immediately preceded by a `>`. -/
def tokRedirs (t : List Char) : Nat := countPairs countsRedir ' ' t


/-! ## Path segments -/

/-- The substring of `s` after its last `/`, and `s` itself when it holds no
`/`. -/
def afterLastSlash : List Char → List Char
  | [] => []
  | c :: cs => if '/' ∈ cs then afterLastSlash cs else if c = '/' then cs else c :: cs

/-- The last non-empty run of characters other than `/` in `s`, if there is
one, found by a scan from the left: `cur` is the run being read and `last` the
last run that was completed. -/
def lastSegment : List Char → List Char → Option (List Char) → Option (List Char)
  | [], cur, last => if cur = [] then last else some cur
  | c :: cs, cur, last =>
    if c = '/' then lastSegment cs [] (if cur = [] then last else some cur)
    else lastSegment cs (cur ++ [c]) last

/-- The cell that holds the pointer `strtok` returned. -/
def Cell.ofToken : Option (List Char) → Cell
  | none => .null
  | some t => .tok t


/-! ## The declared length of `argv` -/

/-- Whether the subscript `i` lies inside an array declared with `len` cells. -/
def inArray (len i : Int) : Bool := decide (0 ≤ i) && decide (i < len)

/-- The cell of `argv` the body of the `while` loop of `construct_argv` assigns
for a token `arg`: `argv[count]` in the last `else` branch, and none in the
other branches. -/
def assigned_subscript (st : PState) (arg : List Char) : Option Int :=
  if arg.headD NUL = '<' then none
  else if arg.headD NUL = '>' then none
  else if st.is_input then none
  else if st.is_output then none
  else some st.count

/-- The subscripts of `argv` the `while` loop of `construct_argv` assigns, in
the order of the assignments; the loop is run as in `construct_loop`. -/
def loop_subscripts : Nat → List Char → PState → List Int
  | 0, _, _ => []
  | fuel + 1, rest, st =>
    let r := strtok isWs rest
    match r.tok with
    | none => []
    | some arg =>
      match classify st arg with
      | .error _ => []
      | .ok st1 => (assigned_subscript st arg).toList ++ loop_subscripts fuel r.rest st1

/-- The subscripts of `argv` a call of `construct_argv` assigns, in the order of
the assignments: `argv[0]` for a first token that starts with neither `<` nor
`>`, the assignments of the loop, and `argv[arg_len]` when the call gets to the
terminator, that is, when it prints no diagnostic. -/
def construct_argv_subscripts (arg_len : Int) (input_buf : List Char) (argv files : Mem) :
    List Int :=
  let r := strtok isWs input_buf
  match r.tok with
  | none => []
  | some arg =>
    (if arg.headD NUL = '<' then [] else if arg.headD NUL = '>' then [] else [0]) ++
      loop_subscripts (r.rest.length + 1) r.rest (first_token argv files arg) ++
      (if (construct_argv arg_len input_buf argv files).accepted then [arg_len] else [])

/-- One pass through the body of the `while` loop of `main`, from the call of
`count_arguments` down to the call of `wait`, with the declaration
`char *argv[arg_len+1]` taken into account: the array is new, none of its cells
is assigned, and it has `arg_len + 1` cells.  The pass is `undefined` when that
length is not positive or when `construct_argv` assigns a cell outside the
array; otherwise it is `main_body` on the new array, in which a cell that was
not assigned, inside the array or outside, cannot be used.  `files` is what the
array `files` holds at its declaration.  The `memset` calls that follow the
pass are not part of it. -/
def main_body_declared (sys : Sys) (input_buf : List Char) (files : Mem) : Step :=
  let arg_len := count_arguments input_buf
  if arg_len + 1 ≤ 0 then .undefined []
  else if (construct_argv_subscripts arg_len input_buf Mem.fresh files).all
      (inArray (arg_len + 1)) then
    main_body sys input_buf Mem.fresh files
  else .undefined []


end CShell

open CShell

section Basics

theorem isWs_ne_NUL {c : Char} (h : isWs c = true) : c ≠ NUL := by
  intro hc; subst hc; revert h; decide

theorem isWs_ne_lt {c : Char} (h : isWs c = true) : c ≠ '<' := by
  intro hc; subst hc; revert h; decide

theorem isWs_ne_gt {c : Char} (h : isWs c = true) : c ≠ '>' := by
  intro hc; subst hc; revert h; decide

theorem inDelims_of_ne_NUL {c : Char} (h : c ≠ NUL) : inDelims c = isWs c := by
  simp [inDelims, h]

theorem mem_cstr_ne_NUL {buf : List Char} {c : Char} (h : c ∈ cstr buf) : c ≠ NUL := by
  have := (List.mem_takeWhile_imp h)
  simpa using this

theorem cstr_append_dropWhile (buf : List Char) :
    cstr buf ++ buf.dropWhile (fun c => c != NUL) = buf := by
  simp [cstr, List.takeWhile_append_dropWhile]

theorem charAt_zero_of_cstr_nil {buf : List Char} (h : cstr buf = []) : charAt buf 0 = NUL := by
  cases buf with
  | nil => rfl
  | cons c cs =>
    by_cases hc : c = NUL
    · simp [charAt, hc]
    · simp [cstr, List.takeWhile_cons, hc] at h

theorem count_step_eq (buf : List Char) (len : Int) (i : Nat) (p c : Char)
    (hp : charAt buf (i - 1) = p) (hc : charAt buf i = c) (hpn : p ≠ NUL) (hcn : c ≠ NUL) :
    count_step buf len i = len + charWeight p c := by
  unfold count_step charWeight
  rw [hp, hc, inDelims_of_ne_NUL hpn, inDelims_of_ne_NUL hcn]
  have hlt : isWs '<' = false := by decide
  have hgt : isWs '>' = false := by decide
  by_cases h1 : c = '<'
  · subst h1
    rw [hlt]
    cases isWs p <;> simp <;> omega
  · by_cases h3 : c = '>'
    · subst h3
      rw [hgt]
      by_cases h4 : p = '>' <;> cases isWs p <;> simp [h4] <;> omega
    · cases isWs p <;> cases isWs c <;> simp [h1, h3]

end Basics

section Counting

theorem charAt_append_cons (pre : List Char) (p : Char) (post : List Char) :
    charAt (pre ++ p :: post) pre.length = p := by
  simp [charAt, List.getD_eq_getElem?_getD, List.getElem?_append_right (le_refl pre.length)]

theorem foldl_count_step (rest : List Char) :
    ∀ (pre : List Char) (p : Char) (tl : List Char) (len : Int),
      p ≠ NUL → (∀ c ∈ rest, c ≠ NUL) →
      (List.range' (pre.length + 1) rest.length).foldl (count_step (pre ++ p :: (rest ++ tl))) len
        = len + cnt p rest := by
  induction rest with
  | nil => intro pre p tl len _ _; simp [cnt]
  | cons c rest ih =>
    intro pre p tl len hp hrest
    have hc : c ≠ NUL := hrest c (List.mem_cons_self _ _)
    have hrest2 : ∀ x ∈ rest, x ≠ NUL := fun x hx => hrest x (List.mem_cons_of_mem _ hx)
    have hbuf : pre ++ p :: (c :: rest ++ tl) = (pre ++ [p]) ++ c :: (rest ++ tl) := by simp
    have h1 : charAt (pre ++ p :: (c :: rest ++ tl)) (pre.length + 1 - 1) = p := by
      simpa using charAt_append_cons pre p (c :: rest ++ tl)
    have h2 : charAt (pre ++ p :: (c :: rest ++ tl)) (pre.length + 1) = c := by
      rw [hbuf]
      simpa using charAt_append_cons (pre ++ [p]) c (rest ++ tl)
    simp only [List.length_cons, List.range'_succ, List.foldl_cons]
    rw [count_step_eq _ len (pre.length + 1) p c h1 h2 hp hc]
    have := ih (pre ++ [p]) c tl (len + charWeight p c) hc hrest2
    simp only [List.length_append, List.length_singleton] at this
    rw [hbuf, this]
    simp [cnt]; ring

/-- The value of `count_arguments` is the sum of the per-byte changes over the
string held by the buffer, the byte before the string counting as whitespace. -/
theorem count_arguments_eq_cnt (buf : List Char) : count_arguments buf = cnt ' ' (cstr buf) := by
  have hsplit := cstr_append_dropWhile buf
  generalize htl : buf.dropWhile (fun c => c != NUL) = tl at hsplit
  cases hs : cstr buf with
  | nil =>
    unfold count_arguments
    simp [strlen, hs, charAt_zero_of_cstr_nil hs, inDelims, cnt]
  | cons c cs =>
    have hc : c ≠ NUL := mem_cstr_ne_NUL (by rw [hs]; exact List.mem_cons_self _ _)
    have hcs : ∀ x ∈ cs, x ≠ NUL := fun x hx =>
      mem_cstr_ne_NUL (by rw [hs]; exact List.mem_cons_of_mem _ hx)
    rw [hs] at hsplit
    have h0 : charAt buf 0 = c := by rw [← hsplit]; rfl
    have hf := foldl_count_step cs [] c tl
      (if inDelims c then 0 else if c = '<' ∨ c = '>' then -1 else 1) hc hcs
    unfold count_arguments
    simp only [strlen, hs, h0, List.length_cons, Nat.add_sub_cancel]
    simp only [List.length_nil, Nat.zero_add, List.nil_append] at hf
    have hb : buf = c :: (cs ++ tl) := by rw [← hsplit]; rfl
    rw [hb, hf, inDelims_of_ne_NUL hc]
    simp only [cnt, charWeight]
    have hlt : isWs '<' = false := by decide
    have hgt : isWs '>' = false := by decide
    by_cases h1 : c = '<'
    · subst h1; simp [hlt, isWs]
    · by_cases h3 : c = '>'
      · subst h3; simp [hgt, isWs]
      · cases isWs c <;> simp [h1, h3, isWs]

end Counting

section Words

theorem cnt_of_isWs {p : Char} (hp : isWs p = true) (s : List Char) : cnt p s = cnt ' ' s := by
  cases s with
  | nil => rfl
  | cons c cs =>
    have h1 : isWs ' ' = true := by decide
    simp [cnt, charWeight, hp, h1, isWs_ne_gt hp]

theorem cnt_splitWords (s : List Char) :
    ∀ p : Char, cnt p s =
      cnt p (splitWords s).1 + (((splitWords s).2).map (cnt ' ')).sum := by
  induction s with
  | nil => intro p; simp [splitWords, cnt]
  | cons c cs ih =>
    intro p
    by_cases hc : isWs c = true
    · have hw : charWeight p c = 0 := by
        simp [charWeight, hc, isWs_ne_lt hc, isWs_ne_gt hc]
      have := ih c
      rw [cnt_of_isWs hc, cnt_of_isWs hc] at this
      simp only [cnt, splitWords, hc, if_true, hw, zero_add]
      rw [cnt_of_isWs hc cs, this]
      by_cases he : (splitWords cs).1 = []
      · simp [he, cnt]
      · simp [he]
    · have := ih c
      simp only [cnt, splitWords, hc, if_false, this, Bool.false_eq_true]
      ring

/-- The value of `count_arguments` is a sum over the tokens of the line. -/
theorem cnt_words (s : List Char) : cnt ' ' s = ((words s).map (cnt ' ')).sum := by
  rw [cnt_splitWords s ' ', words]
  by_cases he : (splitWords s).1 = []
  · simp [he, cnt]
  · simp [he]

theorem words_ws_cons {d : Char} (hd : isWs d = true) (r : List Char) :
    words (d :: r) = words r := by
  simp [words, splitWords, hd]

theorem words_ws_append (w r : List Char) (hw : ∀ c ∈ w, isWs c = true) :
    words (w ++ r) = words r := by
  induction w with
  | nil => rfl
  | cons d w ih =>
    rw [List.cons_append, words_ws_cons (hw d (List.mem_cons_self _ _))]
    exact ih (fun c hc => hw c (List.mem_cons_of_mem _ hc))

theorem splitWords_body_append (body r : List Char) (hb : ∀ c ∈ body, isWs c = false) :
    splitWords (body ++ r) = (body ++ (splitWords r).1, (splitWords r).2) := by
  induction body with
  | nil => rfl
  | cons c body ih =>
    have hc := hb c (List.mem_cons_self _ _)
    have := ih (fun x hx => hb x (List.mem_cons_of_mem _ hx))
    simp [splitWords, hc, this]

theorem words_body_ws (body : List Char) (d : Char) (r : List Char)
    (hb : ∀ c ∈ body, isWs c = false) (hne : body ≠ []) (hd : isWs d = true) :
    words (body ++ d :: r) = body :: words r := by
  have h1 : splitWords (d :: r) = ([], words r) := by
    simp [splitWords, hd, words]
  simp [words, splitWords_body_append body (d :: r) hb, h1, hne]

theorem words_body (body : List Char) (hb : ∀ c ∈ body, isWs c = false) (hne : body ≠ []) :
    words body = [body] := by
  have := splitWords_body_append body [] hb
  simp only [List.append_nil] at this
  simp [words, this, splitWords, hne]

theorem splitWords_spec (s : List Char) :
    (∀ c ∈ (splitWords s).1, isWs c = false) ∧
    (∀ t ∈ (splitWords s).2, t ≠ [] ∧ ∀ c ∈ t, isWs c = false) := by
  induction s with
  | nil => simp [splitWords]
  | cons c cs ih =>
    by_cases hc : isWs c = true
    · simp only [splitWords, hc, if_true]
      refine ⟨by simp, ?_⟩
      by_cases he : (splitWords cs).1 = []
      · simpa [he] using ih.2
      · intro t ht
        simp only [he, if_false, List.mem_cons] at ht
        rcases ht with rfl | ht
        · exact ⟨he, ih.1⟩
        · exact ih.2 t ht
    · simp only [splitWords, hc, if_false, Bool.false_eq_true]
      refine ⟨?_, ih.2⟩
      intro x hx
      rcases List.mem_cons.1 hx with rfl | hx
      · simpa using hc
      · exact ih.1 x hx

/-- Tokens are non-empty and hold no whitespace. -/
theorem words_spec (s : List Char) :
    ∀ t ∈ words s, t ≠ [] ∧ ∀ c ∈ t, isWs c = false := by
  intro t ht
  have h := splitWords_spec s
  unfold words at ht
  by_cases he : (splitWords s).1 = []
  · simp only [he, if_true] at ht; exact h.2 t ht
  · simp only [he, if_false, List.mem_cons] at ht
    rcases ht with rfl | ht
    · exact ⟨he, h.1⟩
    · exact h.2 t ht

end Words

section Strtok

theorem dropWhile_head_false {α : Type} (q : α → Bool) :
    ∀ (l : List α) (c : α) (r : List α), l.dropWhile q = c :: r → q c = false := by
  intro l
  induction l with
  | nil => intro c r h; simp at h
  | cons a l ih =>
    intro c r h
    by_cases ha : q a = true
    · rw [List.dropWhile_cons_of_pos ha] at h; exact ih c r h
    · rw [List.dropWhile_cons_of_neg ha] at h
      injection h with h1 _
      subst h1; simpa using ha

theorem cstr_append_of_ne_NUL (a b : List Char) (ha : ∀ c ∈ a, c ≠ NUL) :
    cstr (a ++ b) = a ++ cstr b := by
  induction a with
  | nil => rfl
  | cons c a ih =>
    have hc := ha c (List.mem_cons_self _ _)
    have := ih (fun x hx => ha x (List.mem_cons_of_mem _ hx))
    simp only [cstr] at this ⊢
    simp [List.takeWhile_cons, hc, this]

theorem cstr_NUL_cons (r : List Char) : cstr (NUL :: r) = [] := by
  simp [cstr, List.takeWhile_cons]

theorem tokens_nil_of_NUL (r : List Char) : tokens (NUL :: r) = [] := by
  simp [tokens, cstr_NUL_cons, words, splitWords]

theorem tokens_nil : tokens [] = [] := by
  simp [tokens, cstr, words, splitWords]

theorem tokens_skip (sk r : List Char) (hsk : ∀ c ∈ sk, isWs c = true) :
    tokens (sk ++ r) = tokens r := by
  unfold tokens
  rw [cstr_append_of_ne_NUL _ _ (fun c hc => isWs_ne_NUL (hsk c hc))]
  exact words_ws_append _ _ hsk

theorem tokens_body (body rem : List Char) (hb : ∀ c ∈ body, isWs c = false ∧ c ≠ NUL)
    (hne : body ≠ []) :
    tokens (body ++ rem) = body :: (match rem with
      | [] => []
      | d :: r2 => if d = NUL then [] else if isWs d then tokens r2 else []) ∨
    ∃ d r2, rem = d :: r2 ∧ d ≠ NUL ∧ isWs d = false := by
  unfold tokens
  rw [cstr_append_of_ne_NUL _ _ (fun c hc => (hb c hc).2)]
  cases rem with
  | nil =>
    left
    simp [cstr, words_body body (fun c hc => (hb c hc).1) hne]
  | cons d r2 =>
    by_cases hd : d = NUL
    · left
      subst hd
      simp [cstr_NUL_cons, words_body body (fun c hc => (hb c hc).1) hne]
    · by_cases hdw : isWs d = true
      · left
        have : cstr (d :: r2) = d :: cstr r2 := by simp [cstr, List.takeWhile_cons, hd]
        rw [this, words_body_ws body d _ (fun c hc => (hb c hc).1) hne hdw]
        simp [hd, hdw, tokens]
      · right
        exact ⟨d, r2, rfl, hd, by simpa using hdw⟩

/-- What one `strtok` call on the delimiters `" \n\t"` returns, in terms of the
tokens of the text at the cursor: NULL when there is none, otherwise the first
token, and the other tokens are those of the text left for the next call, which
is shorter. -/
theorem strtok_isWs_spec (text : List Char) :
    match (strtok isWs text).tok with
    | none => tokens text = []
    | some t => tokens text = t :: tokens (strtok isWs text).rest ∧
        (strtok isWs text).rest.length < text.length := by
  have hsplit := List.takeWhile_append_dropWhile isWs text
  have hsk : ∀ c ∈ text.takeWhile isWs, isWs c = true := fun c hc => List.mem_takeWhile_imp hc
  have hw : tokens text = tokens (text.dropWhile isWs) := by
    have := tokens_skip _ (text.dropWhile isWs) hsk
    rwa [hsplit] at this
  have hlen : text.length = (text.takeWhile isWs).length + (text.dropWhile isWs).length := by
    rw [← List.length_append, hsplit]
  unfold strtok
  cases hr : text.dropWhile isWs with
  | nil => simp only; rw [hw, hr]; exact tokens_nil
  | cons c r =>
    have hcw : isWs c = false := dropWhile_head_false isWs text c r hr
    simp only
    by_cases hc : c = NUL
    · simp only [hc, if_true]; rw [hw, hr, hc]; exact tokens_nil_of_NUL r
    · simp only [hc, if_false]
      rw [hr] at hw hlen
      have hsplit2 := List.takeWhile_append_dropWhile (fun x => !isWs x && x != NUL) (c :: r)
      have hbody : ∀ x ∈ (c :: r).takeWhile (fun x => !isWs x && x != NUL),
          isWs x = false ∧ x ≠ NUL := by
        intro x hx
        have := List.mem_takeWhile_imp hx
        simpa using this
      have hne : (c :: r).takeWhile (fun x => !isWs x && x != NUL) ≠ [] := by
        simp [List.takeWhile_cons, hcw, hc]
      have hlen2 : (c :: r).length =
          ((c :: r).takeWhile (fun x => !isWs x && x != NUL)).length +
          ((c :: r).dropWhile (fun x => !isWs x && x != NUL)).length := by
        rw [← List.length_append, hsplit2]
      have hpos : 0 < ((c :: r).takeWhile (fun x => !isWs x && x != NUL)).length :=
        List.length_pos.2 hne
      have hfalse : ∀ d r2, (c :: r).dropWhile (fun x => !isWs x && x != NUL) = d :: r2 →
          (!isWs d && d != NUL) = false :=
        fun d r2 h => dropWhile_head_false _ (c :: r) d r2 h
      have htb := tokens_body _ ((c :: r).dropWhile (fun x => !isWs x && x != NUL)) hbody hne
      rw [hsplit2] at htb
      rw [hw]
      generalize (c :: r).takeWhile (fun x => !isWs x && x != NUL) = body at *
      generalize (c :: r).dropWhile (fun x => !isWs x && x != NUL) = rem at *
      rcases htb with htb | ⟨d, r2, hrem, hdn, hdw⟩
      · cases rem with
        | nil =>
          simp only
          refine ⟨by rw [htb, tokens_nil], ?_⟩
          simp only [List.length_nil] at hlen2 ⊢
          omega
        | cons d r2 =>
          simp only
          by_cases hdn : d = NUL
          · simp only [hdn, if_true]
            refine ⟨by rw [htb]; simp [hdn, tokens_nil_of_NUL], ?_⟩
            simp only [List.length_cons] at hlen2 hlen ⊢
            omega
          · simp only [hdn, if_false]
            have hdw : isWs d = true := by simpa [hdn] using hfalse d r2 rfl
            refine ⟨by rw [htb]; simp [hdn, hdw], ?_⟩
            simp only [List.length_cons] at hlen2 hlen ⊢
            omega
      · exfalso
        have := hfalse d r2 hrem
        simp [hdn, hdw] at this

end Strtok

section Parser

theorem classify_first (argv files : Mem) (arg : List Char) :
    classify (init_state argv files) arg = .ok (first_token argv files arg) := by
  simp only [classify, first_token, init_state, Bool.false_eq_true, if_false]
  split_ifs <;> simp

theorem construct_loop_feed : ∀ (fuel : Nat) (done rest : List Char) (st : PState),
    rest.length < fuel →
    ∃ d r, match feed st (tokens rest) with
      | .ok st1 => construct_loop fuel done rest st = .finished st1 d r
      | .error (dg, st1) => construct_loop fuel done rest st = .failed dg st1 d r := by
  intro fuel
  induction fuel with
  | zero => intro done rest st h; omega
  | succ fuel ih =>
    intro done rest st hlt
    have hs := strtok_isWs_spec rest
    cases ht : (strtok isWs rest).tok with
    | none =>
      rw [ht] at hs
      simp only at hs
      rw [hs]
      refine ⟨done ++ (strtok isWs rest).passed, (strtok isWs rest).rest, ?_⟩
      simp only [feed, construct_loop, ht]
    | some arg =>
      rw [ht] at hs
      simp only at hs
      rw [hs.1]
      cases hc : classify st arg with
      | error dg =>
        refine ⟨done ++ (strtok isWs rest).passed, (strtok isWs rest).rest, ?_⟩
        simp only [feed, construct_loop, ht, hc]
      | ok st1 =>
        obtain ⟨d, r, h⟩ := ih (done ++ (strtok isWs rest).passed) (strtok isWs rest).rest st1
          (by have := hs.2; omega)
        refine ⟨d, r, ?_⟩
        simp only [feed, construct_loop, ht, hc]
        exact h

/-- The function `construct_argv` in terms of the tokens of the line: a line
without a token makes it dereference NULL, and on any other line it is the
loop body applied to every token in turn, followed by the code after the
loop.  In particular the loop never runs out of fuel. -/
theorem construct_argv_tokens (arg_len : Int) (buf : List Char) (argv files : Mem) :
    (tokens buf = [] ∧ construct_argv arg_len buf argv files = .nullDeref) ∨
    (tokens buf ≠ [] ∧ ∃ b, construct_argv arg_len buf argv files =
      conclude arg_len b (feed (init_state argv files) (tokens buf))) := by
  have hs := strtok_isWs_spec buf
  cases ht : (strtok isWs buf).tok with
  | none =>
    rw [ht] at hs
    left
    refine ⟨hs, ?_⟩
    simp only [construct_argv, ht]
  | some arg =>
    rw [ht] at hs
    simp only at hs
    right
    refine ⟨by rw [hs.1]; simp, ?_⟩
    rw [hs.1]
    obtain ⟨d, r, h⟩ := construct_loop_feed ((strtok isWs buf).rest.length + 1)
      (strtok isWs buf).passed (strtok isWs buf).rest (first_token argv files arg) (by omega)
    simp only [feed, classify_first, construct_argv, ht]
    cases hf : feed (first_token argv files arg) (tokens (strtok isWs buf).rest) with
    | error e =>
      obtain ⟨dg, st1⟩ := e
      rw [hf] at h
      simp only at h
      rw [h]
      exact ⟨_, rfl⟩
    | ok st1 =>
      rw [hf] at h
      simp only at h
      rw [h]
      simp only [conclude]
      by_cases ho : st1.is_output = true
      · simp only [ho, if_true]; exact ⟨_, rfl⟩
      · by_cases hi : st1.is_input = true
        · simp only [ho, hi, if_true, if_false, Bool.false_eq_true]; exact ⟨_, rfl⟩
        · simp only [ho, hi, if_false, Bool.false_eq_true]; exact ⟨_, rfl⟩

end Parser

section Feed

theorem isOperator_startsRedir {t : List Char} (h : isOperator t = true) :
    startsRedir t = true := by
  simp only [isOperator, Bool.or_eq_true, beq_iff_eq] at h
  rcases h with (h | h) | h <;> subst h <;> decide

theorem storeAll_apply (ts : List (List Char)) :
    ∀ (m : Mem) (k j : Int), storeAll m k ts j =
      if k ≤ j ∧ j < k + ts.length then
        (match ts[(j - k).toNat]? with | some t => Cell.tok t | none => Cell.unwritten)
      else m j := by
  induction ts with
  | nil =>
    intro m k j
    simp only [storeAll, List.length_nil, Nat.cast_zero, add_zero]
    rw [if_neg (by omega)]
  | cons t ts ih =>
    intro m k j
    simp only [storeAll, ih, List.length_cons, Nat.cast_add, Nat.cast_one]
    by_cases h1 : j = k
    · subst h1
      have : ¬ (j + 1 ≤ j ∧ j < j + 1 + ts.length) := by omega
      simp [this, Mem.set]
    · by_cases h2 : k + 1 ≤ j ∧ j < k + 1 + ts.length
      · have h3 : k ≤ j ∧ j < k + (ts.length + 1) := by omega
        have h4 : (j - k).toNat = (j - (k + 1)).toNat + 1 := by omega
        rw [if_pos h2, if_pos h3, h4]
        simp
      · have h3 : ¬ (k ≤ j ∧ j < k + (ts.length + 1)) := by omega
        rw [if_neg h2, if_neg h3]
        simp [Mem.set, h1]

theorem classify_lt (st : PState) (t : List Char) (h : t.headD NUL = '<')
    (ha : st.already_input = false) :
    classify st t = .ok { st with is_input := true } := by
  simp only [classify, h, ha, if_true, Bool.false_eq_true, if_false]

theorem classify_gt (st : PState) (t : List Char) (h : t.headD NUL = '>')
    (ha : st.already_output = false) :
    classify st t = .ok { st with
      append := if t = ['>', '>'] then 1 else st.append, is_output := true } := by
  have hne : ¬ ('>' : Char) = '<' := by decide
  simp only [classify, h, hne, ha, if_true, Bool.false_eq_true, if_false]

theorem classify_in (st : PState) (t : List Char) (h1 : ¬ t.headD NUL = '<')
    (h2 : ¬ t.headD NUL = '>') (hi : st.is_input = true) :
    classify st t = .ok { st with files := st.files.set 0 (.tok t), is_input := false } := by
  simp only [classify, h1, h2, hi, if_true, if_false]

theorem classify_out (st : PState) (t : List Char) (h1 : ¬ t.headD NUL = '<')
    (h2 : ¬ t.headD NUL = '>') (hi : st.is_input = false) (ho : st.is_output = true) :
    classify st t = .ok { st with files := st.files.set 1 (.tok t), is_output := false } := by
  simp only [classify, h1, h2, hi, ho, if_true, if_false, Bool.false_eq_true]

theorem classify_arg (st : PState) (t : List Char) (h1 : ¬ t.headD NUL = '<')
    (h2 : ¬ t.headD NUL = '>') (hi : st.is_input = false) (ho : st.is_output = false) :
    classify st t = .ok { st with
      argv := st.argv.set st.count (.tok t), count := st.count + 1 } := by
  simp only [classify, h1, h2, hi, ho, if_false, Bool.false_eq_true]

/-- The loop of `construct_argv` never takes a `return -1`: the variables
`already_input` and `already_output` are 0 throughout.  The tokens it stores
go to consecutive cells of `argv` from `count` on, and each of them neither is
an operator nor comes immediately after one. -/
theorem feed_general (op : List Char → Bool) (hop : ∀ t, op t = true → startsRedir t = true) :
    ∀ (toks : List (List Char)) (st : PState) (prevOp : Bool),
      st.already_input = false → st.already_output = false →
      (prevOp = true → st.is_input = true ∨ st.is_output = true) →
      ∃ st1 stored, feed st toks = .ok st1 ∧
        st1.already_input = false ∧ st1.already_output = false ∧
        st1.argv = storeAll st.argv st.count stored ∧
        st1.count = st.count + stored.length ∧
        List.Sublist stored (plainFrom op prevOp toks) := by
  intro toks
  induction toks with
  | nil =>
    intro st prevOp h1 h2 _
    exact ⟨st, [], rfl, h1, h2, rfl, by simp, by simp [plainFrom]⟩
  | cons t ts ih =>
    intro st prevOp h1 h2 hp
    by_cases hlt : t.headD NUL = '<'
    · have hc := classify_lt st t hlt h1
      obtain ⟨st1, stored, hf, ha, hb, hargv, hcount, hsub⟩ :=
        ih { st with is_input := true } (op t) h1 h2 (fun _ => Or.inl rfl)
      refine ⟨st1, stored, ?_, ha, hb, hargv, hcount, ?_⟩
      · simp only [feed, hc]; exact hf
      · simp only [plainFrom]
        cases hot : op t
        · rw [hot] at hsub
          cases prevOp
          · simpa using hsub.trans (List.sublist_cons_self _ _)
          · simpa using hsub
        · rw [hot] at hsub; simpa using hsub
    · by_cases hgt : t.headD NUL = '>'
      · have hc := classify_gt st t hgt h2
        obtain ⟨st1, stored, hf, ha, hb, hargv, hcount, hsub⟩ :=
          ih { st with append := if t = ['>', '>'] then 1 else st.append, is_output := true }
            (op t) h1 h2 (fun _ => Or.inr rfl)
        refine ⟨st1, stored, ?_, ha, hb, hargv, hcount, ?_⟩
        · simp only [feed, hc]; exact hf
        · simp only [plainFrom]
          cases hot : op t
          · rw [hot] at hsub
            cases prevOp
            · simpa using hsub.trans (List.sublist_cons_self _ _)
            · simpa using hsub
          · rw [hot] at hsub; simpa using hsub
      · have hnot : op t = false := by
          cases hot : op t
          · rfl
          · have := hop t hot
            simp only [startsRedir, Bool.or_eq_true, beq_iff_eq] at this
            rcases this with h | h
            · exact absurd h hlt
            · exact absurd h hgt
        by_cases hi : st.is_input = true
        · have hc := classify_in st t hlt hgt hi
          obtain ⟨st1, stored, hf, ha, hb, hargv, hcount, hsub⟩ :=
            ih { st with files := st.files.set 0 (.tok t), is_input := false } false h1 h2
              (fun h => by cases h)
          refine ⟨st1, stored, ?_, ha, hb, hargv, hcount, ?_⟩
          · simp only [feed, hc]; exact hf
          · simp only [plainFrom, hnot, Bool.false_eq_true, if_false]
            cases prevOp
            · simpa using hsub.trans (List.sublist_cons_self _ _)
            · simpa using hsub
        · by_cases ho : st.is_output = true
          · have hc := classify_out st t hlt hgt (by simpa using hi) ho
            obtain ⟨st1, stored, hf, ha, hb, hargv, hcount, hsub⟩ :=
              ih { st with files := st.files.set 1 (.tok t), is_output := false } false h1 h2
                (fun h => by cases h)
            refine ⟨st1, stored, ?_, ha, hb, hargv, hcount, ?_⟩
            · simp only [feed, hc]; exact hf
            · simp only [plainFrom, hnot, Bool.false_eq_true, if_false]
              cases prevOp
              · simpa using hsub.trans (List.sublist_cons_self _ _)
              · simpa using hsub
          · have hc := classify_arg st t hlt hgt (by simpa using hi) (by simpa using ho)
            have hpf : prevOp = false := by
              cases prevOp
              · rfl
              · rcases hp rfl with h | h
                · exact absurd h hi
                · exact absurd h ho
            obtain ⟨st1, stored, hf, ha, hb, hargv, hcount, hsub⟩ :=
              ih { st with argv := st.argv.set st.count (.tok t), count := st.count + 1 } false
                h1 h2 (fun h => by cases h)
            refine ⟨st1, t :: stored, ?_, ha, hb, ?_, ?_, ?_⟩
            · simp only [feed, hc]; exact hf
            · simpa [storeAll] using hargv
            · simp only [List.length_cons, Nat.cast_add, Nat.cast_one] at hcount ⊢
              rw [hcount]; ring
            · subst hpf
              simp only [plainFrom, hnot, Bool.false_eq_true, if_false]
              exact hsub.cons₂ t

end Feed

section WellFormed

theorem followed_induction (op : List Char → Bool) (P : List (List Char) → Prop)
    (h0 : P [])
    (h1 : ∀ t ts, op t = false → followed op false ts = true → P ts → P (t :: ts))
    (h2 : ∀ t u ts, op t = true → op u = false → followed op false ts = true → P ts →
      P (t :: u :: ts)) :
    ∀ toks, followed op false toks = true → P toks := by
  have key : ∀ toks, (followed op false toks = true → P toks) ∧
      (∀ t, op t = true → followed op true toks = true → P (t :: toks)) := by
    intro toks
    induction toks with
    | nil =>
      refine ⟨fun _ => h0, fun t _ hf => ?_⟩
      simp [followed] at hf
    | cons u us ih =>
      refine ⟨fun hf => ?_, fun t ht hf => ?_⟩
      · by_cases hu : op u = true
        · simp only [followed, hu, if_true, Bool.not_false, Bool.true_and] at hf
          exact ih.2 u hu hf
        · simp only [followed, hu, if_false, Bool.false_eq_true] at hf
          exact h1 u us (by simpa using hu) hf (ih.1 hf)
      · by_cases hu : op u = true
        · simp [followed, hu] at hf
        · simp only [followed, hu, if_false, Bool.false_eq_true] at hf
          exact h2 t u us ht (by simpa using hu) hf (ih.1 hf)
  exact fun toks => (key toks).1

theorem not_startsRedir {t : List Char} (h : startsRedir t = false) :
    ¬ t.headD NUL = '<' ∧ ¬ t.headD NUL = '>' := by
  simp only [startsRedir, Bool.or_eq_false_iff, beq_eq_false_iff_ne, ne_eq] at h
  exact h

/-- Two turns of the loop of `construct_argv`, on an operator and the token
after it: the token goes to the cell of `files` the operator names. -/
theorem feed_pair (st : PState) (t u : List Char) (ts : List (List Char))
    (ht : startsRedir t = true) (hu : startsRedir u = false)
    (h1 : st.already_input = false) (h2 : st.already_output = false)
    (hi : st.is_input = false) (ho : st.is_output = false) :
    feed st (t :: u :: ts) =
      feed { st with files := st.files.set (redirIndex t) (.tok u),
                     append := if t = ['>', '>'] then 1 else st.append } ts := by
  obtain ⟨hu1, hu2⟩ := not_startsRedir hu
  obtain ⟨count, is_input, is_output, append, ai, ao, argv, files⟩ := st
  simp only at h1 h2 hi ho
  subst h1 h2 hi ho
  by_cases hlt : t.headD NUL = '<'
  · have hne : t ≠ ['>', '>'] := by
      intro h; rw [h] at hlt; revert hlt; decide
    have e1 := classify_lt ⟨count, false, false, append, false, false, argv, files⟩ t hlt rfl
    have e2 := classify_in ⟨count, true, false, append, false, false, argv, files⟩ u hu1 hu2 rfl
    simp only [feed, e1, e2, redirIndex, hlt, if_true, hne, if_false]
  · have hgt : t.headD NUL = '>' := by
      simp only [startsRedir, Bool.or_eq_true, beq_iff_eq] at ht
      rcases ht with h | h
      · exact absurd h hlt
      · exact h
    have e1 := classify_gt ⟨count, false, false, append, false, false, argv, files⟩ t hgt rfl
    have e2 := classify_out ⟨count, false, true, if t = ['>', '>'] then 1 else append, false,
      false, argv, files⟩ u hu1 hu2 rfl rfl
    simp only [feed, e1, e2, redirIndex, hlt, if_false]

theorem feed_single (st : PState) (t : List Char) (ts : List (List Char))
    (ht : startsRedir t = false)
    (hi : st.is_input = false) (ho : st.is_output = false) :
    feed st (t :: ts) =
      feed { st with argv := st.argv.set st.count (.tok t), count := st.count + 1 } ts := by
  obtain ⟨h1, h2⟩ := not_startsRedir ht
  simp only [feed, classify_arg st t h1 h2 hi ho]

theorem isOperator_ne_append {t : List Char} (h : isOperator t = false) : t ≠ ['>', '>'] := by
  intro ht; subst ht; revert h; decide

/-- The loop of `construct_argv` on a line in which every operator is a token of
its own, immediately followed by a token that is not an operator. -/
theorem feed_followed :
    ∀ toks, followed isOperator false toks = true →
      (∀ t ∈ toks, startsRedir t = isOperator t) →
      ∀ st : PState, st.already_input = false → st.already_output = false →
        st.is_input = false → st.is_output = false →
        ∃ st1, feed st toks = .ok st1 ∧
          st1.is_input = false ∧ st1.is_output = false ∧
          st1.argv = storeAll st.argv st.count (plainFrom isOperator false toks) ∧
          st1.append = (if ['>', '>'] ∈ toks then 1 else st.append) ∧
          (∀ i, (∀ t ∈ toks, isOperator t = true → redirIndex t ≠ i) →
            st1.files i = st.files i) ∧
          (∀ pre o p post, isOperator o = true → toks = pre ++ o :: p :: post →
            (∀ t ∈ post, isOperator t = true → redirIndex t ≠ redirIndex o) →
            st1.files (redirIndex o) = .tok p) := by
  refine followed_induction isOperator _ ?_ ?_ ?_
  · intro _ st _ _ hi ho
    refine ⟨st, rfl, hi, ho, rfl, by simp, fun _ _ => rfl, ?_⟩
    intro pre o p post _ h
    simp at h
  · intro t ts ht _ ih hag st h1 h2 hi ho
    have hts : startsRedir t = false := by rw [hag t (List.mem_cons_self _ _)]; exact ht
    obtain ⟨st1, hf, hi1, ho1, hargv, happ, hF, hF2⟩ :=
      ih (fun x hx => hag x (List.mem_cons_of_mem _ hx))
        { st with argv := st.argv.set st.count (.tok t), count := st.count + 1 } h1 h2 hi ho
    refine ⟨st1, ?_, hi1, ho1, ?_, ?_, ?_, ?_⟩
    · rw [feed_single st t ts hts hi ho]; exact hf
    · rw [hargv]; simp [plainFrom, ht, storeAll]
    · rw [happ]
      have := isOperator_ne_append ht
      simp [List.mem_cons, this.symm]
    · intro i hall
      rw [hF i (fun x hx => hall x (List.mem_cons_of_mem _ hx))]
    · intro pre o p post hop hdec hpost
      cases pre with
      | nil =>
        simp only [List.nil_append, List.cons.injEq] at hdec
        rw [hdec.1, hop] at ht; cases ht
      | cons a pre1 =>
        simp only [List.cons_append, List.cons.injEq] at hdec
        exact hF2 pre1 o p post hop hdec.2 hpost
  · intro t u ts ht hu _ ih hag st h1 h2 hi ho
    have hts : startsRedir t = true := by rw [hag t (List.mem_cons_self _ _)]; exact ht
    have hus : startsRedir u = false := by
      rw [hag u (List.mem_cons_of_mem _ (List.mem_cons_self _ _))]; exact hu
    obtain ⟨st1, hf, hi1, ho1, hargv, happ, hF, hF2⟩ :=
      ih (fun x hx => hag x (List.mem_cons_of_mem _ (List.mem_cons_of_mem _ hx)))
        { st with files := st.files.set (redirIndex t) (.tok u),
                  append := if t = ['>', '>'] then 1 else st.append } h1 h2 hi ho
    refine ⟨st1, ?_, hi1, ho1, ?_, ?_, ?_, ?_⟩
    · rw [feed_pair st t u ts hts hus h1 h2 hi ho]; exact hf
    · rw [hargv]; simp [plainFrom, ht, hu]
    · rw [happ]
      have hne := isOperator_ne_append hu
      by_cases h3 : ['>', '>'] ∈ ts
      · simp [h3]
      · by_cases h4 : t = ['>', '>']
        · simp [h4]
        · have h5 : ¬ ['>', '>'] = t := fun h => h4 h.symm
          simp [h3, h4, h5, hne.symm]
    · intro i hall
      rw [hF i (fun x hx => hall x (List.mem_cons_of_mem _ (List.mem_cons_of_mem _ hx)))]
      have := hall t (List.mem_cons_self _ _) ht
      simp only [Mem.set]
      rw [if_neg (fun h => this h.symm)]
    · intro pre o p post hop hdec hpost
      cases pre with
      | nil =>
        simp only [List.nil_append, List.cons.injEq] at hdec
        obtain ⟨rfl, rfl, rfl⟩ := hdec
        rw [hF (redirIndex t) hpost]
        simp [Mem.set]
      | cons a pre1 =>
        cases pre1 with
        | nil =>
          simp only [List.cons_append, List.nil_append, List.cons.injEq] at hdec
          rw [hdec.2.1, hop] at hu; cases hu
        | cons b pre2 =>
          simp only [List.cons_append, List.cons.injEq] at hdec
          exact hF2 pre2 o p post hop hdec.2.2 hpost

theorem cnt_plain_token (t : List Char) :
    ∀ p : Char, (∀ c ∈ t, isWs c = false ∧ c ≠ '<' ∧ c ≠ '>') →
      cnt p t = if isWs p = true ∧ t ≠ [] then 1 else 0 := by
  induction t with
  | nil => intro p _; simp [cnt]
  | cons c t ih =>
    intro p h
    obtain ⟨hc1, hc2, hc3⟩ := h c (List.mem_cons_self _ _)
    rw [cnt, ih c (fun x hx => h x (List.mem_cons_of_mem _ hx))]
    simp only [charWeight, hc1, hc2, hc3, Bool.not_false, Bool.true_and, if_false, false_and,
      Bool.false_eq_true, add_zero, ne_eq, not_false_eq_true, and_true, reduceCtorEq]

theorem cnt_operator {t : List Char} (h : isOperator t = true) : cnt ' ' t = -1 := by
  simp only [isOperator, Bool.or_eq_true, beq_iff_eq] at h
  rcases h with (h | h) | h <;> subst h <;> decide

/-- On a line in which every operator is a token of its own, immediately followed
by a token that is not an operator, and no other token holds `<` or `>`, the
sum `count_arguments` computes is the number of tokens that are neither an
operator nor come right after one. -/
theorem sum_weights_followed :
    ∀ toks, followed isOperator false toks = true →
      (∀ t ∈ toks, t ≠ [] ∧ ∀ c ∈ t, isWs c = false) →
      (∀ t ∈ toks, isOperator t = true ∨ ∀ c ∈ t, c ≠ '<' ∧ c ≠ '>') →
      ((toks.map (cnt ' ')).sum : Int) = (plainFrom isOperator false toks).length := by
  have hplain : ∀ t : List Char, isOperator t = false → (t ≠ [] ∧ ∀ c ∈ t, isWs c = false) →
      (isOperator t = true ∨ ∀ c ∈ t, c ≠ '<' ∧ c ≠ '>') → cnt ' ' t = 1 := by
    intro t ht hw hs
    rcases hs with hs | hs
    · rw [hs] at ht; cases ht
    · rw [cnt_plain_token t ' ' (fun c hc => ⟨hw.2 c hc, hs c hc⟩)]
      have : isWs ' ' = true := by decide
      simp [this, hw.1]
  refine followed_induction isOperator _ ?_ ?_ ?_
  · intro _ _; simp [plainFrom]
  · intro t ts ht _ ih hw hs
    have := ih (fun x hx => hw x (List.mem_cons_of_mem _ hx))
      (fun x hx => hs x (List.mem_cons_of_mem _ hx))
    simp only [List.map_cons, List.sum_cons, this, plainFrom, ht, Bool.false_eq_true, if_false,
      List.length_cons, Nat.cast_add, Nat.cast_one,
      hplain t ht (hw t (List.mem_cons_self _ _)) (hs t (List.mem_cons_self _ _))]
    ring
  · intro t u ts ht hu _ ih hw hs
    have := ih (fun x hx => hw x (List.mem_cons_of_mem _ (List.mem_cons_of_mem _ hx)))
      (fun x hx => hs x (List.mem_cons_of_mem _ (List.mem_cons_of_mem _ hx)))
    have hum : u ∈ t :: u :: ts := List.mem_cons_of_mem _ (List.mem_cons_self _ _)
    simp only [List.map_cons, List.sum_cons, this, plainFrom, ht, hu, Bool.false_eq_true,
      if_false, if_true, cnt_operator ht, hplain u hu (hw u hum) (hs u hum)]
    ring

theorem startsRedir_eq_isOperator {t : List Char}
    (h : isOperator t = true ∨ ∀ c ∈ t, c ≠ '<' ∧ c ≠ '>') : startsRedir t = isOperator t := by
  rcases h with h | h
  · rw [h, isOperator_startsRedir h]
  · have h1 : startsRedir t = false := by
      cases t with
      | nil => decide
      | cons c cs =>
        have := h c (List.mem_cons_self _ _)
        simp [startsRedir, this.1, this.2]
    have h2 : isOperator t = false := by
      cases ho : isOperator t
      · rfl
      · rw [isOperator_startsRedir ho] at h1; cases h1
    rw [h1, h2]

theorem redirIndex_operator {t : List Char} (h : isOperator t = true) :
    (redirIndex t = 0 ∧ t = ['<']) ∨ (redirIndex t = 1 ∧ isOutputOperator t = true) := by
  simp only [isOperator, Bool.or_eq_true, beq_iff_eq] at h
  rcases h with (h | h) | h <;> subst h <;> decide

theorem followed_next (op : List Char → Bool) :
    ∀ (toks : List (List Char)) (prevOp : Bool), followed op prevOp toks = true →
      ∀ o ∈ toks, op o = true → ∃ pre p post, toks = pre ++ o :: p :: post := by
  intro toks
  induction toks with
  | nil => intro _ _ o ho; simp at ho
  | cons t ts ih =>
    intro prevOp hf o ho hop
    rcases List.mem_cons.1 ho with rfl | hmem
    · simp only [followed, hop, if_true, Bool.and_eq_true] at hf
      cases ts with
      | nil => simp [followed] at hf
      | cons u us => exact ⟨[], u, us, rfl⟩
    · have hf2 : ∃ q, followed op q ts = true := by
        by_cases ht : op t = true
        · simp only [followed, ht, if_true, Bool.and_eq_true] at hf; exact ⟨true, hf.2⟩
        · simp only [followed, ht, if_false, Bool.false_eq_true] at hf; exact ⟨false, hf⟩
      obtain ⟨q, hq⟩ := hf2
      obtain ⟨pre, p, post, h⟩ := ih q hq o hmem hop
      exact ⟨t :: pre, p, post, by rw [h]; rfl⟩

end WellFormed

section Claims

theorem plainFrom_not_op (op : List Char → Bool) :
    ∀ (toks : List (List Char)) (prevOp : Bool), ∀ t ∈ plainFrom op prevOp toks, op t = false := by
  intro toks
  induction toks with
  | nil => intro prevOp t ht; simp [plainFrom] at ht
  | cons u us ih =>
    intro prevOp t ht
    simp only [plainFrom] at ht
    by_cases hu : op u = true
    · rw [if_pos hu] at ht; exact ih true t ht
    · rw [if_neg hu] at ht
      cases prevOp
      · simp only [Bool.false_eq_true, if_false, List.mem_cons] at ht
        rcases ht with rfl | ht
        · simpa using hu
        · exact ih false t ht
      · simp only [if_true] at ht; exact ih false t ht

/-- C3: on every line that `construct_argv` accepts, the token cells of `argv`
hold, cell `k` for the `k`-th of them, tokens drawn in order from the tokens of
the line that are not a redirection operator token (`<`, `>`, `>>`) and do not
come immediately after one; in particular no cell holds an operator token. -/
theorem C3_argv_excludes_redirection (arg_len : Int) (input_buf : List Char) (files : Mem)
    (h : (construct_argv arg_len input_buf Mem.fresh files).accepted = true) :
    ∃ stored : List (List Char),
      List.Sublist stored (plainFrom isOperator false (tokens input_buf)) ∧
      (∀ t ∈ stored, isOperator t = false) ∧
      ∀ (j : Int) (t : List Char),
        (construct_argv arg_len input_buf Mem.fresh files).argv j = .tok t →
        ∃ k : Nat, j = k ∧ stored[k]? = some t := by
  rcases construct_argv_tokens arg_len input_buf Mem.fresh files with ⟨_, hn⟩ | ⟨_, b, hb⟩
  · rw [hn] at h; simp [Outcome.accepted] at h
  · obtain ⟨st1, stored, hf, _, _, hargv, _, hsub⟩ :=
      feed_general isOperator (fun t => isOperator_startsRedir) (tokens input_buf)
        (init_state Mem.fresh files) false rfl rfl (fun hp => by cases hp)
    rw [hb, hf] at h ⊢
    refine ⟨stored, hsub, fun t ht => plainFrom_not_op _ _ _ t (hsub.subset ht), ?_⟩
    intro j t hj
    simp only [conclude] at h hj
    by_cases ho : st1.is_output = true
    · simp [ho, Outcome.accepted] at h
    · by_cases hi : st1.is_input = true
      · simp [ho, hi, Outcome.accepted] at h
      · simp only [ho, hi, if_false, Bool.false_eq_true, Outcome.argv, Mem.set] at hj
        by_cases hja : j = arg_len
        · simp [hja] at hj
        · rw [if_neg hja, hargv, storeAll_apply] at hj
          simp only [init_state] at hj
          by_cases hr : (0 : Int) ≤ j ∧ j < 0 + stored.length
          · rw [if_pos hr] at hj
            refine ⟨j.toNat, by omega, ?_⟩
            simp only [sub_zero] at hj
            cases hs : stored[j.toNat]? with
            | none => rw [hs] at hj; simp at hj
            | some u => rw [hs] at hj; simp only [Cell.tok.injEq] at hj; rw [hj]
          · rw [if_neg hr] at hj; simp [Mem.fresh] at hj

theorem C3_argv_excludes_redirection_witness :
    (construct_argv 2 "echo hi > out.txt\n".toList Mem.fresh Mem.fresh).accepted = true ∧
    ∃ stored : List (List Char),
      List.Sublist stored (plainFrom isOperator false (tokens "echo hi > out.txt\n".toList)) ∧
      (∀ t ∈ stored, isOperator t = false) ∧
      ∀ (j : Int) (t : List Char),
        (construct_argv 2 "echo hi > out.txt\n".toList Mem.fresh Mem.fresh).argv j = .tok t →
        ∃ k : Nat, j = k ∧ stored[k]? = some t :=
  ⟨by decide, C3_argv_excludes_redirection 2 "echo hi > out.txt\n".toList Mem.fresh (by decide)⟩

end Claims

section ClaimC1

/-- The parse of a line in which every operator is a token of its own followed
by a token that is not an operator, and no other token holds `<` or `>`: the
call returns `append`, the count is exact, and the arrays are as the loop left
them, with the terminator after the stored tokens. -/
theorem parse_followed (input_buf : List Char) (argv files : Mem)
    (hne : tokens input_buf ≠ [])
    (hstandalone : ∀ t ∈ tokens input_buf, isOperator t = true ∨ ∀ c ∈ t, c ≠ '<' ∧ c ≠ '>')
    (hfol : followed isOperator false (tokens input_buf) = true) :
    count_arguments input_buf = ((plainFrom isOperator false (tokens input_buf)).length : Int) ∧
    ∃ (st1 : PState) (b : List Char),
      construct_argv (count_arguments input_buf) input_buf argv files =
        .returned st1.append none (st1.argv.set (count_arguments input_buf) .null) st1.files b ∧
      st1.argv = storeAll argv 0 (plainFrom isOperator false (tokens input_buf)) ∧
      st1.append = (if ['>', '>'] ∈ tokens input_buf then 1 else 0) ∧
      (∀ pre o p post, isOperator o = true → tokens input_buf = pre ++ o :: p :: post →
        (∀ t ∈ post, isOperator t = true → redirIndex t ≠ redirIndex o) →
        st1.files (redirIndex o) = .tok p) := by
  have hlen : count_arguments input_buf =
      ((plainFrom isOperator false (tokens input_buf)).length : Int) := by
    rw [count_arguments_eq_cnt, cnt_words]
    exact sum_weights_followed (tokens input_buf) hfol (words_spec _) hstandalone
  refine ⟨hlen, ?_⟩
  rcases construct_argv_tokens (count_arguments input_buf) input_buf argv files with
    ⟨h0, _⟩ | ⟨_, b, hb⟩
  · exact absurd h0 hne
  · obtain ⟨st1, hf, hi1, ho1, hargv, happ, _, hF2⟩ :=
      feed_followed (tokens input_buf) hfol
        (fun t ht => startsRedir_eq_isOperator (hstandalone t ht))
        (init_state argv files) rfl rfl rfl rfl
    refine ⟨st1, b, ?_, hargv, happ, hF2⟩
    rw [hb, hf]
    simp only [conclude, hi1, ho1, Bool.false_eq_true, if_false]

/-- The cells of `argv` after the tokens `ts` were stored from cell 0 on and the
terminator was written at cell `ts.length`. -/
theorem terminated_cells (argv : Mem) (ts : List (List Char)) :
    (∀ (k : Nat) (t : List Char), ts[k]? = some t →
      ((storeAll argv 0 ts).set (ts.length : Int) .null) k = .tok t) ∧
    ((storeAll argv 0 ts).set (ts.length : Int) .null) (ts.length : Int) = .null := by
  refine ⟨?_, by simp [Mem.set]⟩
  intro k t hk
  have hklt : k < ts.length := by
    by_contra hge
    rw [List.getElem?_eq_none (by omega)] at hk
    cases hk
  have hkne : ¬ ((k : Int) = (ts.length : Int)) := by omega
  simp only [Mem.set, hkne, if_false]
  rw [storeAll_apply, if_pos (by omega)]
  simp only [sub_zero, Int.toNat_ofNat, hk]

/-- C1: on a line that is not blank, in which every redirection operator is a
token of its own equal to `<`, `>` or `>>`, no other token holds `<` or `>`,
there is at most one `<` and at most one `>` or `>>`, and every operator is
immediately followed by a token that is not an operator, `construct_argv`
called with `arg_len = count_arguments(line)` returns without a diagnostic;
`argv` holds, in order, the tokens that are neither an operator nor come
immediately after one, and then NULL; `files[0]` is the token after `<` and
`files[1]` the token after `>` or `>>` (which exist when the operator does);
and the value returned is 1 if the line has `>>` and 0 otherwise. -/
theorem C1_well_formed_line (input_buf : List Char) (argv files : Mem)
    (hne : tokens input_buf ≠ [])
    (hstandalone : ∀ t ∈ tokens input_buf, isOperator t = true ∨ ∀ c ∈ t, c ≠ '<' ∧ c ≠ '>')
    (hin : (tokens input_buf).count ['<'] ≤ 1)
    (hout : (tokens input_buf).countP isOutputOperator ≤ 1)
    (hfol : followed isOperator false (tokens input_buf) = true) :
    (construct_argv (count_arguments input_buf) input_buf argv files).accepted = true ∧
    (∀ (k : Nat) (t : List Char),
      (plainFrom isOperator false (tokens input_buf))[k]? = some t →
      (construct_argv (count_arguments input_buf) input_buf argv files).argv k = .tok t) ∧
    (construct_argv (count_arguments input_buf) input_buf argv files).argv
      (plainFrom isOperator false (tokens input_buf)).length = .null ∧
    (∀ o ∈ tokens input_buf, isOperator o = true →
      ∃ pre p post, tokens input_buf = pre ++ o :: p :: post) ∧
    (∀ pre p post, tokens input_buf = pre ++ ['<'] :: p :: post →
      (construct_argv (count_arguments input_buf) input_buf argv files).files 0 = .tok p) ∧
    (∀ pre o p post, isOutputOperator o = true → tokens input_buf = pre ++ o :: p :: post →
      (construct_argv (count_arguments input_buf) input_buf argv files).files 1 = .tok p) ∧
    (construct_argv (count_arguments input_buf) input_buf argv files).ret =
      some (if ['>', '>'] ∈ tokens input_buf then 1 else 0) := by
  obtain ⟨hlen, st1, b, hout1, hargv, happ, hF2⟩ :=
    parse_followed input_buf argv files hne hstandalone hfol
  rw [hout1]
  simp only [Outcome.accepted, Outcome.argv, Outcome.files, Outcome.ret, true_and]
  rw [hlen, hargv]
  refine ⟨(terminated_cells argv _).1, (terminated_cells argv _).2, ?_, ?_, ?_, ?_⟩
  · exact followed_next isOperator _ false hfol
  · intro pre p post hdec
    have h := hF2 pre ['<'] p post (by decide) hdec (by
      intro t ht hop hidx
      rcases redirIndex_operator hop with ⟨_, h1⟩ | ⟨h1, _⟩
      · subst h1
        rw [hdec] at hin
        have hc : 0 < post.count ['<'] := List.count_pos_iff.2 ht
        simp only [List.count_append, List.count_cons_self] at hin
        have := List.count_le_count_cons (a := ['<']) (b := p) (l := post)
        omega
      · rw [h1] at hidx
        revert hidx; decide)
    simpa [redirIndex] using h
  · intro pre o p post hoo hdec
    have hop : isOperator o = true := by
      simp only [isOutputOperator, Bool.or_eq_true, beq_iff_eq] at hoo
      rcases hoo with h | h <;> subst h <;> decide
    have hidx1 : redirIndex o = 1 := by
      simp only [isOutputOperator, Bool.or_eq_true, beq_iff_eq] at hoo
      rcases hoo with h | h <;> subst h <;> decide
    have h := hF2 pre o p post hop hdec (by
      intro t ht hopt hidx
      rw [hidx1] at hidx
      rcases redirIndex_operator hopt with ⟨h1, _⟩ | ⟨_, h1⟩
      · rw [h1] at hidx; revert hidx; decide
      · rw [hdec] at hout
        have hc : 0 < post.countP isOutputOperator := List.countP_pos_iff.2 ⟨t, ht, h1⟩
        simp only [List.countP_append, List.countP_cons, hoo, if_true] at hout
        omega)
    rw [hidx1] at h
    exact h
  · rw [happ]

theorem C1_well_formed_line_witness :
    (tokens "echo hi > out.txt\n".toList ≠ [] ∧
     (∀ t ∈ tokens "echo hi > out.txt\n".toList,
        isOperator t = true ∨ ∀ c ∈ t, c ≠ '<' ∧ c ≠ '>') ∧
     (tokens "echo hi > out.txt\n".toList).count ['<'] ≤ 1 ∧
     (tokens "echo hi > out.txt\n".toList).countP isOutputOperator ≤ 1 ∧
     followed isOperator false (tokens "echo hi > out.txt\n".toList) = true) ∧
    (construct_argv (count_arguments "echo hi > out.txt\n".toList) "echo hi > out.txt\n".toList
      Mem.fresh Mem.fresh).ret = some 0 :=
  ⟨⟨by decide, by decide, by decide, by decide, by decide⟩,
    (C1_well_formed_line "echo hi > out.txt\n".toList Mem.fresh Mem.fresh
      (by decide) (by decide) (by decide) (by decide) (by decide)).2.2.2.2.2.2⟩

/-- The three lines the specification gives as examples of well-formed lines. -/
theorem well_formed_examples :
    ((construct_argv (count_arguments "echo hi > out.txt\n".toList) "echo hi > out.txt\n".toList
        Mem.fresh Mem.fresh).argv 0 = .tok "echo".toList ∧
     (construct_argv (count_arguments "echo hi > out.txt\n".toList) "echo hi > out.txt\n".toList
        Mem.fresh Mem.fresh).argv 1 = .tok "hi".toList ∧
     (construct_argv (count_arguments "echo hi > out.txt\n".toList) "echo hi > out.txt\n".toList
        Mem.fresh Mem.fresh).argv 2 = .null ∧
     (construct_argv (count_arguments "echo hi > out.txt\n".toList) "echo hi > out.txt\n".toList
        Mem.fresh Mem.fresh).files 1 = .tok "out.txt".toList ∧
     (construct_argv (count_arguments "echo hi > out.txt\n".toList) "echo hi > out.txt\n".toList
        Mem.fresh Mem.fresh).ret = some 0) ∧
    (construct_argv (count_arguments "echo hi >> out.txt\n".toList) "echo hi >> out.txt\n".toList
        Mem.fresh Mem.fresh).ret = some 1 ∧
    ((construct_argv (count_arguments "< in.txt cat\n".toList) "< in.txt cat\n".toList
        Mem.fresh Mem.fresh).argv 0 = .tok "cat".toList ∧
     (construct_argv (count_arguments "< in.txt cat\n".toList) "< in.txt cat\n".toList
        Mem.fresh Mem.fresh).argv 1 = .null ∧
     (construct_argv (count_arguments "< in.txt cat\n".toList) "< in.txt cat\n".toList
        Mem.fresh Mem.fresh).files 0 = .tok "in.txt".toList) := by
  decide

end ClaimC1

section ClaimC2

theorem plain_line_facts :
    ∀ toks : List (List Char), (∀ t ∈ toks, isOperator t = false) →
      plainFrom isOperator false toks = toks ∧ followed isOperator false toks = true := by
  intro toks
  induction toks with
  | nil => intro _; exact ⟨rfl, rfl⟩
  | cons t ts ih =>
    intro h
    have ht := h t (List.mem_cons_self _ _)
    have := ih (fun x hx => h x (List.mem_cons_of_mem _ hx))
    simp [plainFrom, followed, ht, this.1, this.2]

theorem not_operator_of_plain {t : List Char} (h : ∀ c ∈ t, c ≠ '<' ∧ c ≠ '>') :
    isOperator t = false := by
  cases ho : isOperator t
  · rfl
  · simp only [isOperator, Bool.or_eq_true, beq_iff_eq] at ho
    rcases ho with (ho | ho) | ho <;> subst ho <;> simp at h

/-- C2, as the claim states it, fails on `ls <foo`: neither token is a
redirection operator token, yet `construct_argv` takes `<foo` for an input
operator, prints "no input file" and returns -1; only `ls` was stored and no
terminator was written. -/
theorem C2_counterexample :
    (∀ t ∈ tokens "ls <foo\n".toList, isOperator t = false) ∧
    (tokens "ls <foo\n".toList).length = 2 ∧
    (construct_argv (count_arguments "ls <foo\n".toList) "ls <foo\n".toList
      Mem.fresh Mem.fresh).accepted = false ∧
    (construct_argv (count_arguments "ls <foo\n".toList) "ls <foo\n".toList
      Mem.fresh Mem.fresh).diag = some .noInput ∧
    (construct_argv (count_arguments "ls <foo\n".toList) "ls <foo\n".toList
      Mem.fresh Mem.fresh).argv 1 = .unwritten ∧
    (construct_argv (count_arguments "ls <foo\n".toList) "ls <foo\n".toList
      Mem.fresh Mem.fresh).argv 2 = .unwritten := by
  decide

/-- C2, amended: for every line with at least one token, none of whose tokens
holds the character `<` or `>`, `count_arguments` returns the number `N` of
tokens and `construct_argv` returns 0 with the `N` tokens, in order, in the
cells 0 to `N - 1` of `argv` and the terminator in cell `N`. -/
theorem C2_plain_line (input_buf : List Char) (argv files : Mem)
    (hne : tokens input_buf ≠ [])
    (hplain : ∀ t ∈ tokens input_buf, ∀ c ∈ t, c ≠ '<' ∧ c ≠ '>') :
    count_arguments input_buf = ((tokens input_buf).length : Int) ∧
    (construct_argv (count_arguments input_buf) input_buf argv files).ret = some 0 ∧
    (construct_argv (count_arguments input_buf) input_buf argv files).diag = none ∧
    (∀ (k : Nat) (t : List Char), (tokens input_buf)[k]? = some t →
      (construct_argv (count_arguments input_buf) input_buf argv files).argv k = .tok t) ∧
    (construct_argv (count_arguments input_buf) input_buf argv files).argv
      (tokens input_buf).length = .null := by
  have hno : ∀ t ∈ tokens input_buf, isOperator t = false :=
    fun t ht => not_operator_of_plain (hplain t ht)
  obtain ⟨hpl, hfol⟩ := plain_line_facts (tokens input_buf) hno
  obtain ⟨hlen, st1, b, hout1, hargv, happ, _⟩ :=
    parse_followed input_buf argv files hne (fun t ht => Or.inr (hplain t ht)) hfol
  rw [hpl] at hlen hargv
  have hnoapp : ¬ ['>', '>'] ∈ tokens input_buf := by
    intro hmem
    have := hno _ hmem
    revert this; decide
  rw [if_neg hnoapp] at happ
  rw [hout1]
  simp only [Outcome.ret, Outcome.diag, Outcome.argv, true_and]
  rw [hlen, hargv, happ]
  exact ⟨rfl, rfl, (terminated_cells argv _).1, (terminated_cells argv _).2⟩

theorem C2_plain_line_witness :
    (tokens "ls -l\n".toList ≠ [] ∧
     ∀ t ∈ tokens "ls -l\n".toList, ∀ c ∈ t, c ≠ '<' ∧ c ≠ '>') ∧
    (construct_argv (count_arguments "ls -l\n".toList) "ls -l\n".toList
      Mem.fresh Mem.fresh).argv (tokens "ls -l\n".toList).length = .null :=
  ⟨⟨by decide, by decide⟩,
    (C2_plain_line "ls -l\n".toList Mem.fresh Mem.fresh (by decide) (by decide)).2.2.2.2⟩

/-- The line `ls -l` of the specification: two arguments and the terminator. -/
theorem plain_line_example :
    (construct_argv (count_arguments "ls -l\n".toList) "ls -l\n".toList
      Mem.fresh Mem.fresh).argv 0 = .tok "ls".toList ∧
    (construct_argv (count_arguments "ls -l\n".toList) "ls -l\n".toList
      Mem.fresh Mem.fresh).argv 1 = .tok "-l".toList ∧
    (construct_argv (count_arguments "ls -l\n".toList) "ls -l\n".toList
      Mem.fresh Mem.fresh).argv 2 = .null ∧
    (construct_argv (count_arguments "ls -l\n".toList) "ls -l\n".toList
      Mem.fresh Mem.fresh).files 0 = .unwritten ∧
    (construct_argv (count_arguments "ls -l\n".toList) "ls -l\n".toList
      Mem.fresh Mem.fresh).files 1 = .unwritten := by
  decide

/-- A token that holds `<` after its first character: `count_arguments` returns
-1 for the line `a<b`, `construct_argv` stores the token in cell 0 and writes
the terminator in cell -1, and cell 1 is never written. -/
theorem undercount_example :
    count_arguments "a<b\n".toList = -1 ∧
    (construct_argv (count_arguments "a<b\n".toList) "a<b\n".toList
      Mem.fresh Mem.fresh).ret = some 0 ∧
    (construct_argv (count_arguments "a<b\n".toList) "a<b\n".toList
      Mem.fresh Mem.fresh).argv 0 = .tok "a<b".toList ∧
    (construct_argv (count_arguments "a<b\n".toList) "a<b\n".toList
      Mem.fresh Mem.fresh).argv (-1) = .null ∧
    (construct_argv (count_arguments "a<b\n".toList) "a<b\n".toList
      Mem.fresh Mem.fresh).argv 1 = .unwritten := by
  decide

end ClaimC2

section ClaimC4

/-- No call of `construct_argv` prints "multiple input files" or "multiple
output files": the variables that guard these diagnostics are never set. -/
theorem construct_argv_diag (arg_len : Int) (input_buf : List Char) (argv files : Mem) :
    (construct_argv arg_len input_buf argv files).diag = none ∨
    (construct_argv arg_len input_buf argv files).diag = some .noOutput ∨
    (construct_argv arg_len input_buf argv files).diag = some .noInput := by
  rcases construct_argv_tokens arg_len input_buf argv files with ⟨_, hn⟩ | ⟨_, b, hb⟩
  · rw [hn]; left; rfl
  · obtain ⟨st1, stored, hf, _⟩ :=
      feed_general isOperator (fun t => isOperator_startsRedir) (tokens input_buf)
        (init_state argv files) false rfl rfl (fun hp => by cases hp)
    rw [hb, hf]
    simp only [conclude]
    by_cases ho : st1.is_output = true
    · simp [ho, Outcome.diag]
    · by_cases hi : st1.is_input = true
      · simp [ho, hi, Outcome.diag]
      · simp [ho, hi, Outcome.diag]

/-- C4, the code at the failing input `cmd < a < b`: `construct_argv` prints
nothing and returns 0, with `cmd` as the only argument and `b` as the input
path, and `main` goes on to launch `cmd`; indeed no line at all makes
`construct_argv` print "multiple input files". -/
theorem C4_second_input_operator_accepted :
    (∀ (arg_len : Int) (input_buf : List Char) (argv files : Mem),
      (construct_argv arg_len input_buf argv files).diag ≠ some .multipleInput) ∧
    (construct_argv (count_arguments "cmd < a < b\n".toList) "cmd < a < b\n".toList
      Mem.fresh Mem.fresh).ret = some 0 ∧
    (construct_argv (count_arguments "cmd < a < b\n".toList) "cmd < a < b\n".toList
      Mem.fresh Mem.fresh).diag = none ∧
    (construct_argv (count_arguments "cmd < a < b\n".toList) "cmd < a < b\n".toList
      Mem.fresh Mem.fresh).argv 0 = .tok "cmd".toList ∧
    (construct_argv (count_arguments "cmd < a < b\n".toList) "cmd < a < b\n".toList
      Mem.fresh Mem.fresh).argv 1 = .null ∧
    (construct_argv (count_arguments "cmd < a < b\n".toList) "cmd < a < b\n".toList
      Mem.fresh Mem.fresh).files 0 = .tok "b".toList ∧
    (main_body Sys.ok "cmd < a < b\n".toList Mem.fresh Mem.fresh).kinds = [.fork, .wait] := by
  refine ⟨?_, by decide, by decide, by decide, by decide, by decide, by decide⟩
  intro arg_len input_buf argv files h
  rcases construct_argv_diag arg_len input_buf argv files with h1 | h1 | h1 <;>
    rw [h1] at h <;> cases h

end ClaimC4

section ClaimC5

/-- The variables `is_input` and `is_output` after the loop of `construct_argv`
say which operators still await their path. -/
theorem feed_awaiting :
    ∀ (toks : List (List Char)) (st : PState),
      st.already_input = false → st.already_output = false →
      ∃ st1, feed st toks = .ok st1 ∧
        (st1.is_input, st1.is_output) = awaiting (st.is_input, st.is_output) toks := by
  intro toks
  induction toks with
  | nil => intro st _ _; exact ⟨st, rfl, rfl⟩
  | cons t ts ih =>
    intro st h1 h2
    by_cases hlt : t.headD NUL = '<'
    · obtain ⟨st1, hf, hw⟩ := ih { st with is_input := true } h1 h2
      refine ⟨st1, ?_, ?_⟩
      · simp only [feed, classify_lt st t hlt h1]; exact hf
      · rw [hw]; simp only [awaiting, hlt, if_true]
    · by_cases hgt : t.headD NUL = '>'
      · obtain ⟨st1, hf, hw⟩ :=
          ih { st with append := if t = ['>', '>'] then 1 else st.append, is_output := true }
            h1 h2
        refine ⟨st1, ?_, ?_⟩
        · simp only [feed, classify_gt st t hgt h2]; exact hf
        · have hne : ¬ ('>' : Char) = '<' := by decide
          rw [hw]; simp only [awaiting, hgt, hne, if_true, if_false]
      · cases hi : st.is_input
        · cases ho : st.is_output
          · obtain ⟨st1, hf, hw⟩ :=
              ih { st with argv := st.argv.set st.count (.tok t), count := st.count + 1 } h1 h2
            refine ⟨st1, ?_, ?_⟩
            · simp only [feed, classify_arg st t hlt hgt hi ho]; exact hf
            · rw [hw]
              simp only [awaiting, hlt, hgt, hi, ho, if_false, Bool.false_eq_true]
          · obtain ⟨st1, hf, hw⟩ :=
              ih { st with files := st.files.set 1 (.tok t), is_output := false } h1 h2
            refine ⟨st1, ?_, ?_⟩
            · simp only [feed, classify_out st t hlt hgt hi ho]; exact hf
            · rw [hw]
              simp only [awaiting, hlt, hgt, hi, if_false, Bool.false_eq_true]
        · obtain ⟨st1, hf, hw⟩ :=
            ih { st with files := st.files.set 0 (.tok t), is_input := false } h1 h2
          refine ⟨st1, ?_, ?_⟩
          · simp only [feed, classify_in st t hlt hgt hi]; exact hf
          · rw [hw]
            simp only [awaiting, hlt, hgt, if_false, if_true]

theorem awaiting_append (a b : List (List Char)) :
    ∀ s : Bool × Bool, awaiting s (a ++ b) = awaiting (awaiting s a) b := by
  induction a with
  | nil => intro s; rfl
  | cons t ts ih =>
    intro s
    simp only [List.cons_append, awaiting]
    split_ifs <;> exact ih _

theorem awaiting_followed :
    ∀ toks, followed startsRedir false toks = true →
      awaiting (false, false) toks = (false, false) := by
  refine followed_induction startsRedir _ rfl ?_ ?_
  · intro t ts ht _ ih
    obtain ⟨h1, h2⟩ := not_startsRedir ht
    simp only [awaiting, h1, h2, if_false, Bool.false_eq_true, ih]
  · intro t u ts ht hu _ ih
    obtain ⟨h1, h2⟩ := not_startsRedir hu
    by_cases hlt : t.headD NUL = '<'
    · simp only [awaiting, hlt, h1, h2, if_true, if_false, ih]
    · have hgt : t.headD NUL = '>' := by
        simp only [startsRedir, Bool.or_eq_true, beq_iff_eq] at ht
        rcases ht with h | h
        · exact absurd h hlt
        · exact h
      have hne : ¬ ('>' : Char) = '<' := by decide
      simp only [awaiting, hgt, hne, h1, h2, if_true, if_false, Bool.false_eq_true, ih]

/-- The diagnostic of `construct_argv` on a line that is not blank, from the
operators that still await their path at the end of the line. -/
theorem construct_argv_awaiting (arg_len : Int) (input_buf : List Char) (argv files : Mem)
    (hne : tokens input_buf ≠ []) :
    (construct_argv arg_len input_buf argv files).diag =
      (if (awaiting (false, false) (tokens input_buf)).2 = true then some Diag.noOutput
       else if (awaiting (false, false) (tokens input_buf)).1 = true then some Diag.noInput
       else none) ∧
    ((construct_argv arg_len input_buf argv files).diag ≠ none →
      (construct_argv arg_len input_buf argv files).ret = some (-1)) := by
  rcases construct_argv_tokens arg_len input_buf argv files with ⟨h0, _⟩ | ⟨_, b, hb⟩
  · exact absurd h0 hne
  · obtain ⟨st1, hf, hw⟩ := feed_awaiting (tokens input_buf) (init_state argv files) rfl rfl
    simp only [init_state] at hw
    rw [hb, hf, ← hw]
    simp only [conclude]
    cases ho : st1.is_output
    · cases hi : st1.is_input
      · simp [Outcome.diag]
      · simp [Outcome.diag, Outcome.ret]
    · simp [Outcome.diag, Outcome.ret]

/-- C5, as the claim states it, fails on `cmd <foo`: no token of the line is a
redirection operator (`<`, `>`, `>>`), so every operator on the line received
its path, yet `construct_argv` prints "no input file" and returns -1. -/
theorem C5_counterexample :
    (∀ t ∈ tokens "cmd <foo\n".toList, isOperator t = false) ∧
    followed isOperator false (tokens "cmd <foo\n".toList) = true ∧
    (construct_argv (count_arguments "cmd <foo\n".toList) "cmd <foo\n".toList
      Mem.fresh Mem.fresh).diag = some .noInput ∧
    (construct_argv (count_arguments "cmd <foo\n".toList) "cmd <foo\n".toList
      Mem.fresh Mem.fresh).ret = some (-1) := by
  decide

/-- C5, amended: take as operator every token whose first character is `<` or
`>`.  On every line that is not blank, `construct_argv` prints "no output file"
exactly when an output operator still awaits its path at the end of the line,
"no input file" exactly when an input operator does and no output operator
does, and nothing otherwise, and it returns -1 whenever it prints.  A line
whose last token is an output operator gets "no output file"; a line whose last
token is an input operator gets one of the two diagnostics, and "no input file"
when every operator before it is immediately followed by a token that is not an
operator; a line in which every operator is immediately followed by a token
that is not an operator gets neither diagnostic. -/
theorem C5_operator_without_path (arg_len : Int) (input_buf : List Char) (argv files : Mem)
    (hne : tokens input_buf ≠ []) :
    ((construct_argv arg_len input_buf argv files).diag =
      (if (awaiting (false, false) (tokens input_buf)).2 = true then some Diag.noOutput
       else if (awaiting (false, false) (tokens input_buf)).1 = true then some Diag.noInput
       else none)) ∧
    ((construct_argv arg_len input_buf argv files).diag ≠ none →
      (construct_argv arg_len input_buf argv files).ret = some (-1)) ∧
    (∀ front t, tokens input_buf = front ++ [t] → t.headD NUL = '>' →
      (construct_argv arg_len input_buf argv files).diag = some .noOutput) ∧
    (∀ front t, tokens input_buf = front ++ [t] → t.headD NUL = '<' →
      ((construct_argv arg_len input_buf argv files).diag = some .noInput ∨
       (construct_argv arg_len input_buf argv files).diag = some .noOutput) ∧
      (followed startsRedir false front = true →
        (construct_argv arg_len input_buf argv files).diag = some .noInput)) ∧
    (followed startsRedir false (tokens input_buf) = true →
      (construct_argv arg_len input_buf argv files).diag = none) := by
  obtain ⟨hd, hr⟩ := construct_argv_awaiting arg_len input_buf argv files hne
  refine ⟨hd, hr, ?_, ?_, ?_⟩
  · intro front t hdec hgt
    have hne2 : ¬ ('>' : Char) = '<' := by decide
    rw [hd, hdec, awaiting_append]
    simp only [awaiting, hgt, hne2, if_true, if_false]
  · intro front t hdec hlt
    rw [hd, hdec, awaiting_append]
    simp only [awaiting, hlt, if_true]
    refine ⟨?_, ?_⟩
    · cases (awaiting (false, false) front).2 <;> simp
    · intro hfol
      rw [awaiting_followed front hfol]
      simp
  · intro hfol
    rw [hd, awaiting_followed _ hfol]
    simp

theorem C5_operator_without_path_witness :
    tokens "cmd >\n".toList ≠ [] ∧
    (construct_argv (count_arguments "cmd >\n".toList) "cmd >\n".toList
      Mem.fresh Mem.fresh).diag = some .noOutput ∧
    (construct_argv (count_arguments "cmd >\n".toList) "cmd >\n".toList
      Mem.fresh Mem.fresh).ret = some (-1) :=
  ⟨by decide,
    (C5_operator_without_path (count_arguments "cmd >\n".toList) "cmd >\n".toList
      Mem.fresh Mem.fresh (by decide)).2.2.1 ["cmd".toList] [ '>' ] (by decide) (by decide),
    (C5_operator_without_path (count_arguments "cmd >\n".toList) "cmd >\n".toList
      Mem.fresh Mem.fresh (by decide)).2.1 (by decide)⟩

end ClaimC5

section MainLoop

theorem tokens_of_blank (input_buf : List Char) (hblank : ∀ c ∈ cstr input_buf, isWs c = true) :
    tokens input_buf = [] := by
  have := words_ws_append (cstr input_buf) [] hblank
  rw [List.append_nil] at this
  rw [tokens, this]
  simp [words, splitWords]

/-- C7, the code on blank lines: for every line that holds only spaces, tabs and
newlines `count_arguments` returns 0, but the first `strtok` call of
`construct_argv` returns NULL and the next statement evaluates `*arg`; `main`
does not get to the test of `argv[0]`. -/
theorem C7_blank_line_null_dereference (sys : Sys) (arg_len : Int) (input_buf : List Char)
    (argv files : Mem) (hblank : ∀ c ∈ cstr input_buf, isWs c = true) :
    count_arguments input_buf = 0 ∧
    construct_argv arg_len input_buf argv files = .nullDeref ∧
    main_body sys input_buf argv files = .undefined [] := by
  have ht := tokens_of_blank input_buf hblank
  have hnull : ∀ n, construct_argv n input_buf argv files = .nullDeref := by
    intro n
    rcases construct_argv_tokens n input_buf argv files with ⟨_, hn⟩ | ⟨hne, _⟩
    · exact hn
    · exact absurd ht hne
  refine ⟨?_, hnull arg_len, ?_⟩
  · rw [count_arguments_eq_cnt, cnt_words]
    rw [tokens] at ht
    rw [ht]; rfl
  · simp only [main_body, hnull]

theorem C7_blank_line_null_dereference_witness :
    (∀ c ∈ cstr "\n".toList, isWs c = true) ∧
    count_arguments "\n".toList = 0 ∧
    construct_argv 0 "\n".toList Mem.fresh Mem.fresh = .nullDeref ∧
    main_body Sys.ok "\n".toList Mem.fresh Mem.fresh = .undefined [] :=
  ⟨by decide, C7_blank_line_null_dereference Sys.ok 0 "\n".toList Mem.fresh Mem.fresh (by decide)⟩

theorem classify_append (st st1 : PState) (t : List Char) (h : classify st t = .ok st1)
    (ha : st.append = 0 ∨ st.append = 1) : st1.append = 0 ∨ st1.append = 1 := by
  unfold classify at h
  split_ifs at h <;> simp only [Except.ok.injEq, reduceCtorEq] at h <;> subst h <;>
    first
      | exact ha
      | (right; rfl)

theorem feed_append :
    ∀ (toks : List (List Char)) (st st1 : PState), feed st toks = .ok st1 →
      (st.append = 0 ∨ st.append = 1) → (st1.append = 0 ∨ st1.append = 1) := by
  intro toks
  induction toks with
  | nil =>
    intro st st1 h ha
    simp only [feed, Except.ok.injEq] at h
    subst h; exact ha
  | cons t ts ih =>
    intro st st1 h ha
    simp only [feed] at h
    cases hc : classify st t with
    | error d => rw [hc] at h; cases h
    | ok st2 =>
      rw [hc] at h
      exact ih st2 st1 h (classify_append st st2 t hc ha)

/-- A call of `construct_argv` that prints nothing returns 0 or 1, and a call
that prints a diagnostic returns -1. -/
theorem construct_argv_ret (arg_len : Int) (input_buf : List Char) (argv files : Mem)
    (r : Int) (d : Option Diag) (a f : Mem) (b : List Char)
    (h : construct_argv arg_len input_buf argv files = .returned r d a f b) :
    (d = none → r = 0 ∨ r = 1) ∧ (d ≠ none → r = -1) := by
  rcases construct_argv_tokens arg_len input_buf argv files with ⟨_, hn⟩ | ⟨_, b2, hb⟩
  · rw [hn] at h; cases h
  · rw [hb] at h
    cases hf : feed (init_state argv files) (tokens input_buf) with
    | error e =>
      obtain ⟨dg, st⟩ := e
      rw [hf] at h
      simp only [conclude, Outcome.returned.injEq] at h
      obtain ⟨h1, h2, _⟩ := h
      subst h1 h2
      exact ⟨fun hd => (by cases hd), fun _ => rfl⟩
    | ok st1 =>
      rw [hf] at h
      have happ := feed_append _ _ _ hf (Or.inl rfl)
      simp only [conclude] at h
      split_ifs at h <;> simp only [Outcome.returned.injEq] at h <;>
        obtain ⟨h1, h2, _⟩ := h <;> subst h1 h2
      · exact ⟨fun hd => (by cases hd), fun _ => rfl⟩
      · exact ⟨fun hd => (by cases hd), fun _ => rfl⟩
      · exact ⟨fun _ => happ, fun hd => absurd rfl hd⟩

/-- When `construct_argv` accepts the line and leaves the token `exit` in
`argv[0]`, `main` returns 0 during the pass and has made no call before. -/
theorem main_body_exit (sys : Sys) (input_buf : List Char) (argv files : Mem)
    (hacc : (construct_argv (count_arguments input_buf) input_buf argv files).accepted = true)
    (hname : (construct_argv (count_arguments input_buf) input_buf argv files).argv 0 =
      .tok ['e', 'x', 'i', 't']) :
    main_body sys input_buf argv files = .exit 0 [] := by
  cases hout : construct_argv (count_arguments input_buf) input_buf argv files with
  | nullDeref => rw [hout] at hacc; cases hacc
  | noFuel => rw [hout] at hacc; cases hacc
  | returned r d a f b =>
    rw [hout] at hacc hname
    cases d with
    | some dg => cases hacc
    | none =>
      simp only [Outcome.argv] at hname
      have hr := (construct_argv_ret _ _ _ _ r none a f b hout).1 rfl
      have hr0 : ¬ r < 0 := by omega
      have hs : set_first_arg a = some (a.set 0 (.tok ['e', 'x', 'i', 't'])) := by
        unfold set_first_arg
        rw [hname]
        rfl
      have hcmp : strncmp_eq ['e', 'x', 'i', 't'] ['e', 'x', 'i', 't']
          (['e', 'x', 'i', 't'] : List Char).length = true := by decide
      simp only [main_body, hout, hname, hr0, if_false, hs, hcmp, if_true]
      rfl

/-- When `construct_argv` accepts the line and leaves NULL in `argv[0]`, `main`
takes the line for a blank one: it makes no call and goes on to the next
`prompt`. -/
theorem main_body_null (sys : Sys) (input_buf : List Char) (argv files : Mem)
    (hacc : (construct_argv (count_arguments input_buf) input_buf argv files).accepted = true)
    (hname : (construct_argv (count_arguments input_buf) input_buf argv files).argv 0 = .null) :
    main_body sys input_buf argv files = .reprompt [] := by
  cases hout : construct_argv (count_arguments input_buf) input_buf argv files with
  | nullDeref => rw [hout] at hacc; cases hacc
  | noFuel => rw [hout] at hacc; cases hacc
  | returned r d a f b =>
    rw [hout] at hacc hname
    cases d with
    | some dg => cases hacc
    | none =>
      simp only [Outcome.argv] at hname
      simp only [main_body, hout, hname]
      rfl

end MainLoop

section Dispatch

/-- C9, the code at the failing inputs `e`, `ex` and `exi`: each line is
accepted with that word as its only argument, and `main` returns 0 on it,
because `strncmp` compares only as many bytes as the word has. -/
theorem C9_exit_on_shorter_names :
    ((construct_argv (count_arguments "ex\n".toList) "ex\n".toList
        Mem.fresh Mem.fresh).accepted = true ∧
     (construct_argv (count_arguments "ex\n".toList) "ex\n".toList
        Mem.fresh Mem.fresh).argv 0 = .tok ['e', 'x'] ∧
     (construct_argv (count_arguments "ex\n".toList) "ex\n".toList
        Mem.fresh Mem.fresh).argv 1 = .null) ∧
    (∀ sys : Sys, main_body sys "e\n".toList Mem.fresh Mem.fresh = .exit 0 []) ∧
    (∀ sys : Sys, main_body sys "ex\n".toList Mem.fresh Mem.fresh = .exit 0 []) ∧
    (∀ sys : Sys, main_body sys "exi\n".toList Mem.fresh Mem.fresh = .exit 0 []) ∧
    (∀ sys : Sys, (main 5 sys ["ex\n".toList, "ls\n".toList]).status = some 0 ∧
      (main 5 sys ["ex\n".toList, "ls\n".toList]).kinds = [.prompt]) :=
  ⟨by decide, fun _ => rfl, fun _ => rfl, fun _ => rfl, fun _ => ⟨rfl, rfl⟩⟩

/-- The value `exec_built_in_commands` returns: 0 for `cd`, `ln` and `rm` on
every path on which it returns, whatever the arguments are and whether or not
the system call fails, and -1, without any call, for every other name. -/
theorem exec_built_in_commands_ret (sys : Sys) (argv : Mem) (file_name : List Char) :
    ((file_name = ['c', 'd'] ∨ file_name = ['l', 'n'] ∨ file_name = ['r', 'm']) →
      ∀ r calls, exec_built_in_commands sys argv file_name = some (r, calls) → r = 0) ∧
    (¬ (file_name = ['c', 'd'] ∨ file_name = ['l', 'n'] ∨ file_name = ['r', 'm']) →
      exec_built_in_commands sys argv file_name = some (-1, [])) := by
  refine ⟨?_, ?_⟩
  · intro hname r calls h
    unfold exec_built_in_commands at h
    rcases hname with hn | hn | hn <;> subst hn
    · simp only [if_true] at h
      split at h <;> (try split_ifs at h) <;> simp only [Option.some.injEq, Prod.mk.injEq,
        reduceCtorEq] at h <;> exact h.1.symm
    · have h1 : ¬ (['l', 'n'] : List Char) = ['c', 'd'] := by decide
      simp only [h1, if_false, if_true] at h
      split at h
      · cases h
      · simp only [Option.some.injEq, Prod.mk.injEq] at h; exact h.1.symm
      · split at h
        · cases h
        · split_ifs at h <;> simp only [Option.some.injEq, Prod.mk.injEq] at h <;>
            exact h.1.symm
    · have h1 : ¬ (['r', 'm'] : List Char) = ['c', 'd'] := by decide
      have h2 : ¬ (['r', 'm'] : List Char) = ['l', 'n'] := by decide
      simp only [h1, h2, if_false, if_true] at h
      split at h
      · cases h
      · split_ifs at h <;> simp only [Option.some.injEq, Prod.mk.injEq] at h <;>
          exact h.1.symm
  · intro hname
    simp only [not_or] at hname
    simp only [exec_built_in_commands, hname.1, hname.2.1, hname.2.2, if_false]

/-- C10, the code at the failing input `ex`: the command is not `exit` and
`exec_built_in_commands` returns -1 for it, yet `main` forks no child: it
returns 0 before `exec_built_in_commands` is called. -/
theorem C10_no_child_for_ex :
    (['e', 'x'] : List Char) ≠ ['e', 'x', 'i', 't'] ∧
    (∀ (sys : Sys) (argv : Mem), exec_built_in_commands sys argv ['e', 'x'] = some (-1, [])) ∧
    (∀ sys : Sys, (main_body sys "ex\n".toList Mem.fresh Mem.fresh).kinds = [] ∧
      (main_body sys "ex\n".toList Mem.fresh Mem.fresh).status = some 0) ∧
    (∀ sys : Sys, (main_body sys "ey\n".toList Mem.fresh Mem.fresh).kinds = [.fork, .wait] ∧
      (main_body sys "ey\n".toList Mem.fresh Mem.fresh).status = none) :=
  ⟨by decide, fun _ _ => rfl, fun _ => ⟨rfl, rfl⟩, fun _ => ⟨rfl, rfl⟩⟩

/-- A line that `construct_argv` rejects after it stored a first argument: the
pass ends in the `continue` statement, with the buffer as `strtok` left it. -/
theorem rejected_line_reruns (sys : Sys) (input_buf : List Char) (argv files : Mem)
    (r : Int) (d : Diag) (a f : Mem) (b name : List Char)
    (hout : construct_argv (count_arguments input_buf) input_buf argv files =
      .returned r (some d) a f b)
    (h0 : a 0 = .tok name) :
    main_body sys input_buf argv files = .again b [.diag d] := by
  have hr := (construct_argv_ret _ _ _ _ r (some d) a f b hout).2 (by simp)
  subst hr
  simp only [main_body, hout, h0]
  rfl

/-- C6, the code on rejected lines: whenever `construct_argv` returns after a
diagnostic and `argv[0]` holds a token, the pass ends in `continue`, which goes
back to the loop test without clearing the buffer and without reading a line,
so the next pass parses the same buffer, in which `strtok` has ended the string
after the first token.  At the failing inputs `/bin/ls >` and `exit >` that
token is then run as a command: a child is forked for `/bin/ls`, and `exit`
ends the shell before the next line is read. -/
theorem C6_rejected_line_parsed_again :
    (∀ (sys : Sys) (input_buf : List Char) (argv files : Mem) (r : Int) (d : Diag)
        (a f : Mem) (b name : List Char),
      construct_argv (count_arguments input_buf) input_buf argv files =
        .returned r (some d) a f b →
      a 0 = .tok name →
      main_body sys input_buf argv files = .again b [.diag d]) ∧
    ((main_body Sys.ok "/bin/ls >\n".toList Mem.fresh Mem.fresh).kinds = [.diag .noOutput] ∧
     (main_body Sys.ok "/bin/ls >\n".toList Mem.fresh Mem.fresh).reprompts = false ∧
     (main_body Sys.ok "/bin/ls >\n".toList Mem.fresh Mem.fresh).rerun =
        some ("/bin/ls".toList ++ [NUL] ++ ['>', NUL])) ∧
    (main_body Sys.ok ("/bin/ls".toList ++ [NUL] ++ ['>', NUL]) Mem.fresh Mem.fresh).kinds =
      [.fork, .wait] ∧
    ((main 5 Sys.ok ["/bin/ls >\n".toList]).kinds =
        [.prompt, .diag .noOutput, .fork, .wait, .clear, .prompt] ∧
     (main 5 Sys.ok ["/bin/ls >\n".toList]).status = some 0) ∧
    ((main 5 Sys.ok ["exit >\n".toList, "ls\n".toList]).kinds = [.prompt, .diag .noOutput] ∧
     (main 5 Sys.ok ["exit >\n".toList, "ls\n".toList]).status = some 0) := by
  refine ⟨?_, by decide, by decide, by decide, by decide⟩
  intro sys input_buf argv files r d a f b name hout h0
  exact rejected_line_reruns sys input_buf argv files r d a f b name hout h0

end Dispatch

section Builtins

/-- C16: when `argv[1]` is NULL, `exec_built_in_commands` writes exactly
"cd: syntax error\n" for `cd` and exactly "ln: missing file operand\n" for `ln`
on the error stream, makes no other call (no `chdir`, no `link`) and returns 0;
when `argv[1]` is a path, `ln` calls `link(argv[1], argv[2])`, also when
`argv[2]` is NULL, and returns 0. -/
theorem C16_missing_first_operand (sys : Sys) (argv : Mem) (h1 : argv 1 = .null) :
    exec_built_in_commands sys argv ['c', 'd'] = some (0, [.write2 "cd: syntax error\n"]) ∧
    exec_built_in_commands sys argv ['l', 'n'] =
      some (0, [.write2 "ln: missing file operand\n"]) ∧
    "cd: syntax error\n".length = 17 ∧ "ln: missing file operand\n".length = 25 ∧
    (∀ (args : Mem) (p : List Char), args 1 = .tok p → args 2 ≠ .unwritten →
      exec_built_in_commands sys args ['l', 'n'] =
        some (0, Event.link p (args 2) ::
          (if sys.link p (args 2) = -1 then [Event.perror "ln"] else []))) := by
  refine ⟨?_, ?_, by decide, by decide, ?_⟩
  · simp only [exec_built_in_commands, h1, if_true]
  · have hne : ¬ (['l', 'n'] : List Char) = ['c', 'd'] := by decide
    simp only [exec_built_in_commands, hne, h1, if_true, if_false]
  · intro args p hp h2
    have hne : ¬ (['l', 'n'] : List Char) = ['c', 'd'] := by decide
    simp only [exec_built_in_commands, hne, hp, if_true, if_false]
    cases hc : args 2 with
    | unwritten => exact absurd hc h2
    | null => split_ifs <;> rfl
    | tok q => split_ifs <;> rfl

theorem C16_missing_first_operand_witness :
    (Mem.fresh.set 1 .null) 1 = .null ∧
    exec_built_in_commands Sys.ok (Mem.fresh.set 1 .null) ['c', 'd'] =
      some (0, [.write2 "cd: syntax error\n"]) :=
  ⟨by decide, (C16_missing_first_operand Sys.ok (Mem.fresh.set 1 .null) (by decide)).1⟩

/-- C17: for `rm` with `argv[1]` NULL, `exec_built_in_commands` writes
"rm: syntax error\n" on the error stream and then calls `unlink` once, with the
NULL target, and returns 0; for `rm` with a path it calls `unlink` once, on
`argv[1]`, writes no syntax-error diagnostic and returns 0.  In both cases the
only other call is the `perror` that follows a failed `unlink`. -/
theorem C17_rm_pass_through (sys : Sys) (argv : Mem) (h1 : argv 1 ≠ .unwritten) :
    (argv 1 = .null →
      exec_built_in_commands sys argv ['r', 'm'] =
        some (0, Event.write2 "rm: syntax error\n" :: Event.unlink .null ::
          (if sys.unlink .null = -1 then [Event.perror "rm"] else []))) ∧
    (∀ p, argv 1 = .tok p →
      exec_built_in_commands sys argv ['r', 'm'] =
        some (0, Event.unlink (.tok p) ::
          (if sys.unlink (.tok p) = -1 then [Event.perror "rm"] else []))) ∧
    (∃ calls, exec_built_in_commands sys argv ['r', 'm'] = some (0, calls) ∧
      (calls.map Event.kind).count (.unlink (argv 1)) = 1 ∧
      ∀ e ∈ calls.map Event.kind, ∀ c, e = .unlink c → c = argv 1) := by
  have hne1 : ¬ (['r', 'm'] : List Char) = ['c', 'd'] := by decide
  have hne2 : ¬ (['r', 'm'] : List Char) = ['l', 'n'] := by decide
  cases hc : argv 1 with
  | unwritten => exact absurd hc h1
  | null =>
    refine ⟨fun _ => ?_, fun p hp => (by cases hp), ?_⟩
    · simp only [exec_built_in_commands, hne1, hne2, hc, if_true, if_false]
      split_ifs <;> rfl
    · by_cases hs : sys.unlink .null = -1
      · refine ⟨[.write2 "rm: syntax error\n", .unlink .null, .perror "rm"], ?_, by decide, ?_⟩
        · simp only [exec_built_in_commands, hne1, hne2, hc, hs, if_true, if_false]
          rfl
        · intro e he c hec
          subst hec
          simp [Event.kind] at he
          exact he
      · refine ⟨[.write2 "rm: syntax error\n", .unlink .null], ?_, by decide, ?_⟩
        · simp only [exec_built_in_commands, hne1, hne2, hc, hs, if_true, if_false]
          rfl
        · intro e he c hec
          subst hec
          simp [Event.kind] at he
          exact he
  | tok q =>
    refine ⟨fun h => (by cases h), fun p hp => ?_, ?_⟩
    · cases hp
      simp only [exec_built_in_commands, hne1, hne2, hc, if_true, if_false, reduceCtorEq]
      split_ifs <;> rfl
    · by_cases hs : sys.unlink (.tok q) = -1
      · refine ⟨[.unlink (.tok q), .perror "rm"], ?_, ?_, ?_⟩
        · simp only [exec_built_in_commands, hne1, hne2, hc, hs, if_true, if_false,
            reduceCtorEq]
          rfl
        · simp [Event.kind]
        · intro e he c hec
          subst hec
          simp [Event.kind] at he
          exact he
      · refine ⟨[.unlink (.tok q)], ?_, ?_, ?_⟩
        · simp only [exec_built_in_commands, hne1, hne2, hc, hs, if_true, if_false,
            reduceCtorEq]
          rfl
        · simp [Event.kind]
        · intro e he c hec
          subst hec
          simp [Event.kind] at he
          exact he

theorem C17_rm_pass_through_witness :
    (Mem.fresh.set 1 .null) 1 ≠ .unwritten ∧
    exec_built_in_commands Sys.failing (Mem.fresh.set 1 .null) ['r', 'm'] =
      some (0, [.write2 "rm: syntax error\n", .unlink .null, .perror "rm"]) :=
  ⟨by decide, (C17_rm_pass_through Sys.failing (Mem.fresh.set 1 .null) (by decide)).1 rfl⟩

end Builtins

section Child

theorem redirection_plan_facts (input output : Option (List Char)) (append : Int) :
    (∀ a ∈ redirection_plan input output append, a.isExecv = false) ∧
    (input = none → ∀ a ∈ redirection_plan input output append, a.closes 0 = false) ∧
    (output = none → ∀ a ∈ redirection_plan input output append, a.closes 1 = false) ∧
    (∀ a ∈ redirection_plan input output append,
      ¬ (OFlag.O_TRUNC ∈ a.flags ∧ OFlag.O_APPEND ∈ a.flags)) ∧
    (∀ p, output = some p →
      ∃ fl, ChildAct.openFile p fl (some 0o600) ∈ redirection_plan input output append ∧
        (OFlag.O_TRUNC ∈ fl ↔ append = 0) ∧ (OFlag.O_APPEND ∈ fl ↔ append ≠ 0) ∧
        OFlag.O_WRONLY ∈ fl ∧ OFlag.O_CREAT ∈ fl) := by
  cases input <;> cases output <;> by_cases ha : append = 0 <;>
    simp [redirection_plan, ChildAct.isExecv, ChildAct.closes, ChildAct.flags, ha]

/-- C18: for every content of `files` (each cell NULL or a path) and every append
flag, the child does, in this order, what the specification asks before the
program is replaced: for an input path, `close(0)` and `open` read-only with
`O_CREAT`; for an output path, `close(1)` and `open` write-only with `O_CREAT`
and mode 0600, with `O_TRUNC` if and only if `append` is 0 and `O_APPEND` if
and only if it is not, never both; then `execv` on `file_name` and `argv`;
and, should `execv` return, `perror` and `exit(1)`.  No action before `execv`
is an `execv`, and descriptor 0 (descriptor 1) is not closed when the input
(output) path is absent. -/
theorem C18_child_redirection_plan (argv : Mem) (file_name : List Char) (files : Mem)
    (is_append : Int) (h0 : files 0 ≠ .unwritten) (h1 : files 1 ≠ .unwritten) :
    handle_child_process argv file_name files is_append =
      some (redirection_plan (files 0).path (files 1).path is_append ++
        [.execv file_name argv, .perror "execv", .exit 1]) ∧
    (∀ a ∈ redirection_plan (files 0).path (files 1).path is_append, a.isExecv = false) ∧
    ((files 0).path = none →
      ∀ a ∈ redirection_plan (files 0).path (files 1).path is_append, a.closes 0 = false) ∧
    ((files 1).path = none →
      ∀ a ∈ redirection_plan (files 0).path (files 1).path is_append, a.closes 1 = false) ∧
    (∀ a ∈ redirection_plan (files 0).path (files 1).path is_append,
      ¬ (OFlag.O_TRUNC ∈ a.flags ∧ OFlag.O_APPEND ∈ a.flags)) ∧
    (∀ p, (files 1).path = some p →
      ∃ fl, ChildAct.openFile p fl (some 0o600) ∈
          redirection_plan (files 0).path (files 1).path is_append ∧
        (OFlag.O_TRUNC ∈ fl ↔ is_append = 0) ∧ (OFlag.O_APPEND ∈ fl ↔ is_append ≠ 0) ∧
        OFlag.O_WRONLY ∈ fl ∧ OFlag.O_CREAT ∈ fl) := by
  refine ⟨?_, redirection_plan_facts _ _ _⟩
  cases hc0 : files 0 with
  | unwritten => exact absurd hc0 h0
  | null =>
    cases hc1 : files 1 with
    | unwritten => exact absurd hc1 h1
    | null => simp [handle_child_process, redirection_plan, Cell.path, hc0, hc1]
    | tok q =>
      by_cases ha : is_append = 0 <;>
        simp [handle_child_process, redirection_plan, Cell.path, hc0, hc1, ha]
  | tok p =>
    cases hc1 : files 1 with
    | unwritten => exact absurd hc1 h1
    | null => simp [handle_child_process, redirection_plan, Cell.path, hc0, hc1]
    | tok q =>
      by_cases ha : is_append = 0 <;>
        simp [handle_child_process, redirection_plan, Cell.path, hc0, hc1, ha]

theorem C18_child_redirection_plan_witness :
    ((Mem.cleared.set 1 (.tok "out".toList)) 0 ≠ .unwritten ∧
     (Mem.cleared.set 1 (.tok "out".toList)) 1 ≠ .unwritten) ∧
    handle_child_process Mem.fresh "/bin/ls".toList
        (Mem.cleared.set 1 (.tok "out".toList)) 1 =
      some [.close 1, .openFile "out".toList [.O_WRONLY, .O_CREAT, .O_APPEND] (some 0o600),
        .execv "/bin/ls".toList Mem.fresh, .perror "execv", .exit 1] :=
  ⟨⟨by decide, by decide⟩,
    (C18_child_redirection_plan Mem.fresh "/bin/ls".toList
      (Mem.cleared.set 1 (.tok "out".toList)) 1 (by decide) (by decide)).1⟩

end Child

section Redirections

/-- C14, the code at the failing inputs `cmd > a > b` and `cmd >> a > b`:
`construct_argv` prints nothing and accepts both lines, the path recorded is
the last one, `b`, and on the second line the value returned is 1 although
`b` comes after a plain `>`; no line at all makes `construct_argv` print
"multiple output files". -/
theorem C14_second_output_operator_accepted :
    (∀ (arg_len : Int) (input_buf : List Char) (argv files : Mem),
      (construct_argv arg_len input_buf argv files).diag ≠ some .multipleOutput) ∧
    ((construct_argv (count_arguments "cmd > a > b\n".toList) "cmd > a > b\n".toList
        Mem.fresh Mem.fresh).diag = none ∧
     (construct_argv (count_arguments "cmd > a > b\n".toList) "cmd > a > b\n".toList
        Mem.fresh Mem.fresh).ret = some 0 ∧
     (construct_argv (count_arguments "cmd > a > b\n".toList) "cmd > a > b\n".toList
        Mem.fresh Mem.fresh).argv 0 = .tok "cmd".toList ∧
     (construct_argv (count_arguments "cmd > a > b\n".toList) "cmd > a > b\n".toList
        Mem.fresh Mem.fresh).files 1 = .tok "b".toList) ∧
    ((construct_argv (count_arguments "cmd >> a > b\n".toList) "cmd >> a > b\n".toList
        Mem.fresh Mem.fresh).diag = none ∧
     (construct_argv (count_arguments "cmd >> a > b\n".toList) "cmd >> a > b\n".toList
        Mem.fresh Mem.fresh).ret = some 1 ∧
     (construct_argv (count_arguments "cmd >> a > b\n".toList) "cmd >> a > b\n".toList
        Mem.fresh Mem.fresh).files 1 = .tok "b".toList) := by
  refine ⟨?_, by decide, by decide⟩
  intro arg_len input_buf argv files h
  rcases construct_argv_diag arg_len input_buf argv files with h1 | h1 | h1 <;>
    rw [h1] at h <;> cases h

/-- On a line without any operator, `construct_argv` leaves `files` as it finds
it. -/
theorem construct_argv_files_kept (input_buf : List Char) (argv files : Mem)
    (hne : tokens input_buf ≠ [])
    (hplain : ∀ t ∈ tokens input_buf, startsRedir t = false) :
    (construct_argv (count_arguments input_buf) input_buf argv files).accepted = true ∧
    ∀ i, (construct_argv (count_arguments input_buf) input_buf argv files).files i = files i := by
  have hno : ∀ t ∈ tokens input_buf, isOperator t = false := by
    intro t ht
    cases ho : isOperator t
    · rfl
    · have h1 := hplain t ht
      rw [isOperator_startsRedir ho] at h1
      cases h1
  obtain ⟨_, hfol⟩ := plain_line_facts (tokens input_buf) hno
  rcases construct_argv_tokens (count_arguments input_buf) input_buf argv files with
    ⟨h0, _⟩ | ⟨_, b, hb⟩
  · exact absurd h0 hne
  · obtain ⟨st1, hf, hi1, ho1, _, _, hF, _⟩ :=
      feed_followed (tokens input_buf) hfol
        (fun t ht => by rw [hplain t ht, hno t ht])
        (init_state argv files) rfl rfl rfl rfl
    rw [hb, hf]
    simp only [conclude, hi1, ho1, Bool.false_eq_true, if_false, Outcome.accepted,
      Outcome.files, true_and]
    intro i
    exact hF i (fun t ht hop => by rw [hno t ht] at hop; cases hop)

/-- The child's actions are undefined when a cell of `files` was never
assigned: `handle_child_process` tests both cells. -/
theorem child_of_unassigned_files (argv : Mem) (file_name : List Char) (files : Mem)
    (is_append : Int) (h : files 0 = .unwritten ∨ files 1 = .unwritten) :
    handle_child_process argv file_name files is_append = none := by
  unfold handle_child_process
  rcases h with h | h
  · rw [h]
  · rw [h]
    cases files 0 <;> rfl

end Redirections

section ClosedForm

theorem charAt_append_cons_succ (pre : List Char) (p c : Char) (post : List Char) :
    charAt (pre ++ p :: c :: post) (pre.length + 1) = c := by
  have h : pre ++ p :: c :: post = (pre ++ [p]) ++ c :: post := by simp
  rw [h]
  simpa using charAt_append_cons (pre ++ [p]) c post

theorem countP_range_pairs (f : Char → Char → Bool) (rest : List Char) :
    ∀ (pre : List Char) (p : Char),
      (List.range rest.length).countP
        (fun i => f (charAt (pre ++ p :: rest) (pre.length + i))
          (charAt (pre ++ p :: rest) (pre.length + 1 + i)))
        = countPairs f p rest := by
  induction rest with
  | nil => intro pre p; simp [countPairs]
  | cons c rest ih =>
    intro pre p
    have hbuf : pre ++ p :: c :: rest = (pre ++ [p]) ++ c :: rest := by simp
    have h := ih (pre ++ [p]) c
    rw [← hbuf] at h
    simp only [List.length_append, List.length_singleton] at h
    rw [List.length_cons, List.range_succ_eq_map, List.countP_cons, List.countP_map, countPairs]
    have hfun : ((fun i => f (charAt (pre ++ p :: c :: rest) (pre.length + i))
          (charAt (pre ++ p :: c :: rest) (pre.length + 1 + i))) ∘ Nat.succ) =
        (fun i => f (charAt (pre ++ p :: c :: rest) (pre.length + 1 + i))
          (charAt (pre ++ p :: c :: rest) (pre.length + 1 + 1 + i))) := by
      funext i
      simp only [Function.comp, Nat.succ_eq_add_one]
      have e1 : pre.length + (i + 1) = pre.length + 1 + i := by omega
      have e2 : pre.length + 1 + (i + 1) = pre.length + 1 + 1 + i := by omega
      rw [e1, e2]
    rw [hfun, h]
    simp only [Nat.add_zero, charAt_append_cons, charAt_append_cons_succ]
    omega

theorem charWeight_eq (p c : Char) :
    charWeight p c =
      ((if startsToken p c then 1 else 0 : Nat) : Int) -
        2 * ((if countsRedir p c then 1 else 0 : Nat) : Int) := by
  have hlt : isWs '<' = false := by decide
  have hgt : isWs '>' = false := by decide
  simp only [charWeight, startsToken, countsRedir]
  by_cases h1 : c = '<'
  · subst h1
    rcases Bool.eq_false_or_eq_true (isWs p) with hw | hw <;> simp [hw, hlt]
  · by_cases h2 : c = '>'
    · subst h2
      by_cases h3 : p = '>' <;>
        rcases Bool.eq_false_or_eq_true (isWs p) with hw | hw <;> simp [hw, h3, hgt]
    · rcases Bool.eq_false_or_eq_true (isWs p) with hw | hw <;>
        rcases Bool.eq_false_or_eq_true (isWs c) with hc | hc <;> simp [hw, hc, h1, h2]

theorem cnt_eq_countPairs (s : List Char) :
    ∀ p : Char, cnt p s =
      (countPairs startsToken p s : Int) - 2 * (countPairs countsRedir p s : Int) := by
  induction s with
  | nil => intro p; simp [cnt, countPairs]
  | cons c cs ih =>
    intro p
    simp only [cnt, countPairs, ih c, charWeight_eq, Nat.cast_add]
    ring

theorem tokenStartCount_eq (s : List Char) : tokenStartCount s = countPairs startsToken ' ' s := by
  cases s with
  | nil => rfl
  | cons c cs =>
    have h := countP_range_pairs startsToken cs [] c
    simp only [List.length_nil, Nat.zero_add, List.nil_append] at h
    rw [tokenStartCount, List.length_cons, List.range_succ_eq_map, List.countP_cons,
      List.countP_map, countPairs, ← h]
    have hfun : (tokenStartAt (c :: cs) ∘ Nat.succ) =
        (fun i => startsToken (charAt (c :: cs) i) (charAt (c :: cs) (1 + i))) := by
      funext i
      simp only [Function.comp, tokenStartAt, startsToken, Nat.succ_eq_add_one,
        Nat.add_sub_cancel]
      rw [Nat.add_comm 1 i]
      simp
    rw [hfun]
    have h0 : tokenStartAt (c :: cs) 0 = startsToken ' ' c := by
      simp [tokenStartAt, startsToken, charAt, isWs]
    rw [h0]
    omega

theorem redirCount_eq (s : List Char) : redirCount s = countPairs countsRedir ' ' s := by
  cases s with
  | nil => rfl
  | cons c cs =>
    have h := countP_range_pairs countsRedir cs [] c
    simp only [List.length_nil, Nat.zero_add, List.nil_append] at h
    rw [redirCount, List.length_cons, List.range_succ_eq_map, List.countP_cons,
      List.countP_map, countPairs, ← h]
    have hfun : (redirAt (c :: cs) ∘ Nat.succ) =
        (fun i => countsRedir (charAt (c :: cs) i) (charAt (c :: cs) (1 + i))) := by
      funext i
      simp only [Function.comp, redirAt, countsRedir, Nat.succ_eq_add_one,
        Nat.add_sub_cancel]
      rw [Nat.add_comm 1 i]
      simp
    rw [hfun]
    have h0 : redirAt (c :: cs) 0 = countsRedir ' ' c := by
      simp [redirAt, countsRedir, charAt]
    rw [h0]
    omega

/-- C19: for every buffer, with `s` the line it holds, `count_arguments`
returns `T - 2 * D`, where `T` is the number of positions of `s` at which a
token starts (position 0 if `s[0]` is not whitespace, and every `i ≥ 1` with
`s[i]` not whitespace and `s[i-1]` whitespace) and `D` is the number of `<`
characters of `s` plus the number of `>` characters that are not immediately
preceded by a `>`.  In particular, on a line that starts with `<` or `>` the
count starts from -1, to which the other characters add their changes, and
the count of a line that consists of a single `<`, `>` or `>>` is -1. -/
theorem C19_count_closed_form (input_buf : List Char) :
    count_arguments input_buf =
      (tokenStartCount (cstr input_buf) : Int) - 2 * (redirCount (cstr input_buf) : Int) ∧
    (∀ (buf : List Char) (c : Char) (rest : List Char), cstr buf = c :: rest →
      (c = '<' ∨ c = '>') → count_arguments buf = -1 + cnt c rest) ∧
    count_arguments ['<'] = -1 ∧ count_arguments ['>'] = -1 ∧
    count_arguments ['>', '>'] = -1 ∧ count_arguments "< in.txt cat\n".toList = 1 := by
  refine ⟨?_, ?_, by decide, by decide, by decide, by decide⟩
  · rw [count_arguments_eq_cnt, cnt_eq_countPairs, tokenStartCount_eq, redirCount_eq]
  · intro buf c rest hc hop
    have h1 : charWeight ' ' '<' = -1 := by decide
    have h2 : charWeight ' ' '>' = -1 := by decide
    rw [count_arguments_eq_cnt, hc, cnt]
    rcases hop with h | h <;> subst h
    · rw [h1]
    · rw [h2]

end ClosedForm

section Capacity

/-- The loop of `construct_argv` stores the tokens of `storedList` in
consecutive cells of `argv`, from cell `count` on. -/
theorem feed_stored :
    ∀ (toks : List (List Char)) (st : PState),
      st.already_input = false → st.already_output = false →
      ∃ st1, feed st toks = .ok st1 ∧
        st1.argv = storeAll st.argv st.count (storedList (st.is_input, st.is_output) toks) ∧
        (st1.is_input, st1.is_output) = awaiting (st.is_input, st.is_output) toks := by
  intro toks
  induction toks with
  | nil => intro st _ _; exact ⟨st, rfl, rfl, rfl⟩
  | cons t ts ih =>
    intro st h1 h2
    by_cases hlt : t.headD NUL = '<'
    · obtain ⟨st1, hf, ha, hw⟩ := ih { st with is_input := true } h1 h2
      refine ⟨st1, ?_, ?_, ?_⟩
      · simp only [feed, classify_lt st t hlt h1]; exact hf
      · rw [ha]; simp only [storedList, hlt, if_true]
      · rw [hw]; simp only [awaiting, hlt, if_true]
    · by_cases hgt : t.headD NUL = '>'
      · have hne : ¬ ('>' : Char) = '<' := by decide
        obtain ⟨st1, hf, ha, hw⟩ :=
          ih { st with append := if t = ['>', '>'] then 1 else st.append, is_output := true }
            h1 h2
        refine ⟨st1, ?_, ?_, ?_⟩
        · simp only [feed, classify_gt st t hgt h2]; exact hf
        · rw [ha]; simp only [storedList, hgt, hne, if_true, if_false]
        · rw [hw]; simp only [awaiting, hgt, hne, if_true, if_false]
      · cases hi : st.is_input
        · cases ho : st.is_output
          · obtain ⟨st1, hf, ha, hw⟩ :=
              ih { st with argv := st.argv.set st.count (.tok t), count := st.count + 1 } h1 h2
            refine ⟨st1, ?_, ?_, ?_⟩
            · simp only [feed, classify_arg st t hlt hgt hi ho]; exact hf
            · rw [ha]
              simp only [storedList, hlt, hgt, hi, ho, if_false, Bool.false_eq_true, storeAll]
            · rw [hw]
              simp only [awaiting, hlt, hgt, hi, ho, if_false, Bool.false_eq_true]
          · obtain ⟨st1, hf, ha, hw⟩ :=
              ih { st with files := st.files.set 1 (.tok t), is_output := false } h1 h2
            refine ⟨st1, ?_, ?_, ?_⟩
            · simp only [feed, classify_out st t hlt hgt hi ho]; exact hf
            · rw [ha]
              simp only [storedList, hlt, hgt, hi, if_false, if_true, Bool.false_eq_true]
            · rw [hw]
              simp only [awaiting, hlt, hgt, hi, if_false, Bool.false_eq_true]
        · obtain ⟨st1, hf, ha, hw⟩ :=
            ih { st with files := st.files.set 0 (.tok t), is_input := false } h1 h2
          refine ⟨st1, ?_, ?_, ?_⟩
          · simp only [feed, classify_in st t hlt hgt hi]; exact hf
          · rw [ha]
            simp only [storedList, hlt, hgt, if_false, if_true]
          · rw [hw]
            simp only [awaiting, hlt, hgt, if_false, if_true]

theorem startsRedir_iff (t : List Char) :
    startsRedir t = true ↔ (t.headD NUL = '<' ∨ t.headD NUL = '>') := by
  simp only [startsRedir, Bool.or_eq_true, beq_iff_eq]

/-- Every token is an operator, a path, or an argument. -/
theorem tokens_partition :
    ∀ (toks : List (List Char)) (s : Bool × Bool),
      toks.length = toks.countP startsRedir + pathCount s toks + (storedList s toks).length := by
  intro toks
  induction toks with
  | nil => intro s; simp [pathCount, storedList]
  | cons t ts ih =>
    intro s
    have hne : ¬ ('>' : Char) = '<' := by decide
    by_cases hlt : t.headD NUL = '<'
    · have hs : startsRedir t = true := (startsRedir_iff t).2 (Or.inl hlt)
      simp only [List.length_cons, List.countP_cons, hs, if_true, pathCount, storedList, hlt,
        ih (true, s.2)]
      omega
    · by_cases hgt : t.headD NUL = '>'
      · have hs : startsRedir t = true := (startsRedir_iff t).2 (Or.inr hgt)
        simp only [List.length_cons, List.countP_cons, hs, if_true, pathCount, storedList, hgt,
          hne, if_false, ih (s.1, true)]
        omega
      · have hs : ¬ startsRedir t = true := by
          rw [startsRedir_iff]; rintro (h | h)
          · exact hlt h
          · exact hgt h
        obtain ⟨a, b⟩ := s
        have e1 := ih (false, false)
        have e2 := ih (false, true)
        cases a <;> cases b <;>
          simp only [List.length_cons, List.countP_cons, hs, if_false, if_true, pathCount,
            storedList, hlt, hgt, Bool.false_eq_true, List.length_cons] <;>
          omega

/-- A path is taken only for an operator that awaits one. -/
theorem pathCount_le :
    ∀ (toks : List (List Char)) (s : Bool × Bool),
      pathCount s toks + awaitedCount (awaiting s toks) ≤
        toks.countP startsRedir + awaitedCount s := by
  intro toks
  induction toks with
  | nil => intro s; simp [pathCount, awaiting]
  | cons t ts ih =>
    intro s
    obtain ⟨a, b⟩ := s
    have hne : ¬ ('>' : Char) = '<' := by decide
    by_cases hlt : t.headD NUL = '<'
    · have hs : startsRedir t = true := (startsRedir_iff t).2 (Or.inl hlt)
      have := ih (true, b)
      simp only [List.countP_cons, hs, if_true, pathCount, awaiting, hlt]
      simp only [awaitedCount] at this ⊢
      cases a <;> simp at this ⊢ <;> omega
    · by_cases hgt : t.headD NUL = '>'
      · have hs : startsRedir t = true := (startsRedir_iff t).2 (Or.inr hgt)
        have := ih (a, true)
        simp only [List.countP_cons, hs, if_true, pathCount, awaiting, hgt, hne, if_false]
        simp only [awaitedCount] at this ⊢
        cases b <;> simp at this ⊢ <;> omega
      · have hs : ¬ startsRedir t = true := by
          rw [startsRedir_iff]; rintro (h | h)
          · exact hlt h
          · exact hgt h
        cases a
        · cases b
          · have := ih (false, false)
            simp only [List.countP_cons, hs, if_false, pathCount, awaiting, hlt, hgt,
              Bool.false_eq_true]
            simp only [awaitedCount] at this ⊢
            omega
          · have := ih (false, false)
            simp only [List.countP_cons, hs, if_false, pathCount, awaiting, hlt, hgt,
              Bool.false_eq_true, if_true]
            simp only [awaitedCount] at this ⊢
            simp at this ⊢
            omega
        · have := ih (false, b)
          simp only [List.countP_cons, hs, if_false, pathCount, awaiting, hlt, hgt, if_true]
          simp only [awaitedCount] at this ⊢
          simp at this ⊢
          omega

theorem countPairs_startsToken (t : List Char) :
    ∀ p : Char, (∀ c ∈ t, isWs c = false) →
      countPairs startsToken p t = if isWs p = true ∧ t ≠ [] then 1 else 0 := by
  induction t with
  | nil => intro p _; simp [countPairs]
  | cons c cs ih =>
    intro p h
    have hc := h c (List.mem_cons_self _ _)
    rw [countPairs, ih c (fun x hx => h x (List.mem_cons_of_mem _ hx))]
    simp only [startsToken, hc, Bool.not_false, Bool.true_and, Bool.false_eq_true, false_and,
      if_false, Nat.add_zero, ne_eq, reduceCtorEq, not_false_eq_true, and_true]

/-- The change of the count over a token: one more for the token, two fewer
for each `<` and each `>` that does not follow a `>`. -/
theorem cnt_token (t : List Char) (hne : t ≠ []) (hw : ∀ c ∈ t, isWs c = false) :
    cnt ' ' t = 1 - 2 * (tokRedirs t : Int) := by
  have h1 : isWs ' ' = true := by decide
  rw [cnt_eq_countPairs, countPairs_startsToken t ' ' hw, tokRedirs]
  simp [h1, hne]

theorem tokRedirs_pos {t : List Char} (h : startsRedir t = true) : 1 ≤ tokRedirs t := by
  cases t with
  | nil => revert h; decide
  | cons c cs =>
    rw [startsRedir_iff] at h
    simp only [List.headD_cons] at h
    have hc : countsRedir ' ' c = true := by
      rcases h with h | h <;> subst h <;> decide
    simp only [tokRedirs, countPairs, hc, if_true]
    omega

theorem sum_token_weights (toks : List (List Char))
    (h : ∀ t ∈ toks, t ≠ [] ∧ ∀ c ∈ t, isWs c = false) :
    ((toks.map (cnt ' ')).sum : Int) =
      (toks.length : Int) - 2 * ((toks.map tokRedirs).sum : Nat) := by
  induction toks with
  | nil => simp
  | cons t ts ih =>
    have ht := h t (List.mem_cons_self _ _)
    simp only [List.map_cons, List.sum_cons, List.length_cons, Nat.cast_add, Nat.cast_one,
      ih (fun x hx => h x (List.mem_cons_of_mem _ hx)), cnt_token t ht.1 ht.2]
    ring

/-- Every operator holds at least one counted character, and the operators hold
all of them exactly when every `<`, and every `>` that does not follow a `>`,
is the first character of its token. -/
theorem opCount_le_redirs (toks : List (List Char)) :
    toks.countP startsRedir ≤ (toks.map tokRedirs).sum ∧
    (toks.countP startsRedir = (toks.map tokRedirs).sum ↔
      ∀ t ∈ toks, tokRedirs t = if startsRedir t = true then 1 else 0) := by
  induction toks with
  | nil => simp
  | cons t ts ih =>
    obtain ⟨ih1, ih2⟩ := ih
    by_cases hs : startsRedir t = true
    · have hp := tokRedirs_pos hs
      simp only [List.countP_cons, hs, if_true, List.map_cons, List.sum_cons, List.mem_cons,
        forall_eq_or_imp]
      refine ⟨by omega, ⟨fun h => ⟨by omega, ih2.1 (by omega)⟩, fun h => ?_⟩⟩
      have := ih2.2 h.2
      omega
    · simp only [List.countP_cons, hs, if_false, List.map_cons, List.sum_cons, List.mem_cons,
        forall_eq_or_imp, Bool.false_eq_true, Nat.add_zero]
      refine ⟨by omega, ⟨fun h => ⟨by omega, ih2.1 (by omega)⟩, fun h => ?_⟩⟩
      have := ih2.2 h.2
      omega

/-- What `construct_argv` leaves in `argv` on a line it accepts, and how the
count compares with the number of tokens stored. -/
theorem accepted_capacity (arg_len : Int) (input_buf : List Char) (argv files : Mem)
    (hacc : (construct_argv arg_len input_buf argv files).accepted = true) :
    (construct_argv arg_len input_buf argv files).argv =
      (storeAll argv 0 (storedList (false, false) (tokens input_buf))).set arg_len .null ∧
    pathCount (false, false) (tokens input_buf) ≤ (tokens input_buf).countP startsRedir ∧
    count_arguments input_buf =
      ((tokens input_buf).length : Int) - 2 * (((tokens input_buf).map tokRedirs).sum : Nat) := by
  have hcount : count_arguments input_buf =
      ((tokens input_buf).length : Int) -
        2 * (((tokens input_buf).map tokRedirs).sum : Nat) := by
    rw [count_arguments_eq_cnt, cnt_words]
    exact sum_token_weights _ (words_spec _)
  rcases construct_argv_tokens arg_len input_buf argv files with ⟨_, hn⟩ | ⟨_, b, hb⟩
  · rw [hn] at hacc; cases hacc
  · obtain ⟨st1, hf, ha, hw⟩ :=
      feed_stored (tokens input_buf) (init_state argv files) rfl rfl
    simp only [init_state] at ha hw
    rw [hb, hf] at hacc ⊢
    simp only [conclude] at hacc ⊢
    cases ho : st1.is_output
    · cases hi : st1.is_input
      · rw [ho, hi] at hw
        have hp := pathCount_le (tokens input_buf) (false, false)
        rw [← hw] at hp
        simp only [awaitedCount, Bool.toNat_false, Nat.add_zero] at hp
        refine ⟨?_, hp, hcount⟩
        simp only [Bool.false_eq_true, if_false, Outcome.argv, ha]
      · rw [ho, hi] at hacc; simp [Outcome.accepted] at hacc
    · rw [ho] at hacc; simp [Outcome.accepted] at hacc

/-- On an accepted line in which some token holds a `<`, or a `>` that does not
follow a `>`, after its first character, the count is below the number of
tokens stored. -/
theorem count_lt_stored (input_buf : List Char) (argv files : Mem)
    (hacc : (construct_argv (count_arguments input_buf) input_buf argv files).accepted = true)
    (t : List Char) (ht : t ∈ tokens input_buf)
    (hextra : tokRedirs t ≠ if startsRedir t = true then 1 else 0) :
    count_arguments input_buf < ((storedList (false, false) (tokens input_buf)).length : Int) := by
  obtain ⟨_, hpath, hcount⟩ :=
    accepted_capacity (count_arguments input_buf) input_buf argv files hacc
  have hpart := tokens_partition (tokens input_buf) (false, false)
  obtain ⟨hle, hiff⟩ := opCount_le_redirs (tokens input_buf)
  have hne : (tokens input_buf).countP startsRedir ≠
      ((tokens input_buf).map tokRedirs).sum := fun h => hextra (hiff.1 h t ht)
  rw [hcount]; omega

/-- C13, the code at the failing inputs `a<b` and `ls a<b`: both lines are
accepted, and `count_arguments` returns -1 and 0 where `construct_argv` stores
one and two tokens.  On `a<b` the terminator is written to cell -1 and cell 1
is never written; on `ls a<b` the token `a<b` is stored in cell 1, above the
count, and the terminator is written over `ls` in cell 0, so that `main` takes
the line for a blank one.  The same happens on every accepted line in which a
token holds `<`, or a `>` that does not follow a `>`, after its first
character: the count is below the number of tokens stored. -/
theorem C13_count_below_stored :
    (∀ (input_buf : List Char) (argv files : Mem) (t : List Char),
      (construct_argv (count_arguments input_buf) input_buf argv files).accepted = true →
      t ∈ tokens input_buf →
      (tokRedirs t ≠ if startsRedir t = true then 1 else 0) →
      count_arguments input_buf <
        ((storedList (false, false) (tokens input_buf)).length : Int)) ∧
    ((construct_argv (count_arguments "a<b\n".toList) "a<b\n".toList
        Mem.fresh Mem.fresh).accepted = true ∧
     count_arguments "a<b\n".toList = -1 ∧
     storedList (false, false) (tokens "a<b\n".toList) = ["a<b".toList] ∧
     (construct_argv (count_arguments "a<b\n".toList) "a<b\n".toList
        Mem.fresh Mem.fresh).argv 0 = .tok "a<b".toList ∧
     (construct_argv (count_arguments "a<b\n".toList) "a<b\n".toList
        Mem.fresh Mem.fresh).argv (-1) = .null ∧
     (construct_argv (count_arguments "a<b\n".toList) "a<b\n".toList
        Mem.fresh Mem.fresh).argv 1 = .unwritten) ∧
    ((construct_argv (count_arguments "ls a<b\n".toList) "ls a<b\n".toList
        Mem.fresh Mem.fresh).accepted = true ∧
     count_arguments "ls a<b\n".toList = 0 ∧
     storedList (false, false) (tokens "ls a<b\n".toList) = ["ls".toList, "a<b".toList] ∧
     (construct_argv (count_arguments "ls a<b\n".toList) "ls a<b\n".toList
        Mem.fresh Mem.fresh).argv 0 = .null ∧
     (construct_argv (count_arguments "ls a<b\n".toList) "ls a<b\n".toList
        Mem.fresh Mem.fresh).argv 1 = .tok "a<b".toList ∧
     (construct_argv (count_arguments "ls a<b\n".toList) "ls a<b\n".toList
        Mem.fresh Mem.fresh).argv 2 = .unwritten) ∧
    (main_body Sys.ok "ls a<b\n".toList Mem.fresh Mem.fresh).kinds = [] ∧
    (main_body Sys.ok "ls a<b\n".toList Mem.fresh Mem.fresh).reprompts = true := by
  refine ⟨?_, by decide, by decide, by decide, by decide⟩
  intro input_buf argv files t hacc ht hextra
  exact count_lt_stored input_buf argv files hacc t ht hextra

/-- C20: on every line that `construct_argv` accepts (such a line is not
blank), `argv` holds the stored tokens in the cells from 0 on, overwritten by
the terminator at the cell `count_arguments` names; the count is at most the
number of stored tokens; it equals that number exactly when every `<`, and
every `>` that does not follow a `>`, is the first character of a token, and
as many tokens were taken as paths as there are such tokens (each operator got
a path token of its own); and every cell below the terminator holds a stored
token. -/
theorem C20_count_never_overestimates (input_buf : List Char) (argv files : Mem)
    (hacc : (construct_argv (count_arguments input_buf) input_buf argv files).accepted = true) :
    tokens input_buf ≠ [] ∧
    (construct_argv (count_arguments input_buf) input_buf argv files).argv =
      (storeAll argv 0 (storedList (false, false) (tokens input_buf))).set
        (count_arguments input_buf) .null ∧
    count_arguments input_buf ≤ ((storedList (false, false) (tokens input_buf)).length : Int) ∧
    (count_arguments input_buf = ((storedList (false, false) (tokens input_buf)).length : Int) ↔
      (∀ t ∈ tokens input_buf, tokRedirs t = if startsRedir t = true then 1 else 0) ∧
      pathCount (false, false) (tokens input_buf) = (tokens input_buf).countP startsRedir) ∧
    (∀ k : Nat, (k : Int) < count_arguments input_buf →
      ∃ t, (storedList (false, false) (tokens input_buf))[k]? = some t ∧
        (construct_argv (count_arguments input_buf) input_buf argv files).argv k = .tok t) := by
  obtain ⟨hargv, hpath, hcount⟩ :=
    accepted_capacity (count_arguments input_buf) input_buf argv files hacc
  have hpart := tokens_partition (tokens input_buf) (false, false)
  obtain ⟨hle, hiff⟩ := opCount_le_redirs (tokens input_buf)
  have hne : tokens input_buf ≠ [] := by
    rcases construct_argv_tokens (count_arguments input_buf) input_buf argv files with
      ⟨_, hn⟩ | ⟨h, _⟩
    · rw [hn] at hacc; cases hacc
    · exact h
  have hbound : count_arguments input_buf ≤
      ((storedList (false, false) (tokens input_buf)).length : Int) := by
    rw [hcount]; omega
  refine ⟨hne, hargv, hbound, ⟨fun h => ?_, fun h => ?_⟩, ?_⟩
  · rw [hcount] at h
    exact ⟨hiff.1 (by omega), by omega⟩
  · have := hiff.2 h.1
    rw [hcount]; omega
  · intro k hk
    have hklt : k < (storedList (false, false) (tokens input_buf)).length := by omega
    refine ⟨(storedList (false, false) (tokens input_buf))[k], ?_, ?_⟩
    · exact List.getElem?_eq_getElem hklt
    · rw [hargv]
      have hkne : ¬ ((k : Int) = count_arguments input_buf) := by omega
      simp only [Mem.set, hkne, if_false]
      rw [storeAll_apply, if_pos (by omega)]
      simp only [sub_zero, Int.toNat_ofNat, List.getElem?_eq_getElem hklt]

theorem C20_count_never_overestimates_witness :
    (construct_argv (count_arguments "< in a>b\n".toList) "< in a>b\n".toList
      Mem.fresh Mem.fresh).accepted = true ∧
    count_arguments "< in a>b\n".toList ≤
      ((storedList (false, false) (tokens "< in a>b\n".toList)).length : Int) :=
  ⟨by decide,
    (C20_count_never_overestimates "< in a>b\n".toList Mem.fresh Mem.fresh (by decide)).2.2.1⟩

end Capacity

section Segments

theorem lastSegment_skip (sk x : List Char) (hsk : ∀ c ∈ sk, c = '/') :
    ∀ last, lastSegment (sk ++ x) [] last = lastSegment x [] last := by
  induction sk with
  | nil => intro last; rfl
  | cons c sk ih =>
    intro last
    have hc := hsk c (List.mem_cons_self _ _)
    subst hc
    simp only [List.cons_append, lastSegment, if_true]
    exact ih (fun x hx => hsk x (List.mem_cons_of_mem _ hx)) last

theorem lastSegment_body (body x : List Char) (hb : ∀ c ∈ body, c ≠ '/') :
    ∀ cur last, lastSegment (body ++ x) cur last = lastSegment x (cur ++ body) last := by
  induction body with
  | nil => intro cur last; simp
  | cons c body ih =>
    intro cur last
    have hc := hb c (List.mem_cons_self _ _)
    show lastSegment (c :: (body ++ x)) cur last = _
    rw [lastSegment, if_neg hc, ih (fun x hx => hb x (List.mem_cons_of_mem _ hx))]
    simp

/-- What one `strtok` call on the delimiter `/` returns, in terms of the last
segment of the text at the cursor. -/
theorem strtok_slash_spec (text : List Char) (hnul : ∀ c ∈ text, c ≠ NUL) :
    match (strtok (fun c => c == '/') text).tok with
    | none => (∀ last, lastSegment text [] last = last) ∧
        (strtok (fun c => c == '/') text).rest = []
    | some body =>
      (∀ last, lastSegment text [] last =
        lastSegment (strtok (fun c => c == '/') text).rest [] (some body)) ∧
      (strtok (fun c => c == '/') text).rest.length < text.length ∧
      (∀ c ∈ (strtok (fun c => c == '/') text).rest, c ≠ NUL) := by
  have hsplit := List.takeWhile_append_dropWhile (fun c => c == '/') text
  have hsk : ∀ c ∈ text.takeWhile (fun c => c == '/'), c = '/' := by
    intro c hc
    simpa using List.mem_takeWhile_imp hc
  have hlen : text.length = (text.takeWhile (fun c => c == '/')).length +
      (text.dropWhile (fun c => c == '/')).length := by
    rw [← List.length_append, hsplit]
  have hseg : ∀ last, lastSegment text [] last =
      lastSegment (text.dropWhile (fun c => c == '/')) [] last := by
    intro last
    have := lastSegment_skip _ (text.dropWhile (fun c => c == '/')) hsk last
    rwa [hsplit] at this
  have hnul2 : ∀ c ∈ text.dropWhile (fun c => c == '/'), c ≠ NUL := by
    intro c hc
    exact hnul c (by rw [← hsplit]; exact List.mem_append_right _ hc)
  unfold strtok
  cases hr : text.dropWhile (fun c => c == '/') with
  | nil =>
    simp only
    refine ⟨fun last => ?_, trivial⟩
    rw [hseg, hr]; rfl
  | cons c r =>
    rw [hr] at hseg hlen hnul2
    have hcn : c ≠ NUL := hnul2 c (List.mem_cons_self _ _)
    simp only [hcn, if_false]
    have hsplit2 := List.takeWhile_append_dropWhile
      (fun x => !(x == '/') && x != NUL) (c :: r)
    have hbody : ∀ x ∈ (c :: r).takeWhile (fun x => !(x == '/') && x != NUL), x ≠ '/' := by
      intro x hx
      have := List.mem_takeWhile_imp hx
      simp only [Bool.and_eq_true, Bool.not_eq_true', beq_eq_false_iff_ne, ne_eq,
        bne_iff_ne] at this
      exact this.1
    have hlen2 : (c :: r).length =
        ((c :: r).takeWhile (fun x => !(x == '/') && x != NUL)).length +
        ((c :: r).dropWhile (fun x => !(x == '/') && x != NUL)).length := by
      rw [← List.length_append, hsplit2]
    have hcs : (c == '/') = false := dropWhile_head_false _ text c r hr
    have hne : (c :: r).takeWhile (fun x => !(x == '/') && x != NUL) ≠ [] := by
      simp [List.takeWhile_cons, hcs, hcn]
    have hpos := List.length_pos.2 hne
    have hfalse : ∀ d r2, (c :: r).dropWhile (fun x => !(x == '/') && x != NUL) = d :: r2 →
        (!(d == '/') && d != NUL) = false :=
      fun d r2 h => dropWhile_head_false _ (c :: r) d r2 h
    have hrem_nul : ∀ x ∈ (c :: r).dropWhile (fun x => !(x == '/') && x != NUL), x ≠ NUL := by
      intro x hx
      exact hnul2 x (by rw [← hsplit2]; exact List.mem_append_right _ hx)
    have hseg2 : ∀ last, lastSegment text [] last =
        lastSegment ((c :: r).dropWhile (fun x => !(x == '/') && x != NUL))
          ((c :: r).takeWhile (fun x => !(x == '/') && x != NUL)) last := by
      intro last
      rw [hseg, ← hsplit2, lastSegment_body _ _ hbody, List.nil_append, hsplit2]
    generalize (c :: r).takeWhile (fun x => !(x == '/') && x != NUL) = body at *
    generalize (c :: r).dropWhile (fun x => !(x == '/') && x != NUL) = rem at *
    cases rem with
    | nil =>
      simp only
      refine ⟨?_, ?_, ?_⟩
      · intro last
        rw [hseg2]
        simp [lastSegment, hne]
      · simp only [List.length_nil, List.length_cons] at hlen2 hlen ⊢
        omega
      · intro x hx; cases hx
    | cons d r2 =>
      have hdn : d ≠ NUL := hrem_nul d (List.mem_cons_self _ _)
      have hd : d = '/' := by
        have := hfalse d r2 rfl
        simpa [hdn] using this
      simp only [hdn, if_false]
      refine ⟨?_, ?_, ?_⟩
      · intro last
        rw [hseg2, hd]
        simp [lastSegment, hne]
      · simp only [List.length_cons] at hlen2 hlen ⊢
        omega
      · intro x hx
        exact hrem_nul x (List.mem_cons_of_mem _ hx)

/-- The loop of `set_first_arg` ends, with the last segment of the text in
`first_arg`. -/
theorem set_first_arg_loop_spec :
    ∀ (fuel : Nat) (rest : List Char) (first_arg : Option (List Char)),
      rest.length < fuel → (∀ c ∈ rest, c ≠ NUL) →
      set_first_arg_loop fuel rest first_arg = some (lastSegment rest [] first_arg) := by
  intro fuel
  induction fuel with
  | zero => intro rest _ h; omega
  | succ fuel ih =>
    intro rest first_arg hlt hnul
    have hs := strtok_slash_spec rest hnul
    cases ht : (strtok (fun c => c == '/') rest).tok with
    | none =>
      rw [ht] at hs
      simp only at hs
      simp only [set_first_arg_loop, ht, hs.1]
    | some body =>
      rw [ht] at hs
      simp only at hs
      simp only [set_first_arg_loop, ht]
      rw [ih _ _ (by have := hs.2.1; omega) hs.2.2, hs.1]

/-- The function `set_first_arg` on a name without NUL: `argv[0]` becomes the
last non-empty segment of the name, or NULL when there is none, and no other
cell changes. -/
theorem set_first_arg_spec (argv : Mem) (s : List Char) (h0 : argv 0 = .tok s)
    (hnul : ∀ c ∈ s, c ≠ NUL) :
    set_first_arg argv = some (argv.set 0 (Cell.ofToken (lastSegment s [] none))) := by
  have hs := strtok_slash_spec s hnul
  unfold set_first_arg
  rw [h0]
  simp only
  cases ht : (strtok (fun c => c == '/') s).tok with
  | none =>
    rw [ht] at hs
    simp only at hs
    rw [hs.2, hs.1 none]
    rfl
  | some body =>
    rw [ht] at hs
    simp only at hs
    rw [set_first_arg_loop_spec _ _ _ (by omega) hs.2.2, ← hs.1 none]
    cases lastSegment s [] none <;> rfl

theorem afterLastSlash_no_slash (s : List Char) (h : ∀ c ∈ s, c ≠ '/') :
    afterLastSlash s = s := by
  cases s with
  | nil => rfl
  | cons c cs =>
    have hc := h c (List.mem_cons_self _ _)
    have hcs : ¬ '/' ∈ cs := fun hm => h '/' (List.mem_cons_of_mem _ hm) rfl
    simp only [afterLastSlash, hcs, if_false, hc]

theorem afterLastSlash_slash_cons (y : List Char) :
    afterLastSlash ('/' :: y) = afterLastSlash y := by
  by_cases h : '/' ∈ y
  · simp only [afterLastSlash, h, if_true]
  · simp only [afterLastSlash, h, if_false, if_true]
    exact (afterLastSlash_no_slash y (fun c hc hcs => h (hcs ▸ hc))).symm

theorem afterLastSlash_append_slash (x y : List Char) :
    afterLastSlash (x ++ '/' :: y) = afterLastSlash y := by
  induction x with
  | nil => exact afterLastSlash_slash_cons y
  | cons a x ih =>
    have hm : '/' ∈ x ++ '/' :: y := by simp
    show afterLastSlash (a :: (x ++ '/' :: y)) = _
    rw [afterLastSlash, if_pos hm, ih]

theorem lastSegment_eq_afterLastSlash (s : List Char) :
    ∀ (cur : List Char) (last : Option (List Char)),
      cur ++ s ≠ [] → (cur ++ s).getLast? ≠ some '/' → (∀ c ∈ cur, c ≠ '/') →
      lastSegment s cur last = some (afterLastSlash (cur ++ s)) := by
  induction s with
  | nil =>
    intro cur last hne _ hcur
    simp only [List.append_nil] at hne ⊢
    simp only [lastSegment, hne, if_false, afterLastSlash_no_slash cur hcur]
  | cons c cs ih =>
    intro cur last hne hlast hcur
    by_cases hc : c = '/'
    · subst hc
      have hcs : cs ≠ [] := by
        intro h
        subst h
        simp at hlast
      have hl2 : ([] ++ cs).getLast? ≠ some '/' := by
        intro h
        apply hlast
        obtain ⟨d, ds, hds⟩ := List.exists_cons_of_ne_nil hcs
        subst hds
        rw [List.getLast?_append_of_ne_nil _ (by simp), List.getLast?_cons_cons]
        simpa using h
      rw [lastSegment, if_pos rfl, ih [] _ (by simpa using hcs) hl2 (by simp),
        afterLastSlash_append_slash]
      rfl
    · have hassoc : cur ++ c :: cs = (cur ++ [c]) ++ cs := by simp
      rw [lastSegment, if_neg hc, ih (cur ++ [c]) last (by simp) (by rw [← hassoc]; exact hlast)
        (by
          intro x hx
          rcases List.mem_append.1 hx with h | h
          · exact hcur x h
          · simp only [List.mem_singleton] at h; rw [h]; exact hc),
        hassoc]

theorem lastSegment_trailing (sl : List Char) (hsl : ∀ c ∈ sl, c = '/') :
    ∀ (t cur : List Char) (last : Option (List Char)),
      lastSegment (t ++ sl) cur last = lastSegment t cur last := by
  have hbase : ∀ (sl : List Char), (∀ c ∈ sl, c = '/') → ∀ (cur : List Char)
      (last : Option (List Char)),
      lastSegment sl cur last = if cur = [] then last else some cur := by
    intro sl
    induction sl with
    | nil => intro _ cur last; rfl
    | cons c sl ih =>
      intro h cur last
      have hc := h c (List.mem_cons_self _ _)
      subst hc
      simp only [lastSegment, if_true]
      rw [ih (fun x hx => h x (List.mem_cons_of_mem _ hx))]
      simp
  intro t
  induction t with
  | nil => intro cur last; simpa [lastSegment] using hbase sl hsl cur last
  | cons c t ih =>
    intro cur last
    show lastSegment (c :: (t ++ sl)) cur last = _
    by_cases hc : c = '/'
    · rw [lastSegment, if_pos hc, ih, lastSegment, if_pos hc]
    · rw [lastSegment, if_neg hc, ih, lastSegment, if_neg hc]

/-- C11, as the claim states it, fails on the name `/bin/`: the substring after
its last `/` is empty, and `set_first_arg` leaves `bin` in `argv[0]`. -/
theorem C11_counterexample :
    afterLastSlash "/bin/".toList = [] ∧
    (set_first_arg (Mem.fresh.set 0 (.tok "/bin/".toList))).map (fun a => a 0) =
      some (.tok "bin".toList) := by
  decide

/-- C11, amended: for every command name `s` that does not end in `/`, after
`set_first_arg` the entry `argv[0]` is the substring of `s` after its last `/`
(`s` itself when it holds no `/`), and no other entry has changed.  Slashes at
the end of a name are ignored: a name `t` followed by slashes gives what `t`
gives; and a name that holds nothing but slashes gives NULL. -/
theorem C11_final_segment (argv : Mem) (s : List Char) (h0 : argv 0 = .tok s)
    (hnul : ∀ c ∈ s, c ≠ NUL) :
    (s ≠ [] → s.getLast? ≠ some '/' →
      set_first_arg argv = some (argv.set 0 (.tok (afterLastSlash s)))) ∧
    (∀ t sl, s = t ++ sl → (∀ c ∈ sl, c = '/') → t ≠ [] → t.getLast? ≠ some '/' →
      set_first_arg argv = some (argv.set 0 (.tok (afterLastSlash t)))) ∧
    ((∀ c ∈ s, c = '/') → set_first_arg argv = some (argv.set 0 .null)) := by
  have hspec := set_first_arg_spec argv s h0 hnul
  refine ⟨fun hne hlast => ?_, fun t sl hdec hsl hne hlast => ?_, fun hall => ?_⟩
  · rw [hspec, lastSegment_eq_afterLastSlash s [] none (by simpa using hne)
      (by simpa using hlast) (by simp)]
    rfl
  · rw [hspec, hdec, lastSegment_trailing sl hsl,
      lastSegment_eq_afterLastSlash t [] none (by simpa using hne) (by simpa using hlast)
        (by simp)]
    rfl
  · have := lastSegment_trailing s hall [] [] none
    simp only [List.nil_append] at this
    rw [hspec, this]
    rfl

theorem C11_final_segment_witness :
    ((Mem.fresh.set 0 (.tok "/bin/ls".toList)) 0 = .tok "/bin/ls".toList ∧
     (∀ c ∈ "/bin/ls".toList, c ≠ NUL)) ∧
    "/bin/ls".toList ≠ [] ∧ "/bin/ls".toList.getLast? ≠ some '/' ∧
    afterLastSlash "/bin/ls".toList = "ls".toList ∧
    set_first_arg (Mem.fresh.set 0 (.tok "/bin/ls".toList)) =
      some ((Mem.fresh.set 0 (.tok "/bin/ls".toList)).set 0
        (.tok (afterLastSlash "/bin/ls".toList))) :=
  ⟨⟨by decide, by decide⟩, by decide, by decide, by decide,
    (C11_final_segment (Mem.fresh.set 0 (.tok "/bin/ls".toList)) "/bin/ls".toList
      (by decide) (by decide)).1 (by decide) (by decide)⟩

end Segments

section Frame

theorem splitWords_chars (s : List Char) :
    (∀ c ∈ (splitWords s).1, c ∈ s) ∧ (∀ t ∈ (splitWords s).2, ∀ c ∈ t, c ∈ s) := by
  induction s with
  | nil => simp [splitWords]
  | cons a s ih =>
    by_cases ha : isWs a = true
    · simp only [splitWords, ha, if_true]
      refine ⟨by simp, ?_⟩
      intro t ht c hc
      by_cases he : (splitWords s).1 = []
      · simp only [he, if_true] at ht
        exact List.mem_cons_of_mem _ (ih.2 t ht c hc)
      · simp only [he, if_false, List.mem_cons] at ht
        rcases ht with rfl | ht
        · exact List.mem_cons_of_mem _ (ih.1 c hc)
        · exact List.mem_cons_of_mem _ (ih.2 t ht c hc)
    · simp only [splitWords, ha, if_false, Bool.false_eq_true]
      refine ⟨?_, fun t ht c hc => List.mem_cons_of_mem _ (ih.2 t ht c hc)⟩
      intro c hc
      rcases List.mem_cons.1 hc with rfl | hc
      · exact List.mem_cons_self _ _
      · exact List.mem_cons_of_mem _ (ih.1 c hc)

/-- No token holds a NUL byte. -/
theorem tokens_no_NUL (input_buf : List Char) :
    ∀ t ∈ tokens input_buf, ∀ c ∈ t, c ≠ NUL := by
  intro t ht c hc
  have h := splitWords_chars (cstr input_buf)
  unfold tokens words at ht
  by_cases he : (splitWords (cstr input_buf)).1 = []
  · simp only [he, if_true] at ht
    exact mem_cstr_ne_NUL (h.2 t ht c hc)
  · simp only [he, if_false, List.mem_cons] at ht
    rcases ht with rfl | ht
    · exact mem_cstr_ne_NUL (h.1 c hc)
    · exact mem_cstr_ne_NUL (h.2 t ht c hc)

theorem storedList_sublist :
    ∀ (toks : List (List Char)) (s : Bool × Bool), List.Sublist (storedList s toks) toks := by
  intro toks
  induction toks with
  | nil => intro s; simp [storedList]
  | cons t ts ih =>
    intro s
    simp only [storedList]
    split_ifs
    · exact (ih _).trans (List.sublist_cons_self _ _)
    · exact (ih _).trans (List.sublist_cons_self _ _)
    · exact (ih _).trans (List.sublist_cons_self _ _)
    · exact (ih _).trans (List.sublist_cons_self _ _)
    · exact (ih _).cons₂ t

/-- The built-in commands fork no child. -/
theorem builtin_calls_no_fork (sys : Sys) (argv : Mem) (file_name : List Char) (r : Int)
    (calls : List Event) (h : exec_built_in_commands sys argv file_name = some (r, calls)) :
    ∀ child, Event.fork child ∉ calls := by
  intro child hmem
  unfold exec_built_in_commands at h
  repeat' split at h
  all_goals first
    | (simp only [reduceCtorEq] at h; done)
    | (simp only [Option.some.injEq, Prod.mk.injEq] at h
       rw [← h.2] at hmem
       simp at hmem)

/-- The only `execv` of the child is the one on `file_name` and `argv`. -/
theorem child_execv (argv : Mem) (file_name : List Char) (files : Mem) (is_append : Int)
    (acts : List ChildAct)
    (h : handle_child_process argv file_name files is_append = some acts) :
    ChildAct.execv file_name argv ∈ acts ∧
    ∀ p v, ChildAct.execv p v ∈ acts → p = file_name ∧ v = argv := by
  unfold handle_child_process at h
  cases h0 : files 0 <;> cases h1 : files 1 <;> rw [h0, h1] at h <;>
    first
      | (simp only [reduceCtorEq] at h; done)
      | (simp only [Option.some.injEq] at h; subst h; simp)
      | (split_ifs at h <;> simp only [Option.some.injEq] at h <;> subst h <;> simp)

/-- The child forked in a pass of the loop is the one `handle_child_process`
describes for the name copied from `argv[0]` and the vector `set_first_arg`
left. -/
theorem main_body_fork (sys : Sys) (input_buf : List Char) (argv files : Mem)
    (r : Int) (a f : Mem) (b name : List Char) (argv2 : Mem)
    (hout : construct_argv (count_arguments input_buf) input_buf argv files =
      .returned r none a f b)
    (h0 : a 0 = .tok name) (hset : set_first_arg a = some argv2) :
    ∀ child, Event.fork child ∈ (main_body sys input_buf argv files).trace →
      child = handle_child_process argv2 name f r := by
  intro child hmem
  have hr := (construct_argv_ret _ _ _ _ r none a f b hout).1 rfl
  have hr0 : ¬ r < 0 := by omega
  simp only [main_body, hout, h0, hr0, if_false, hset] at hmem
  split_ifs at hmem with hcmp
  · simp [Step.trace] at hmem
  · cases hb : exec_built_in_commands sys argv2 name with
    | none => rw [hb] at hmem; simp [Step.trace] at hmem
    | some rc =>
      obtain ⟨r1, calls⟩ := rc
      rw [hb] at hmem
      have hno := builtin_calls_no_fork sys argv2 name r1 calls hb
      simp only at hmem
      split_ifs at hmem
      · simp only [Step.trace, Option.toList, List.map_nil, List.nil_append, List.mem_append,
          List.mem_cons, Event.fork.injEq, reduceCtorEq, List.mem_nil_iff, or_false] at hmem
        rcases hmem with h | h
        · exact absurd h (hno child)
        · exact h
      · simp only [Step.trace, Option.toList, List.map_nil, List.nil_append, List.mem_append,
          List.mem_cons, reduceCtorEq, List.mem_nil_iff, or_false] at hmem
        exact absurd hmem (hno child)

/-- C12: on every line that `construct_argv` accepts with a token `name` in
`argv[0]`, `name` is a token of the line as typed (the first one, when the line
starts with a token that is not an operator); `set_first_arg` returns and
changes no cell of `argv` other than cell 0, so the terminator stays in the
cell `count_arguments` names; and if a child is forked for the line, its only
`execv` call has `name` as path and the vector `set_first_arg` left as
arguments. -/
theorem C12_literal_path_and_frame (sys : Sys) (input_buf : List Char) (files : Mem)
    (name : List Char)
    (hacc : (construct_argv (count_arguments input_buf) input_buf Mem.fresh files).accepted
      = true)
    (h0 : (construct_argv (count_arguments input_buf) input_buf Mem.fresh files).argv 0 =
      .tok name) :
    name ∈ tokens input_buf ∧
    (∀ t ts, tokens input_buf = t :: ts → startsRedir t = false → name = t) ∧
    ∃ argv2,
      set_first_arg (construct_argv (count_arguments input_buf) input_buf Mem.fresh files).argv
        = some argv2 ∧
      (∀ j : Int, j ≠ 0 → argv2 j =
        (construct_argv (count_arguments input_buf) input_buf Mem.fresh files).argv j) ∧
      argv2 (count_arguments input_buf) = .null ∧
      (∀ child acts,
        Event.fork child ∈ (main_body sys input_buf Mem.fresh files).trace →
        child = some acts →
        ChildAct.execv name argv2 ∈ acts ∧
        ∀ p v, ChildAct.execv p v ∈ acts → p = name ∧ v = argv2) := by
  obtain ⟨hargv, _, _⟩ :=
    accepted_capacity (count_arguments input_buf) input_buf Mem.fresh files hacc
  cases hout : construct_argv (count_arguments input_buf) input_buf Mem.fresh files with
  | nullDeref => rw [hout] at hacc; cases hacc
  | noFuel => rw [hout] at hacc; cases hacc
  | returned r d a f b =>
    rw [hout] at hacc h0 hargv
    cases d with
    | some dg => cases hacc
    | none =>
      simp only [Outcome.argv] at h0 hargv ⊢
      have hlen0 : ¬ ((0 : Int) = count_arguments input_buf) := by
        intro h
        rw [hargv] at h0
        simp [Mem.set, h] at h0
      have hstored : (storedList (false, false) (tokens input_buf))[0]? = some name := by
        rw [hargv] at h0
        simp only [Mem.set, hlen0, if_false] at h0
        rw [storeAll_apply] at h0
        by_cases hr : (0 : Int) ≤ 0 ∧
            (0 : Int) < 0 + ((storedList (false, false) (tokens input_buf)).length : Int)
        · rw [if_pos hr] at h0
          simp only [sub_zero, Int.toNat_zero] at h0
          cases hs : (storedList (false, false) (tokens input_buf))[0]? with
          | none => rw [hs] at h0; simp at h0
          | some u => rw [hs] at h0; simp only [Cell.tok.injEq] at h0; rw [h0]
        · rw [if_neg hr] at h0; simp [Mem.fresh] at h0
      have hmem : name ∈ tokens input_buf :=
        (storedList_sublist _ _).subset (List.getElem?_mem hstored)
      have hset := set_first_arg_spec a name h0 (tokens_no_NUL input_buf name hmem)
      refine ⟨hmem, ?_, _, hset, ?_, ?_, ?_⟩
      · intro t ts hts hst
        rw [hts] at hstored
        obtain ⟨h1, h2⟩ := not_startsRedir hst
        simp only [storedList, h1, h2, if_false, Bool.false_eq_true, List.getElem?_cons_zero,
          Option.some.injEq] at hstored
        exact hstored.symm
      · intro j hj
        simp only [Mem.set, hj, if_false]
      · have hne : ¬ (count_arguments input_buf = 0) := fun h => hlen0 h.symm
        simp only [Mem.set, hne, if_false]
        rw [hargv]
        simp [Mem.set]
      · intro child acts hfork hchild
        have := main_body_fork sys input_buf Mem.fresh files r a f b name _ hout h0 hset
          child hfork
        rw [hchild] at this
        exact child_execv _ name f r acts this.symm

theorem C12_literal_path_and_frame_witness :
    ((construct_argv (count_arguments "/bin/ls -l > out\n".toList) "/bin/ls -l > out\n".toList
        Mem.fresh Mem.cleared).accepted = true ∧
     (construct_argv (count_arguments "/bin/ls -l > out\n".toList) "/bin/ls -l > out\n".toList
        Mem.fresh Mem.cleared).argv 0 = .tok "/bin/ls".toList) ∧
    "/bin/ls".toList ∈ tokens "/bin/ls -l > out\n".toList ∧
    (∃ argv2 : Mem,
      (main_body Sys.ok "/bin/ls -l > out\n".toList Mem.fresh Mem.cleared).trace =
        [.fork (some [.close 1,
            .openFile "out".toList [.O_WRONLY, .O_CREAT, .O_TRUNC] (some 0o600),
            .execv "/bin/ls".toList argv2, .perror "execv", .exit 1]),
         .wait] ∧
      argv2 0 = .tok "ls".toList ∧ argv2 1 = .tok "-l".toList ∧ argv2 2 = .null) :=
  ⟨⟨by decide, by decide⟩,
    (C12_literal_path_and_frame Sys.ok "/bin/ls -l > out\n".toList Mem.cleared
      "/bin/ls".toList (by decide) (by decide)).1,
    ⟨_, rfl, by decide, by decide, by decide⟩⟩

end Frame

section DeclaredLength

/-- The loop of `construct_argv` assigns the cells of `argv` one after the
other from `count` on, one for each token it stores. -/
theorem loop_subscripts_spec : ∀ (fuel : Nat) (rest : List Char) (st : PState),
    rest.length < fuel → st.already_input = false → st.already_output = false →
    loop_subscripts fuel rest st =
      (List.range (storedList (st.is_input, st.is_output) (tokens rest)).length).map
        (fun i : Nat => st.count + (i : Int)) := by
  intro fuel
  induction fuel with
  | zero => intro rest st h; omega
  | succ fuel ih =>
    intro rest st hlt h1 h2
    have hs := strtok_isWs_spec rest
    cases ht : (strtok isWs rest).tok with
    | none =>
      rw [ht] at hs
      simp only at hs
      rw [hs]
      simp only [loop_subscripts, ht, storedList, List.length_nil, List.range_zero, List.map_nil]
    | some arg =>
      rw [ht] at hs
      simp only at hs
      have hlen : (strtok isWs rest).rest.length < fuel := by have := hs.2; omega
      have hne : ¬ ('>' : Char) = '<' := by decide
      rw [hs.1]
      by_cases hlt1 : arg.headD NUL = '<'
      · simp only [loop_subscripts, ht, classify_lt st arg hlt1 h1, assigned_subscript, hlt1,
          if_true, Option.toList, List.nil_append, storedList]
        rw [ih _ { st with is_input := true } hlen h1 h2]
      · by_cases hgt : arg.headD NUL = '>'
        · simp only [loop_subscripts, ht, classify_gt st arg hgt h2, assigned_subscript, hgt, hne,
            if_true, if_false, Option.toList, List.nil_append, storedList]
          rw [ih _ { st with
            append := if arg = ['>', '>'] then 1 else st.append, is_output := true } hlen h1 h2]
        · cases hi : st.is_input
          · cases ho : st.is_output
            · simp only [loop_subscripts, ht, classify_arg st arg hlt1 hgt hi ho,
                assigned_subscript, hlt1, hgt, hi, ho, if_false, Bool.false_eq_true,
                Option.toList, storedList, List.length_cons, List.singleton_append]
              have e := ih _
                { st with argv := st.argv.set st.count (.tok arg), count := st.count + 1 }
                hlen h1 h2
              simp only [hi, ho] at e
              rw [e]
              simp only [List.range_succ_eq_map, List.map_cons, List.map_map,
                Nat.cast_zero, add_zero, List.cons.injEq, true_and]
              apply List.map_congr_left
              intro i _
              simp only [Function.comp_apply, Nat.cast_succ]
              ring
            · simp only [loop_subscripts, ht, classify_out st arg hlt1 hgt hi ho,
                assigned_subscript, hlt1, hgt, hi, ho, if_false, if_true, Bool.false_eq_true,
                Option.toList, List.nil_append, storedList]
              have e := ih _ { st with files := st.files.set 1 (.tok arg), is_output := false }
                hlen h1 h2
              simp only [hi] at e
              rw [e]
          · simp only [loop_subscripts, ht, classify_in st arg hlt1 hgt hi,
              assigned_subscript, hlt1, hgt, hi, if_false, if_true,
              Option.toList, List.nil_append, storedList]
            rw [ih _ { st with files := st.files.set 0 (.tok arg), is_input := false }
              hlen h1 h2]

/-- The cells of `argv` a call of `construct_argv` assigns on a line with a
token: the cells 0, 1, ... for the tokens it stores, and then the cell
`arg_len` when it accepts the line. -/
theorem construct_argv_subscripts_spec (arg_len : Int) (input_buf : List Char)
    (argv files : Mem) (hne : tokens input_buf ≠ []) :
    construct_argv_subscripts arg_len input_buf argv files =
      (List.range (storedList (false, false) (tokens input_buf)).length).map
          (fun i : Nat => (i : Int)) ++
        (if (construct_argv arg_len input_buf argv files).accepted then [arg_len] else []) := by
  have hs := strtok_isWs_spec input_buf
  cases ht : (strtok isWs input_buf).tok with
  | none =>
    rw [ht] at hs
    exact absurd hs hne
  | some arg =>
    rw [ht] at hs
    simp only at hs
    have hgl : ¬ ('>' : Char) = '<' := by decide
    simp only [construct_argv_subscripts, ht]
    congr 1
    rw [hs.1]
    by_cases hlt1 : arg.headD NUL = '<'
    · have hft : first_token argv files arg = { init_state argv files with is_input := true } :=
        Except.ok.inj ((classify_first argv files arg).symm.trans (classify_lt _ arg hlt1 rfl))
      rw [hft, loop_subscripts_spec _ _ _ (by omega) rfl rfl]
      simp only [init_state, storedList, hlt1, if_true, List.nil_append, zero_add]
    · by_cases hgt : arg.headD NUL = '>'
      · have hft : first_token argv files arg = { init_state argv files with
            append := if arg = ['>', '>'] then 1 else (init_state argv files).append
            is_output := true } :=
          Except.ok.inj ((classify_first argv files arg).symm.trans (classify_gt _ arg hgt rfl))
        rw [hft, loop_subscripts_spec _ _ _ (by omega) rfl rfl]
        simp only [init_state, storedList, hgt, hgl, if_true, if_false, List.nil_append,
          zero_add]
      · have hft : first_token argv files arg = { init_state argv files with
            argv := (init_state argv files).argv.set (init_state argv files).count (.tok arg),
            count := (init_state argv files).count + 1 } :=
          Except.ok.inj
            ((classify_first argv files arg).symm.trans (classify_arg _ arg hlt1 hgt rfl rfl))
        rw [hft, loop_subscripts_spec _ _ _ (by omega) rfl rfl]
        simp only [init_state, hlt1, hgt, if_false, storedList, Bool.false_eq_true,
          List.length_cons, List.range_succ_eq_map, List.map_cons, List.map_map,
          Nat.cast_zero, List.singleton_append, List.cons.injEq, true_and, zero_add]
        apply List.map_congr_left
        intro i _
        simp only [Function.comp_apply, Nat.cast_succ]
        ring

/-- The cells 0, 1, ..., `k - 1` all lie inside an array of `len` cells exactly
when `k` is at most `len`. -/
theorem all_inArray_range (len : Int) (hl : 0 ≤ len) (k : Nat) :
    ((List.range k).map (fun i : Nat => (i : Int))).all (inArray len) = true ↔ (k : Int) ≤ len := by
  simp only [List.all_eq_true, List.mem_map, List.mem_range, inArray, Bool.and_eq_true,
    decide_eq_true_eq, forall_exists_index, and_imp]
  constructor
  · intro h
    cases k with
    | zero => simpa using hl
    | succ n =>
      have := h (n : Int) n (by omega) rfl
      push_cast
      omega
  · intro h x i hi hx
    subst hx
    omega

/-- A pass on an accepted line whose first stored token is `exit`, with `argv`
declared with `count_arguments + 1` cells. -/
theorem exit_line_pass (sys : Sys) (input_buf : List Char) (files : Mem)
    (hacc : (construct_argv (count_arguments input_buf) input_buf Mem.fresh files).accepted =
      true)
    (hname : (storedList (false, false) (tokens input_buf)).head? = some ['e', 'x', 'i', 't']) :
    main_body_declared sys input_buf files =
      if ((storedList (false, false) (tokens input_buf)).length : Int) ≤
          count_arguments input_buf + 1 then
        (if 1 ≤ count_arguments input_buf then Step.exit 0 [] else Step.reprompt [])
      else Step.undefined [] := by
  obtain ⟨hargv, _, _⟩ :=
    accepted_capacity (count_arguments input_buf) input_buf Mem.fresh files hacc
  have hne : tokens input_buf ≠ [] := by
    rcases construct_argv_tokens (count_arguments input_buf) input_buf Mem.fresh files with
      ⟨_, hn⟩ | ⟨h, _⟩
    · rw [hn] at hacc; cases hacc
    · exact h
  have hsub := construct_argv_subscripts_spec (count_arguments input_buf) input_buf
    Mem.fresh files hne
  rw [hacc] at hsub
  simp only [if_true] at hsub
  obtain ⟨tl, hS⟩ : ∃ tl, storedList (false, false) (tokens input_buf) =
      ['e', 'x', 'i', 't'] :: tl := by
    cases hl : storedList (false, false) (tokens input_buf) with
    | nil => rw [hl] at hname; cases hname
    | cons a tl =>
      rw [hl] at hname
      simp only [List.head?_cons, Option.some.injEq] at hname
      exact ⟨tl, by rw [hname]⟩
  have hk : (1 : Int) ≤ ((storedList (false, false) (tokens input_buf)).length : Int) := by
    rw [hS]; simp only [List.length_cons]; push_cast; omega
  have h0 : storeAll Mem.fresh 0 (storedList (false, false) (tokens input_buf)) 0 =
      .tok ['e', 'x', 'i', 't'] := by
    rw [hS]
    simp only [storeAll, storeAll_apply]
    rw [if_neg (by omega)]
    simp only [Mem.set, if_true]
  simp only [main_body_declared]
  by_cases hlen : count_arguments input_buf + 1 ≤ 0
  · rw [if_pos hlen, if_neg (by omega)]
  · rw [if_neg hlen, hsub, List.all_append]
    have hterm : [count_arguments input_buf].all (inArray (count_arguments input_buf + 1)) =
        true := by
      simp only [List.all_cons, List.all_nil, Bool.and_true, inArray, Bool.and_eq_true,
        decide_eq_true_eq]
      omega
    have hall := all_inArray_range (count_arguments input_buf + 1) (by omega)
      (storedList (false, false) (tokens input_buf)).length
    have hboth : ((((List.range (storedList (false, false) (tokens input_buf)).length).map
          (fun i : Nat => (i : Int))).all (inArray (count_arguments input_buf + 1)) &&
        [count_arguments input_buf].all (inArray (count_arguments input_buf + 1))) = true) ↔
        ((storedList (false, false) (tokens input_buf)).length : Int) ≤
          count_arguments input_buf + 1 := by
      rw [Bool.and_eq_true]
      exact ⟨fun h => hall.1 h.1, fun h => ⟨hall.2 h, hterm⟩⟩
    by_cases hfit : ((storedList (false, false) (tokens input_buf)).length : Int) ≤
        count_arguments input_buf + 1
    · rw [if_pos (hboth.2 hfit), if_pos hfit]
      by_cases hpos : 1 ≤ count_arguments input_buf
      · rw [if_pos hpos]
        apply main_body_exit sys input_buf Mem.fresh files hacc
        rw [hargv]
        have hne0 : ¬ ((0 : Int) = count_arguments input_buf) := by omega
        simp only [Mem.set, hne0, if_false]
        exact h0
      · rw [if_neg hpos]
        apply main_body_null sys input_buf Mem.fresh files hacc
        rw [hargv]
        have he0 : (0 : Int) = count_arguments input_buf := by omega
        simp only [Mem.set, he0, if_true]
    · rw [if_neg (fun h => hfit (hboth.1 h)), if_neg hfit]

/-- C8, the code at the failing input `exit a<b`: the command name is `exit`
(the loop of `construct_argv` stores it in `argv[0]`) and the line is accepted,
but `count_arguments` returns 0 for the two tokens stored, two less for the `<`
inside `a<b`.  So `argv` is declared with one cell, the token `a<b` is assigned
to `argv[1]`, outside the array, and the terminator is assigned to `argv[0]`
over `exit`.  Where the assignment outside the array does no other harm, `main`
takes the line for a blank one: it makes no call, does not return, and goes on
to the `memset` calls and the next `prompt`.  On `exit > a<b` the count is -1
and the array is declared with no cell.  On `exit < < in`, which is accepted
with both `<` sharing the path `in`, the count is 0 and `exit` is the only
token stored: every assignment is inside the array, the terminator is assigned
over `exit`, and `main` prompts again.  In general, on an accepted line whose
first stored token is `exit`: `main` returns 0 without having made a call when
the count is at least 1 and at least the number of stored tokens minus 1
(`exit now > log` is such a line); it prompts again when the count is 0 and
`exit` is the only stored token; and otherwise the pass is undefined, the
array having no cell or a stored token being assigned outside it. -/
theorem C8_exit_line_prompts_again :
    (∀ (sys : Sys) (input_buf : List Char) (files : Mem),
      (construct_argv (count_arguments input_buf) input_buf Mem.fresh files).accepted = true →
      (storedList (false, false) (tokens input_buf)).head? = some ['e', 'x', 'i', 't'] →
      main_body_declared sys input_buf files =
        if ((storedList (false, false) (tokens input_buf)).length : Int) ≤
            count_arguments input_buf + 1 then
          (if 1 ≤ count_arguments input_buf then Step.exit 0 [] else Step.reprompt [])
        else Step.undefined []) ∧
    (tokens "exit a<b\n".toList = ["exit".toList, "a<b".toList] ∧
     storedList (false, false) (tokens "exit a<b\n".toList) = ["exit".toList, "a<b".toList] ∧
     count_arguments "exit a<b\n".toList = 0 ∧
     (construct_argv (count_arguments "exit a<b\n".toList) "exit a<b\n".toList
        Mem.fresh Mem.fresh).accepted = true ∧
     construct_argv_subscripts (count_arguments "exit a<b\n".toList) "exit a<b\n".toList
        Mem.fresh Mem.fresh = [0, 1, 0] ∧
     (construct_argv (count_arguments "exit a<b\n".toList) "exit a<b\n".toList
        Mem.fresh Mem.fresh).argv 0 = .null ∧
     (construct_argv (count_arguments "exit a<b\n".toList) "exit a<b\n".toList
        Mem.fresh Mem.fresh).argv 1 = .tok "a<b".toList ∧
     (main_body_declared Sys.ok "exit a<b\n".toList Mem.fresh).status = none ∧
     (main_body_declared Sys.ok "exit a<b\n".toList Mem.fresh).isUndefined = true ∧
     (main_body Sys.ok "exit a<b\n".toList Mem.fresh Mem.fresh).status = none ∧
     (main_body Sys.ok "exit a<b\n".toList Mem.fresh Mem.fresh).kinds = [] ∧
     (main_body Sys.ok "exit a<b\n".toList Mem.fresh Mem.fresh).reprompts = true) ∧
    (storedList (false, false) (tokens "exit > a<b\n".toList) = ["exit".toList] ∧
     count_arguments "exit > a<b\n".toList = -1 ∧
     (construct_argv (count_arguments "exit > a<b\n".toList) "exit > a<b\n".toList
        Mem.fresh Mem.fresh).accepted = true ∧
     (main_body_declared Sys.ok "exit > a<b\n".toList Mem.fresh).status = none ∧
     (main_body_declared Sys.ok "exit > a<b\n".toList Mem.fresh).isUndefined = true) ∧
    (tokens "exit < < in\n".toList = ["exit".toList, "<".toList, "<".toList, "in".toList] ∧
     storedList (false, false) (tokens "exit < < in\n".toList) = ["exit".toList] ∧
     count_arguments "exit < < in\n".toList = 0 ∧
     (construct_argv (count_arguments "exit < < in\n".toList) "exit < < in\n".toList
        Mem.fresh Mem.fresh).accepted = true ∧
     construct_argv_subscripts (count_arguments "exit < < in\n".toList) "exit < < in\n".toList
        Mem.fresh Mem.fresh = [0, 0] ∧
     (construct_argv 1 "exit < < in\n".toList Mem.fresh Mem.fresh).argv 0 =
        .tok "exit".toList ∧
     (construct_argv (count_arguments "exit < < in\n".toList) "exit < < in\n".toList
        Mem.fresh Mem.fresh).argv 0 = .null ∧
     (main_body_declared Sys.ok "exit < < in\n".toList Mem.fresh).status = none ∧
     (main_body_declared Sys.ok "exit < < in\n".toList Mem.fresh).kinds = [] ∧
     (main_body_declared Sys.ok "exit < < in\n".toList Mem.fresh).reprompts = true) ∧
    (storedList (false, false) (tokens "exit now > log\n".toList) =
        ["exit".toList, "now".toList] ∧
     count_arguments "exit now > log\n".toList = 2 ∧
     (main_body_declared Sys.ok "exit now > log\n".toList Mem.fresh).status = some 0 ∧
     (main_body_declared Sys.ok "exit now > log\n".toList Mem.fresh).kinds = []) := by
  refine ⟨?_, by decide, by decide, by decide, by decide⟩
  intro sys input_buf files hacc hname
  exact exit_line_pass sys input_buf files hacc hname

end DeclaredLength

section RedirectionState

/-- On a line whose operators are the tokens `<`, `>` and `>>`, each followed
by its path, `construct_argv` leaves a cell of `files` as it finds it when the
line holds no operator for that cell. -/
theorem construct_argv_files_frame (input_buf : List Char) (argv files : Mem)
    (hne : tokens input_buf ≠ [])
    (hops : ∀ t ∈ tokens input_buf, startsRedir t = isOperator t)
    (hfol : followed isOperator false (tokens input_buf) = true) :
    (construct_argv (count_arguments input_buf) input_buf argv files).accepted = true ∧
    ∀ i, (∀ t ∈ tokens input_buf, isOperator t = true → redirIndex t ≠ i) →
      (construct_argv (count_arguments input_buf) input_buf argv files).files i = files i := by
  rcases construct_argv_tokens (count_arguments input_buf) input_buf argv files with
    ⟨h0, _⟩ | ⟨_, b, hb⟩
  · exact absurd h0 hne
  · obtain ⟨st1, hf, hi1, ho1, _, _, hF, _⟩ :=
      feed_followed (tokens input_buf) hfol hops (init_state argv files) rfl rfl rfl rfl
    rw [hb, hf]
    simp only [conclude, hi1, ho1, Bool.false_eq_true, if_false, Outcome.accepted,
      Outcome.files, true_and]
    intro i hi
    exact hF i hi

/-- C15, the code: no statement gives `files` a value that does not come from
an operator of the line being parsed.  `construct_argv` assigns `files[0]` and
`files[1]` only when it takes a path: on a line whose operators are the tokens
`<`, `>` and `>>`, each followed by its path, a cell for which the line holds
no operator (0 for `<`, 1 for `>` and `>>`) is returned as it was found, and
on every line without an operator the whole array is; and `main` declares
`char *files[2]` in the loop body without an initialiser, so the child forked
for such a line tests cells that were never assigned (`/bin/ls -l` in a first
pass).  At the failing input `/bin/ls > out <` with both cells NULL, the call
stores `out` in `files[1]` and then rejects the line for the `<` without a
path; the pass ends in `continue`, no statement touches `files` or the buffer,
and the next pass parses the buffer as `strtok` left it, which reads
`/bin/ls`.  That line holds no operator and is accepted; where `files` still
holds what the rejected pass left (a pointer to the bytes `out`, which are
still at offset 10 of the buffer), the child forked for `/bin/ls` closes
descriptor 1 and opens `out`.  In both passes every assignment to `argv` is
inside the array. -/
theorem C15_redirection_spec_not_reset :
    (∀ (input_buf : List Char) (argv files : Mem), tokens input_buf ≠ [] →
      (∀ t ∈ tokens input_buf, startsRedir t = isOperator t) →
      followed isOperator false (tokens input_buf) = true →
      (construct_argv (count_arguments input_buf) input_buf argv files).accepted = true ∧
      ∀ i, (∀ t ∈ tokens input_buf, isOperator t = true → redirIndex t ≠ i) →
        (construct_argv (count_arguments input_buf) input_buf argv files).files i = files i) ∧
    (∀ (input_buf : List Char) (argv files : Mem), tokens input_buf ≠ [] →
      (∀ t ∈ tokens input_buf, startsRedir t = false) →
      (construct_argv (count_arguments input_buf) input_buf argv files).accepted = true ∧
      ∀ i, (construct_argv (count_arguments input_buf) input_buf argv files).files i =
        files i) ∧
    (∀ (argv : Mem) (file_name : List Char) (files : Mem) (is_append : Int),
      files 0 = .unwritten ∨ files 1 = .unwritten →
      handle_child_process argv file_name files is_append = none) ∧
    (main_body_declared Sys.ok "/bin/ls -l\n".toList Mem.fresh).trace = [.fork none, .wait] ∧
    ((main_body_declared Sys.ok "/bin/ls > out <\n".toList Mem.cleared).kinds =
        [.diag .noInput] ∧
     (main_body_declared Sys.ok "/bin/ls > out <\n".toList Mem.cleared).rerun =
        some ("/bin/ls".toList ++ [NUL] ++ ['>', NUL] ++ "out".toList ++ [NUL] ++ ['<', NUL]) ∧
     (construct_argv (count_arguments "/bin/ls > out <\n".toList) "/bin/ls > out <\n".toList
        Mem.fresh Mem.cleared).files 0 = .null ∧
     (construct_argv (count_arguments "/bin/ls > out <\n".toList) "/bin/ls > out <\n".toList
        Mem.fresh Mem.cleared).files 1 = .tok "out".toList) ∧
    (tokens ("/bin/ls".toList ++ [NUL] ++ ['>', NUL] ++ "out".toList ++ [NUL] ++ ['<', NUL]) =
        ["/bin/ls".toList] ∧
     cstr (("/bin/ls".toList ++ [NUL] ++ ['>', NUL] ++ "out".toList ++ [NUL] ++
        ['<', NUL]).drop 10) = "out".toList ∧
     (construct_argv
        (count_arguments
          ("/bin/ls".toList ++ [NUL] ++ ['>', NUL] ++ "out".toList ++ [NUL] ++ ['<', NUL]))
        ("/bin/ls".toList ++ [NUL] ++ ['>', NUL] ++ "out".toList ++ [NUL] ++ ['<', NUL])
        Mem.fresh
        (construct_argv (count_arguments "/bin/ls > out <\n".toList)
          "/bin/ls > out <\n".toList Mem.fresh Mem.cleared).files).accepted = true ∧
     (construct_argv
        (count_arguments
          ("/bin/ls".toList ++ [NUL] ++ ['>', NUL] ++ "out".toList ++ [NUL] ++ ['<', NUL]))
        ("/bin/ls".toList ++ [NUL] ++ ['>', NUL] ++ "out".toList ++ [NUL] ++ ['<', NUL])
        Mem.fresh
        (construct_argv (count_arguments "/bin/ls > out <\n".toList)
          "/bin/ls > out <\n".toList Mem.fresh Mem.cleared).files).buf =
        "/bin/ls".toList ++ [NUL] ++ ['>', NUL] ++ "out".toList ++ [NUL] ++ ['<', NUL] ∧
     (construct_argv
        (count_arguments
          ("/bin/ls".toList ++ [NUL] ++ ['>', NUL] ++ "out".toList ++ [NUL] ++ ['<', NUL]))
        ("/bin/ls".toList ++ [NUL] ++ ['>', NUL] ++ "out".toList ++ [NUL] ++ ['<', NUL])
        Mem.fresh
        (construct_argv (count_arguments "/bin/ls > out <\n".toList)
          "/bin/ls > out <\n".toList Mem.fresh Mem.cleared).files).files 1 =
        .tok "out".toList) ∧
    (∃ argv2 : Mem,
      (main_body_declared Sys.ok
        ("/bin/ls".toList ++ [NUL] ++ ['>', NUL] ++ "out".toList ++ [NUL] ++ ['<', NUL])
        (construct_argv (count_arguments "/bin/ls > out <\n".toList)
          "/bin/ls > out <\n".toList Mem.fresh Mem.cleared).files).trace =
        [.fork (some [.close 1,
            .openFile "out".toList [.O_WRONLY, .O_CREAT, .O_TRUNC] (some 0o600),
            .execv "/bin/ls".toList argv2, .perror "execv", .exit 1]),
         .wait]) := by
  refine ⟨?_, ?_, ?_, rfl, by decide, by decide, ⟨_, rfl⟩⟩
  · intro input_buf argv files hne hops hfol
    exact construct_argv_files_frame input_buf argv files hne hops hfol
  · intro input_buf argv files hne hplain
    exact construct_argv_files_kept input_buf argv files hne hplain
  · intro argv file_name files is_append h
    exact child_of_unassigned_files argv file_name files is_append h

end RedirectionState
